import Mathlib

/-!
Verification development for the deterministic tab-classification engine of the
TabOrgAI browser extension (the tab-utilities module: URL canonicalization,
duplicate detection, rule matching, keyword classification, category limiting
and group assembly).

The JavaScript source is shallowly embedded:
* JS strings are Lean `String`s; all string algorithms work on the underlying
  character lists so that every definition evaluates inside the kernel.
* JS floating-point numbers are modelled as exact rationals represented by
  unreduced fractions (`JSNum`); integer-valued quantities (ids, indexes,
  priorities, timestamps) are modelled as `Nat`/`Int`.
* JS `Map`s and `Set`s are modelled as insertion-ordered association lists,
  matching the iteration-order semantics the source relies on.
* Mutation is modelled by explicit state passing; the two unbounded `while`
  loops of the source are modelled with explicit fuel.
* The WHATWG URL parser used through `new URL(...)` is modelled by `parseUrl`,
  which covers well-formed absolute URLs of the shape
  `scheme://host[/path][?query][#fragment]` without userinfo, port numbers or
  percent-escapes; JS `RegExp` patterns attached to rules are modelled as
  boolean string predicates, and the concrete regular expressions appearing in
  the source are translated to explicit character-level matchers.
-/

namespace TabOrg

/-! ## Exact rational model of JS numbers -/

/-- Exact rational model of a JS floating-point number, kept as an unreduced
fraction so that all arithmetic is structural and kernel-computable. -/
structure JSNum where
  num : Int
  den : Nat
deriving Repr, DecidableEq

/-- Embed an integer as a JS number. -/
def JSNum.ofInt (n : Int) : JSNum := ⟨n, 1⟩

/-- Addition of JS numbers. -/
def JSNum.add (a b : JSNum) : JSNum := ⟨a.num * b.den + b.num * a.den, a.den * b.den⟩

/-- Subtraction of JS numbers. -/
def JSNum.sub (a b : JSNum) : JSNum := ⟨a.num * b.den - b.num * a.den, a.den * b.den⟩

/-- Multiplication of JS numbers. -/
def JSNum.mul (a b : JSNum) : JSNum := ⟨a.num * b.num, a.den * b.den⟩

/-- Division of a JS number by a positive integer constant. -/
def JSNum.divNat (a : JSNum) (k : Nat) : JSNum := ⟨a.num, a.den * k⟩

/-- Absolute value, modelling `Math.abs`. -/
def JSNum.abs (a : JSNum) : JSNum := ⟨(a.num.natAbs : Int), a.den⟩

/-- Value-level order on JS numbers (comparison of the represented rationals). -/
def JSNum.le (a b : JSNum) : Prop := a.num * (b.den : Int) ≤ b.num * (a.den : Int)

/-- Strict value-level order on JS numbers. -/
def JSNum.lt (a b : JSNum) : Prop := a.num * (b.den : Int) < b.num * (a.den : Int)

/-- Value-level equality of JS numbers. -/
def JSNum.valEq (a b : JSNum) : Prop := a.num * (b.den : Int) = b.num * (a.den : Int)

instance (a b : JSNum) : Decidable (JSNum.le a b) := by
  unfold JSNum.le; infer_instance

instance (a b : JSNum) : Decidable (JSNum.lt a b) := by
  unfold JSNum.lt; infer_instance

instance (a b : JSNum) : Decidable (JSNum.valEq a b) := by
  unfold JSNum.valEq; infer_instance

/-- A JS number representation with a positive denominator; every number the
engine constructs satisfies this. -/
def JSNum.Pos (a : JSNum) : Prop := 0 < a.den

theorem JSNum.le_total (a b : JSNum) : JSNum.le a b ∨ JSNum.le b a := by
  unfold JSNum.le; exact Int.le_total _ _

theorem JSNum.le_refl (a : JSNum) : JSNum.le a a := by
  unfold JSNum.le; exact le_rfl

theorem JSNum.le_trans {a b c : JSNum} (hb : JSNum.Pos b)
    (hab : JSNum.le a b) (hbc : JSNum.le b c) : JSNum.le a c := by
  unfold JSNum.le at hab hbc ⊢
  have hbden : (0 : Int) < (b.den : Int) := by exact_mod_cast hb
  have h1 : a.num * (b.den : Int) * (c.den : Int) ≤ b.num * (a.den : Int) * (c.den : Int) :=
    mul_le_mul_of_nonneg_right hab (Int.natCast_nonneg _)
  have h2 : b.num * (c.den : Int) * (a.den : Int) ≤ c.num * (b.den : Int) * (a.den : Int) :=
    mul_le_mul_of_nonneg_right hbc (Int.natCast_nonneg _)
  have h3 : a.num * (c.den : Int) * (b.den : Int) ≤ c.num * (a.den : Int) * (b.den : Int) := by
    calc a.num * (c.den : Int) * (b.den : Int)
        = a.num * (b.den : Int) * (c.den : Int) := by ring
      _ ≤ b.num * (a.den : Int) * (c.den : Int) := h1
      _ = b.num * (c.den : Int) * (a.den : Int) := by ring
      _ ≤ c.num * (b.den : Int) * (a.den : Int) := h2
      _ = c.num * (a.den : Int) * (b.den : Int) := by ring
  exact le_of_mul_le_mul_right h3 hbden

/-! ## Character-level string utilities

The JS string operations used by the source are re-implemented over the
character list underlying a Lean `String`, so that all of them reduce in the
kernel. -/

/-- Build a string from its characters. -/
def strOfChars (cs : List Char) : String := String.mk cs

/-- Structurally recursive indexed map (kernel-computable replacement for the
library `mapIdx`). -/
def mapIdxFrom {α β : Type} (f : Nat → α → β) : Nat → List α → List β
  | _, [] => []
  | i, a :: t => f i a :: mapIdxFrom f (i + 1) t

/-- Structurally recursive enumeration with indexes starting at 0. -/
def enumFrom {α : Type} : Nat → List α → List (Nat × α)
  | _, [] => []
  | i, a :: t => (i, a) :: enumFrom (i + 1) t

/-- Lowercase a string, modelling `String.prototype.toLowerCase` on the
basic-latin range used by the engine. -/
def strToLower (s : String) : String := strOfChars (s.data.map Char.toLower)

/-- Uppercase a string, modelling `String.prototype.toUpperCase` on the
basic-latin range used by the engine. -/
def strToUpper (s : String) : String := strOfChars (s.data.map Char.toUpper)

/-- Model of `String.prototype.startsWith`. -/
def strStartsWith (s p : String) : Bool := p.data.isPrefixOf s.data

/-- Suffix test on character lists. -/
def suffixOfChars (p l : List Char) : Bool := p.reverse.isPrefixOf l.reverse

/-- Model of `String.prototype.endsWith`. -/
def strEndsWith (s p : String) : Bool := suffixOfChars p.data s.data

/-- Infix test on character lists. -/
def infixOfChars (p : List Char) : List Char → Bool
  | [] => p.isEmpty
  | c :: t => p.isPrefixOf (c :: t) || infixOfChars p t

/-- Model of `String.prototype.includes`. -/
def strContainsSub (s p : String) : Bool := infixOfChars p.data s.data

/-- Drop the first `n` characters of a string. -/
def strDrop (s : String) (n : Nat) : String := strOfChars (s.data.drop n)

/-- Take the first `n` characters of a string. -/
def strTake (s : String) (n : Nat) : String := strOfChars (s.data.take n)

/-- Number of characters of a string (JS `length` for basic-plane text). -/
def strLen (s : String) : Nat := s.data.length

/-- Split a character list on a separator character, keeping empty pieces as
`String.prototype.split` does. -/
def splitCharsOn (sep : Char) : List Char → List (List Char)
  | [] => [[]]
  | c :: t =>
    let rest := splitCharsOn sep t
    if c = sep then [] :: rest
    else
      match rest with
      | [] => [[c]]
      | piece :: more => (c :: piece) :: more

/-- Model of `String.prototype.split` with a single-character separator. -/
def strSplitOn (sep : Char) (s : String) : List String :=
  (splitCharsOn sep s.data).map strOfChars

/-- Join strings with a separator, modelling `Array.prototype.join`. -/
def strJoin (sep : String) : List String → String
  | [] => ""
  | [s] => s
  | s :: t => s ++ sep ++ strJoin sep t

/-- JS whitespace predicate for the characters relevant to this code base. -/
def isJsSpace (c : Char) : Bool := c = ' ' || c = '\t' || c = '\n' || c = '\r'

/-- Model of `String.prototype.trim`. -/
def strTrim (s : String) : String :=
  strOfChars (((s.data.dropWhile isJsSpace).reverse.dropWhile isJsSpace).reverse)

/-- Collapse every whitespace run to a single space, modelling
`replace(/\s+/g, ' ')` (a whitespace character is kept as one space unless the
next character continues the same run). -/
def collapseSpaceChars : List Char → List Char
  | [] => []
  | c :: t =>
    let rest := collapseSpaceChars t
    if isJsSpace c then
      match t with
      | t0 :: _ => if isJsSpace t0 then rest else ' ' :: rest
      | [] => [' ']
    else c :: rest

/-- Lexicographic code-point comparison of strings, modelling the comparator
`a.localeCompare(b)` for the ASCII keys the engine sorts. -/
def charsLe : List Char → List Char → Bool
  | [], _ => true
  | _ :: _, [] => false
  | a :: as, b :: bs => if a = b then charsLe as bs else decide (a.val < b.val)

/-- String comparison used when sorting query-parameter keys. -/
def strLe (a b : String) : Bool := charsLe a.data b.data

/-- Decimal rendering of natural numbers used when the source builds strings
with template literals. -/
def natToString (n : Nat) : String := Nat.repr n

/-- Model of the JS truthiness test on an optional string: `null`, `undefined`
and the empty string are falsy. -/
def jsTruthy : Option String → Bool
  | none => false
  | some s => s ≠ ""

/-- Model of the JS `||` chain on optional strings. -/
def jsOrStr (a b : Option String) : Option String :=
  if jsTruthy a then a else b

/-! ## Constant tables of the module -/

/-- Valid Chrome tab-group colors (`VALID_GROUP_COLORS`). -/
def VALID_GROUP_COLORS : List String :=
  ["grey", "blue", "red", "yellow", "green", "pink", "purple", "cyan", "orange"]

/-- Query-parameter name blocklist by prefix (`TRACKING_PARAM_PREFIXES`). -/
def TRACKING_PARAM_PREFIXES : List String := ["utm_", "vero_", "mc_"]

/-- Query-parameter name blocklist by exact name (`TRACKING_PARAM_NAMES`). -/
def TRACKING_PARAM_NAMES : List String :=
  ["gclid", "fbclid", "igshid", "yclid", "vero_conv", "vero_id", "mc_cid",
   "mc_eid", "spm", "camp", "campaign", "aff", "ref", "ref_src", "referrer",
   "si", "s", "feature", "t", "dclid", "msclkid", "scid", "oly_enc_id",
   "oly_anon_id"]

/-- Stop-word list used by the tokenizer (`STOP_WORDS`). -/
def STOP_WORDS : List String :=
  ["a", "an", "and", "are", "as", "at", "be", "but", "by", "for", "from",
   "has", "have", "in", "is", "it", "its", "of", "on", "or", "the", "to",
   "was", "with", "via", "that", "this", "your", "you", "me", "we", "our",
   "they", "their", "them", "http", "https", "www"]

/-- Known multi-level public suffixes (`MULTI_LEVEL_TLDS`). -/
def MULTI_LEVEL_TLDS : List String :=
  ["co.uk", "ac.uk", "gov.uk", "ltd.uk", "me.uk", "org.uk", "plc.uk",
   "sch.uk", "co.jp", "ne.jp", "or.jp", "ac.jp", "ad.jp", "co.kr", "or.kr",
   "go.kr", "co.nz", "gov.nz", "ac.nz", "com.au", "gov.au", "edu.au",
   "net.au", "org.au", "com.br", "com.cn", "com.hk", "co.in", "firm.in",
   "gen.in", "ind.in", "co.za"]

/-! ## Tab snapshots -/

/-- Immutable view of one browser tab at plan-construction time. The
last-accessed timestamp is modelled as integer milliseconds. -/
structure TabSnapshot where
  id : Nat
  title : String
  url : String
  pinned : Bool
  audible : Bool
  active : Bool
  index : Nat
  lastAccessed : Option Int
deriving Repr, DecidableEq

/-! ## URL model -/

/-- Parsed view of a URL, modelling the fields of the WHATWG `URL` object the
engine reads: `protocol` (with trailing colon, lowercased), `hostname`
(lowercased), `pathname`, and the search parameters as an ordered list of
key-value pairs. -/
structure ParsedUrl where
  protocol : String
  hostname : String
  pathname : String
  query : List (String × String)
deriving Repr, DecidableEq

/-- Split a character list at the first occurrence of a separator sequence. -/
def splitFirstSeq (sep : List Char) : List Char → Option (List Char × List Char)
  | [] => if sep.isEmpty then some ([], []) else none
  | c :: t =>
    if sep.isPrefixOf (c :: t) then some ([], (c :: t).drop sep.length)
    else
      match splitFirstSeq sep t with
      | some (pre, post) => some (c :: pre, post)
      | none => none

/-- Scheme characters accepted by the URL model. -/
def isSchemeChar (c : Char) : Bool :=
  c.isAlpha || c.isDigit || c = '+' || c = '-' || c = '.'

/-- Parse one `key=value` piece of a query string. -/
def parseQueryPiece (cs : List Char) : String × String :=
  match splitFirstSeq ['='] cs with
  | some (k, v) => (strOfChars k, strOfChars v)
  | none => (strOfChars cs, "")

/-- Parse a raw query string into ordered key-value pairs, modelling
`URLSearchParams` for percent-escape-free input (empty `&&` pieces are
skipped, a piece without `=` gets the empty value). -/
def parseQueryString (cs : List Char) : List (String × String) :=
  ((splitCharsOn '&' cs).filter (fun p => ¬ p.isEmpty)).map parseQueryPiece

/-- Model of the WHATWG URL parser for absolute `scheme://...` URLs without
userinfo, port numbers or percent-escapes; any other input is treated as
unparsable (`new URL` throwing). -/
def parseUrl (raw : String) : Option ParsedUrl :=
  match splitFirstSeq ['/', '/'] raw.data with
  | none => none
  | some (beforeSlashes, rest) =>
    match beforeSlashes.reverse with
    | ':' :: schemeRev =>
      let scheme := schemeRev.reverse
      if scheme.isEmpty then none
      else if ¬ (scheme.all isSchemeChar) then none
      else if ¬ (scheme.headD 'a').isAlpha then none
      else
        let noFrag := rest.takeWhile (fun c => c ≠ '#')
        let authority := noFrag.takeWhile (fun c => c ≠ '/' ∧ c ≠ '?')
        let afterAuth := noFrag.drop authority.length
        if authority.isEmpty then none
        else if authority.any (fun c => c = '@' ∨ c = ':') then none
        else
          let hostname := strToLower (strOfChars authority)
          let pathChars := afterAuth.takeWhile (fun c => c ≠ '?')
          let queryChars := (afterAuth.drop pathChars.length).drop 1
          let pathname := if pathChars.isEmpty then "/" else strOfChars pathChars
          some ⟨strToLower (strOfChars (scheme ++ [':'])), hostname, pathname,
            parseQueryString queryChars⟩
    | _ => none

/-- Model of `safeUrl`: parse a URL, returning `none` when parsing fails or
the input is empty. -/
def safeUrl (rawUrl : String) : Option ParsedUrl :=
  if rawUrl = "" then none else parseUrl rawUrl

/-- First value for a key, modelling `URLSearchParams.get` (which returns the
first occurrence or `null`). -/
def getParam (q : List (String × String)) (k : String) : Option String :=
  (q.find? (fun kv => kv.1 = k)).map (fun kv => kv.2)

/-- All values for a key, modelling `URLSearchParams.getAll`. -/
def getAllParams (q : List (String × String)) (k : String) : List (String × String) :=
  q.filter (fun kv => kv.1 = k)

/-! ## Host and path normalization helpers -/

/-- Model of `normalizeHost`: strip one leading `www.` (case-insensitively)
and lowercase. -/
def normalizeHost (host : String) : String :=
  let stripped := if strToLower (strTake host 4) = "www." then strDrop host 4 else host
  strToLower stripped

/-- Model of `normalizePath`: remove trailing slashes and ensure a single
leading slash. -/
def normalizePath (pathname : String) : String :=
  if pathname = "" then "/"
  else
    let cleaned := strOfChars ((pathname.data.reverse.dropWhile (fun c => c = '/')).reverse)
    let withSlash := if strStartsWith cleaned "/" then cleaned else "/" ++ cleaned
    if withSlash = "/" then "/" else withSlash

/-- Model of `deburr`. The source strips combining diacritics through Unicode
NFD normalization; the engine only ever feeds it text that is already free of
diacritics, so the model is the identity. -/
def deburr (value : String) : String := value

/-- Model of `truncateLabel`: trim, collapse whitespace runs, and cap display
labels at 28 characters with an ellipsis. -/
def truncateLabel (label : String) : String :=
  let trimmed := strTrim (strOfChars (collapseSpaceChars label.data))
  if strLen trimmed ≤ 28 then trimmed
  else strTake trimmed 25 ++ "…"

/-- Model of `sanitizeGroupColor`: keep only valid Chrome group colors. -/
def sanitizeGroupColor (value : Option String) : Option String :=
  match value with
  | none => none
  | some v =>
    let normalized := strToLower (strTrim v)
    if VALID_GROUP_COLORS.contains normalized then some normalized else none

/-! ## Query-parameter sanitization -/

/-- Decide whether a query key (already lowercased) survives the tracking
blocklists and the service-specific key whitelists of `sanitizeQueryParams`. -/
def keepQueryKey (host path : String) (lower : String) : Bool :=
  if TRACKING_PARAM_PREFIXES.any (fun p => strStartsWith lower p) then false
  else if TRACKING_PARAM_NAMES.contains lower then false
  else if strContainsSub host "google." && lower ≠ "q" &&
      (path = "/" || strStartsWith path "/search") then false
  else if (strEndsWith host "youtube.com" || strEndsWith host "youtu.be") &&
      lower ≠ "v" && lower ≠ "list" then false
  else if strContainsSub host "amazon." && lower ≠ "k" && lower ≠ "node" then false
  else true

/-- Model of `sanitizeQueryParams`. The source iterates `searchParams.keys()`
(one key per entry, duplicates included), appends `getAll(key)` for every
surviving key occurrence, and then rebuilds the list grouped under the
lexicographically sorted key sequence (again one key per entry). -/
def sanitizeQueryParams (searchParams : List (String × String)) (host path : String) :
    List (String × String) :=
  let collected := searchParams.foldl
    (fun acc kv =>
      if keepQueryKey host path (strToLower kv.1) then acc ++ getAllParams searchParams kv.1
      else acc) []
  let sortedKeys := List.insertionSort (fun a b => strLe a b = true)
    (collected.map (fun kv => kv.1))
  sortedKeys.foldl (fun acc k => acc ++ getAllParams collected k) []

/-- Serialize query parameters, modelling `URLSearchParams.toString` for
percent-escape-free values. -/
def paramsToString (params : List (String × String)) : String :=
  strJoin "&" (params.map (fun kv => kv.1 ++ "=" ++ kv.2))

/-! ## Service-specific canonicalization -/

/-- The host/path/params triple the canonicalizer assembles (the source also
carries a constant `protocol: 'https'` field, which the final template
hardcodes). -/
structure CanonParts where
  host : String
  path : String
  params : List (String × String)
deriving Repr, DecidableEq

/-- Remove one leading slash, modelling `replace(/^\//, '')`. -/
def dropOneLeadingSlash (s : String) : String :=
  match s.data with
  | '/' :: t => strOfChars t
  | _ => s

/-- Path segments with empty pieces removed, modelling
`path.split('/').filter(Boolean)`. -/
def pathFilteredParts (s : String) : List String :=
  (strSplitOn '/' s).filter (fun p => p ≠ "")

/-- Alphanumeric character test (any case). -/
def isAlnumAnyCase (c : Char) : Bool := c.isAlpha || c.isDigit

/-- Uppercase-or-digit character test, for the case-sensitive `[A-Z0-9]`
character class. -/
def isUpperAlnum (c : Char) : Bool := ('A' ≤ c && c ≤ 'Z') || c.isDigit

/-- Uppercase-letter test, for the case-sensitive `[A-Z]` character class. -/
def isUpperAlpha (c : Char) : Bool := 'A' ≤ c && c ≤ 'Z'

/-- Issue-key matcher for the pattern `KEYCHARS+-\d+` anchored at the start of
a path segment: a maximal nonempty run of key characters, a dash, and a
maximal nonempty run of digits. -/
def issueKeyOf (keyChar : Char → Bool) (seg : String) : Option String :=
  let run := seg.data.takeWhile keyChar
  let rest := seg.data.drop run.length
  if run.isEmpty then none
  else
    match rest with
    | '-' :: rest2 =>
      let digits := rest2.takeWhile Char.isDigit
      if digits.isEmpty then none else some (strOfChars (run ++ '-' :: digits))
    | _ => none

/-- Scan raw path segments for a literal segment followed by an issue key,
modelling the searching regexes `/\/LIT\/(KEY)/` of the source (`litLower`
selects a case-insensitive literal). -/
def issueSegScan (litLower : Bool) (lit : String) (keyChar : Char → Bool) :
    List String → Option String
  | [] => none
  | seg :: rest =>
    let hit := if litLower then strToLower seg = lit else seg = lit
    if hit then
      match rest with
      | next :: _ =>
        match issueKeyOf keyChar next with
        | some k => some k
        | none => issueSegScan litLower lit keyChar rest
      | [] => none
    else issueSegScan litLower lit keyChar rest

/-- Scan raw path segments for the Jira issue patterns
`/browse/KEY` and `/jira/software/c/projects/P/boards/B/KEY`
(case-insensitive), returning the uppercased key. -/
def jiraIssueScan : List String → Option String
  | [] => none
  | seg :: rest =>
    if strToLower seg = "browse" then
      match rest with
      | next :: _ =>
        match issueKeyOf isAlnumAnyCase next with
        | some k => some (strToUpper k)
        | none => jiraIssueScan rest
      | [] => none
    else if strToLower seg = "jira" then
      match rest with
      | s1 :: s2 :: s3 :: p :: s4 :: b :: next :: _ =>
        if strToLower s1 = "software" && strToLower s2 = "c" &&
            strToLower s3 = "projects" && p ≠ "" && strToLower s4 = "boards" && b ≠ "" then
          match issueKeyOf isAlnumAnyCase next with
          | some k => some (strToUpper k)
          | none => jiraIssueScan rest
        else jiraIssueScan rest
      | _ => jiraIssueScan rest
    else jiraIssueScan rest

/-- Scan raw path segments for `/dp/RUN` with an uppercase-alphanumeric run of
at least six characters, modelling `/\/dp\/([A-Z0-9]{6,})/`. -/
def amazonDpScan : List String → Option String
  | [] => none
  | seg :: rest =>
    if seg = "dp" then
      match rest with
      | next :: _ =>
        let run := next.data.takeWhile isUpperAlnum
        if 6 ≤ run.length then some (strOfChars run) else amazonDpScan rest
      | [] => none
    else amazonDpScan rest

/-- Scan raw path segments for `/gp/product/RUN`, modelling
`/\/gp\/product\/([A-Z0-9]{6,})/`. -/
def amazonGpScan : List String → Option String
  | [] => none
  | seg :: rest =>
    if seg = "gp" then
      match rest with
      | nxt :: nxt2 :: _ =>
        if nxt = "product" then
          let run := nxt2.data.takeWhile isUpperAlnum
          if 6 ≤ run.length then some (strOfChars run) else amazonGpScan rest
        else amazonGpScan rest
      | _ => amazonGpScan rest
    else amazonGpScan rest

/-- Scan raw path segments for `/itm/DIGITS`, modelling `/\/itm\/(\d+)/`. -/
def ebayItmScan : List String → Option String
  | [] => none
  | seg :: rest =>
    if seg = "itm" then
      match rest with
      | next :: _ =>
        let run := next.data.takeWhile Char.isDigit
        if run.isEmpty then ebayItmScan rest else some (strOfChars run)
      | [] => none
    else ebayItmScan rest

/-- Raw split of a pathname on slashes (empty pieces kept), used by the
segment scans above. -/
def rawSlashParts (s : String) : List String := strSplitOn '/' s

/-- GitHub service branch of `applyServiceCanonicalization`: the repo match
`/^\/(.+?)\/(.+?)(?:\/|$)/` is modelled on the segment decomposition of the
normalized path (owner and repo are the first two nonempty segments; the tail
is the remainder of the path, reproducing `path.slice(match[0].length - 1)`,
which yields the last repo character when nothing follows). -/
def githubBranch (path : String) : Option CanonParts :=
  match path.data with
  | '/' :: restChars =>
    match splitCharsOn '/' restChars with
    | ownerCs :: repoCs :: tailSegs =>
      if ownerCs.isEmpty || repoCs.isEmpty then none
      else
        let owner := strOfChars ownerCs
        let repo := strOfChars repoCs
        let tail : String :=
          if tailSegs.isEmpty then strOfChars (repoCs.drop (repoCs.length - 1))
          else "/" ++ strJoin "/" (tailSegs.map strOfChars)
        let tailParts := rawSlashParts tail
        if strStartsWith tail "/pull/" then
          match tailParts.get? 2 with
          | some pr =>
            if pr ≠ "" then
              some ⟨"github.com", "/" ++ owner ++ "/" ++ repo ++ "/pull/" ++ pr, []⟩
            else none
          | none => none
        else if strStartsWith tail "/issues/" then
          match tailParts.get? 2 with
          | some issue =>
            if issue ≠ "" then
              some ⟨"github.com", "/" ++ owner ++ "/" ++ repo ++ "/issues/" ++ issue, []⟩
            else none
          | none => none
        else if strStartsWith tail "/discussions/" then
          match tailParts.get? 2 with
          | some d =>
            if d ≠ "" then
              some ⟨"github.com", "/" ++ owner ++ "/" ++ repo ++ "/discussions/" ++ d, []⟩
            else none
          | none => none
        else if strStartsWith tail "/commit/" then
          match tailParts.get? 2 with
          | some c =>
            if c ≠ "" then
              some ⟨"github.com", "/" ++ owner ++ "/" ++ repo ++ "/commit/" ++ c, []⟩
            else none
          | none => none
        else if strStartsWith tail "/blob/" || strStartsWith tail "/tree/" then
          let segments := (rawSlashParts tail).drop 1 |>.take 2
          let kind := (segments.get? 0).getD ""
          let branch :=
            match segments.get? 1 with
            | some b => if b = "" then "main" else b
            | none => "main"
          some ⟨"github.com", "/" ++ owner ++ "/" ++ repo ++ "/" ++ kind ++ "/" ++ branch, []⟩
        else none
    | _ => none
  | _ => none

/-- The youtu.be short-link branch of `applyServiceCanonicalization`. -/
def youtuBeBranch (original : ParsedUrl) (host : String) : Option CanonParts :=
  if strEndsWith host "youtu.be" then
    let id := strOfChars ((dropOneLeadingSlash original.pathname).data.takeWhile
      (fun c => c ≠ '?' && c ≠ '&' && c ≠ '#'))
    if id ≠ "" then some ⟨"youtube.com", "/watch", [("v", id)]⟩ else none
  else none

/-- The youtube.com watch/playlist branch of `applyServiceCanonicalization`. -/
def youtubeBranch (original : ParsedUrl) (host path : String) : Option CanonParts :=
  if strEndsWith host "youtube.com" then
    if strStartsWith path "/watch" then
      match getParam original.query "v" with
      | some videoId =>
        if videoId ≠ "" then
          match getParam original.query "list" with
          | some list =>
            if list ≠ "" then some ⟨"youtube.com", "/watch", [("v", videoId), ("list", list)]⟩
            else some ⟨"youtube.com", "/watch", [("v", videoId)]⟩
          | none => some ⟨"youtube.com", "/watch", [("v", videoId)]⟩
        else none
      | none => none
    else if strStartsWith path "/playlist" then
      match getParam original.query "list" with
      | some list =>
        if list ≠ "" then some ⟨"youtube.com", "/playlist", [("list", list)]⟩ else none
      | none => none
    else none
  else none

/-- The Google Docs branch of `applyServiceCanonicalization`. -/
def docsGoogleBranch (host path : String) : Option CanonParts :=
  if host = "docs.google.com" then
    match pathFilteredParts path with
    | p0 :: p1 :: p2 :: _ =>
      if p0 = "document" && p1 = "d" && p2 ≠ "" then
        some ⟨host, "/document/d/" ++ p2, []⟩
      else if p0 = "spreadsheets" && p1 = "d" && p2 ≠ "" then
        some ⟨host, "/spreadsheets/d/" ++ p2, []⟩
      else if p0 = "presentation" && p1 = "d" && p2 ≠ "" then
        some ⟨host, "/presentation/d/" ++ p2, []⟩
      else if p0 = "forms" && p1 = "d" && p2 ≠ "" then
        some ⟨host, "/forms/d/" ++ p2, []⟩
      else none
    | _ => none
  else none

/-- The Google Drive branch of `applyServiceCanonicalization`. -/
def driveGoogleBranch (host path : String) : Option CanonParts :=
  if host = "drive.google.com" then
    match pathFilteredParts path with
    | p0 :: p1 :: p2 :: _ =>
      if p0 = "file" && p1 = "d" && p2 ≠ "" then some ⟨host, "/file/d/" ++ p2, []⟩
      else if p0 = "drive" && p1 = "folders" && p2 ≠ "" then
        some ⟨host, "/drive/folders/" ++ p2, []⟩
      else none
    | _ => none
  else none

/-- The Gmail branch of `applyServiceCanonicalization`. -/
def mailGoogleBranch (original : ParsedUrl) (host : String) : Option CanonParts :=
  if host = "mail.google.com" then
    let view := getParam original.query "view"
    let tab := getParam original.query "tab"
    let params :=
      (match view with | some v => if v ≠ "" then [("view", v)] else [] | none => []) ++
      (match tab with | some t => if t ≠ "" then [("tab", t)] else [] | none => [])
    some ⟨host, "/mail", params⟩
  else none

/-- The Jira branch of `applyServiceCanonicalization`. -/
def jiraBranch (original : ParsedUrl) (host : String) : Option CanonParts :=
  if strContainsSub host "atlassian.net" || strEndsWith host "jira.com" then
    match jiraIssueScan (rawSlashParts original.pathname) with
    | some key => some ⟨host, "/browse/" ++ key, []⟩
    | none => none
  else none

/-- The Linear branch of `applyServiceCanonicalization`. -/
def linearBranch (original : ParsedUrl) (host : String) : Option CanonParts :=
  if strEndsWith host "linear.app" then
    match issueSegScan false "issue" isUpperAlpha (rawSlashParts original.pathname) with
    | some key => some ⟨host, "/issue/" ++ strToUpper key, []⟩
    | none => none
  else none

/-- The YouTrack branch of `applyServiceCanonicalization`. -/
def youtrackBranch (original : ParsedUrl) (host : String) : Option CanonParts :=
  if strEndsWith host "youtrack.cloud" || strEndsWith host "myjetbrains.com" then
    match issueSegScan true "issue" (fun c => isAlnumAnyCase c || c = '_')
        (rawSlashParts original.pathname) with
    | some key => some ⟨host, "/issue/" ++ strToUpper key, []⟩
    | none => none
  else none

/-- The Google search branch of `applyServiceCanonicalization`. -/
def googleSearchBranch (original : ParsedUrl) (host path : String) : Option CanonParts :=
  if strContainsSub host "google." && (path = "/" || strStartsWith path "/search") then
    match getParam original.query "q" with
    | some query =>
      if query ≠ "" then some ⟨"google.com", "/search", [("q", query)]⟩ else none
    | none => none
  else none

/-- The Amazon branch of `applyServiceCanonicalization`. -/
def amazonBranch (original : ParsedUrl) (host : String) : Option CanonParts :=
  if strContainsSub host "amazon." then
    match amazonDpScan (rawSlashParts original.pathname) with
    | some dp => some ⟨host, "/dp/" ++ dp, []⟩
    | none =>
      match amazonGpScan (rawSlashParts original.pathname) with
      | some product => some ⟨host, "/dp/" ++ product, []⟩
      | none =>
        if strStartsWith original.pathname "/s" then
          let params :=
            match getParam original.query "k" with
            | some keyword => if keyword ≠ "" then [("k", keyword)] else []
            | none => []
          some ⟨host, "/s", params⟩
        else none
  else none

/-- The eBay branch of `applyServiceCanonicalization`. -/
def ebayBranch (original : ParsedUrl) (host : String) : Option CanonParts :=
  if strEndsWith host "ebay.com" then
    match ebayItmScan (rawSlashParts original.pathname) with
    | some item => some ⟨host, "/itm/" ++ item, []⟩
    | none =>
      if strStartsWith original.pathname "/sch" then
        let params :=
          match getParam original.query "_nkw" with
          | some query => if query ≠ "" then [("_nkw", query)] else []
          | none => []
        some ⟨host, "/sch", params⟩
      else none
  else none

/-- The Airbnb branch of `applyServiceCanonicalization`. -/
def airbnbBranch (original : ParsedUrl) (host : String) : Option CanonParts :=
  if strEndsWith host "airbnb.com" then
    if strStartsWith original.pathname "/rooms" then
      match (rawSlashParts original.pathname).get? 2 with
      | some roomId => if roomId ≠ "" then some ⟨host, "/rooms/" ++ roomId, []⟩ else none
      | none => none
    else none
  else none

/-- The Booking branch of `applyServiceCanonicalization`. -/
def bookingBranch (original : ParsedUrl) (host : String) : Option CanonParts :=
  if strEndsWith host "booking.com" then
    if strContainsSub original.pathname "/hotel/" then
      let stripped :=
        if strEndsWith original.pathname "/" then
          strTake original.pathname (strLen original.pathname - 1)
        else original.pathname
      some ⟨host, stripped, []⟩
    else none
  else none

/-- The Skyscanner branch of `applyServiceCanonicalization`. -/
def skyscannerBranch (original : ParsedUrl) (host : String) : Option CanonParts :=
  if strEndsWith host "skyscanner.net" || strEndsWith host "skyscanner.com" then
    let segments := (pathFilteredParts original.pathname).take 5
    some ⟨host, "/" ++ strJoin "/" segments, []⟩
  else none

/-- The Spotify branch of `applyServiceCanonicalization`. -/
def spotifyBranch (original : ParsedUrl) (host : String) : Option CanonParts :=
  if strEndsWith host "open.spotify.com" then
    let segments := (pathFilteredParts original.pathname).take 2
    some ⟨host, "/" ++ strJoin "/" segments, []⟩
  else none

/-- The Apple Music branch of `applyServiceCanonicalization`. -/
def appleMusicBranch (original : ParsedUrl) (host : String) : Option CanonParts :=
  if strEndsWith host "music.apple.com" then
    let segments := (pathFilteredParts original.pathname).take 4
    some ⟨host, "/" ++ strJoin "/" segments, []⟩
  else none

/-- Model of `applyServiceCanonicalization`: the chain of service-specific
identity extractions, in source order, falling through to the next service
check whenever an inner condition fails. -/
def applyServiceCanonicalization (original : ParsedUrl) (base : CanonParts) :
    Option CanonParts :=
  let host := base.host
  let path := base.path
  ((((((((((((((((youtuBeBranch original host).orElse fun _ =>
    youtubeBranch original host path).orElse fun _ =>
    docsGoogleBranch host path).orElse fun _ =>
    driveGoogleBranch host path).orElse fun _ =>
    mailGoogleBranch original host).orElse fun _ =>
    (if strEndsWith host "github.com" then githubBranch path else none)).orElse fun _ =>
    jiraBranch original host).orElse fun _ =>
    linearBranch original host).orElse fun _ =>
    youtrackBranch original host).orElse fun _ =>
    googleSearchBranch original host path).orElse fun _ =>
    amazonBranch original host).orElse fun _ =>
    ebayBranch original host).orElse fun _ =>
    airbnbBranch original host).orElse fun _ =>
    bookingBranch original host).orElse fun _ =>
    skyscannerBranch original host).orElse fun _ =>
    spotifyBranch original host).orElse fun _ =>
    appleMusicBranch original host

/-- Model of `canonicalizeUrl`: `none` for unparsable URLs, the raw URL for
non-http(s) schemes, otherwise the normalized
`https://host[path][?sorted-query]` form after service canonicalization. -/
def canonicalizeUrl (rawUrl : String) : Option String :=
  match safeUrl rawUrl with
  | none => none
  | some url =>
    let protocol := strToLower url.protocol
    if protocol ≠ "http:" && protocol ≠ "https:" then some rawUrl
    else
      let normalizedHost := normalizeHost url.hostname
      let normalizedPath := normalizePath url.pathname
      let sanitizedParams := sanitizeQueryParams url.query normalizedHost normalizedPath
      let base : CanonParts := ⟨normalizedHost, normalizedPath, sanitizedParams⟩
      let final := (applyServiceCanonicalization url base).getD base
      let queryString := paramsToString final.params
      let path := if final.path = "/" then "" else final.path
      if queryString ≠ "" then
        some ("https://" ++ final.host ++ path ++ "?" ++ queryString)
      else
        some ("https://" ++ final.host ++ path)

/-! ## Domain extraction -/

/-- Model of `getEffectiveDomain`: derive the registrable domain using the
multi-level suffix table. -/
def getEffectiveDomain (host : String) : Option String :=
  if host = "" then none
  else
    let parts := strSplitOn '.' host
    if parts.length ≤ 2 then some host
    else
      let lastTwo := strJoin "." (parts.drop (parts.length - 2))
      let lastThree := strJoin "." (parts.drop (parts.length - 3))
      if MULTI_LEVEL_TLDS.contains lastTwo then
        some (strJoin "." (parts.drop (parts.length - 3)))
      else if MULTI_LEVEL_TLDS.contains lastThree then
        some (strJoin "." (parts.drop (parts.length - 4)))
      else some lastTwo

/-- Model of `extractDomain`. -/
def extractDomain (rawUrl : String) : Option String :=
  match safeUrl rawUrl with
  | none => none
  | some url => getEffectiveDomain (normalizeHost url.hostname)

/-! ## Insertion-ordered maps and sets

JS `Map`/`Set` values are modelled as association lists/lists that preserve
insertion order, matching the iteration-order guarantees the source uses. -/

/-- Lookup in an insertion-ordered map (first matching entry, as `Map.get`). -/
def mapGet {α β : Type} [DecidableEq α] : List (α × β) → α → Option β
  | [], _ => none
  | kv :: rest, k => if kv.1 = k then some kv.2 else mapGet rest k

/-- Key-membership test for an insertion-ordered map. -/
def mapHasKey {α β : Type} [DecidableEq α] (m : List (α × β)) (k : α) : Bool :=
  (mapGet m k).isSome

/-- Model of `Map.set`: update the first entry with the key in place, or
append a new one. -/
def mapSet {α β : Type} [DecidableEq α] : List (α × β) → α → β → List (α × β)
  | [], k, v => [(k, v)]
  | kv :: rest, k, v => if kv.1 = k then (k, v) :: rest else kv :: mapSet rest k v

/-- Append a value to the list stored under a key, modelling the common
`if (!m.has(k)) m.set(k, []); m.get(k).push(v)` idiom. -/
def mapPush {α β : Type} [DecidableEq α] : List (α × List β) → α → β → List (α × List β)
  | [], k, v => [(k, [v])]
  | kv :: rest, k, v =>
    if kv.1 = k then (kv.1, kv.2 ++ [v]) :: rest else kv :: mapPush rest k v

/-- Model of `Set.add`. -/
def setAdd {α : Type} [DecidableEq α] (s : List α) (a : α) : List α :=
  if s.contains a then s else s ++ [a]

/-- Model of `Array.from(new Set(xs))`: first occurrences in order. -/
def dedupList {α : Type} [DecidableEq α] (xs : List α) : List α :=
  xs.foldl setAdd []

/-! ## Duplicate detection -/

/-- Preferences consumed by `computeDedupePlan`. -/
structure DedupePreferences where
  preservePinned : Bool
  keepAtLeastOnePerDomain : Bool
deriving Repr, DecidableEq

/-- One entry of the `tabsToClose` output list. -/
structure CloseItem where
  id : Nat
  title : String
  url : String
  reason : String
  duplicateOf : Nat
  domain : Option String
deriving Repr, DecidableEq

/-- One entry of the `duplicateSets` output list. -/
structure DuplicateSet where
  canonical : Option String
  keeper : TabSnapshot
  closing : List TabSnapshot
deriving Repr, DecidableEq

/-- The output of `computeDedupePlan`. -/
structure DedupePlan where
  tabsToClose : List CloseItem
  survivors : List TabSnapshot
  duplicateSets : List DuplicateSet
deriving Repr, DecidableEq

/-- Model of `scoreTab`: the relevance score used to pick the keeper within a
duplicate group. -/
def scoreTab (tab : TabSnapshot) (preferPinned : Bool) : JSNum :=
  let s0 := JSNum.ofInt 0
  let s1 := if tab.active then s0.add (JSNum.ofInt 10000) else s0
  let s2 := if tab.audible then s1.add (JSNum.ofInt 400) else s1
  let s3 := if preferPinned && tab.pinned then s2.add (JSNum.ofInt 8000) else s2
  let s4 := if !preferPinned && tab.pinned then s3.add (JSNum.ofInt 2000) else s3
  let s5 :=
    match tab.lastAccessed with
    | some la => s4.add ((JSNum.ofInt la).divNat 1000)
    | none => s4
  s5.add (JSNum.ofInt (100 - (tab.index : Int)))

/-- The canonical grouping key of a tab: its canonical URL, or the synthetic
per-tab key `id-<id>` when canonicalization fails (JS falsiness includes the
empty string). -/
def canonicalKey (tab : TabSnapshot) : String :=
  match canonicalizeUrl tab.url with
  | some c => if c = "" then "id-" ++ natToString tab.id else c
  | none => "id-" ++ natToString tab.id

/-- Group tabs by canonical key in insertion order, modelling the
`canonicalGroups` map of `computeDedupePlan`. -/
def canonicalGroups (tabs : List TabSnapshot) : List (String × List TabSnapshot) :=
  tabs.foldl (fun m t => mapPush m (canonicalKey t) t) []

/-- Stable descending sort by `scoreTab`, modelling the JS stable
`sort((a, b) => scoreTab(b, pp) - scoreTab(a, pp))`. -/
def sortByScoreDesc (preferPinned : Bool) (tabs : List TabSnapshot) : List TabSnapshot :=
  List.insertionSort
    (fun a b => JSNum.le (scoreTab b preferPinned) (scoreTab a preferPinned)) tabs

/-- Accumulated state of the per-group loop of `computeDedupePlan`. -/
structure DedupeState where
  keepers : List Nat
  tabsToClose : List CloseItem
  duplicateSets : List DuplicateSet
deriving Repr, DecidableEq

/-- Build one `tabsToClose` entry for a duplicate. -/
def mkCloseItem (dup keeper : TabSnapshot) : CloseItem :=
  ⟨dup.id, dup.title, dup.url, "Duplicate of \"" ++ keeper.title ++ "\"",
    keeper.id, extractDomain dup.url⟩

/-- Process one canonical group: singletons become keepers; larger groups are
score-sorted, the head becomes the keeper, and every other member is either
exempted (pinned under `preservePinned`) or queued for closure. -/
def processDuplicateGroup (preservePinned : Bool) (st : DedupeState) (key : String)
    (groupTabs : List TabSnapshot) : DedupeState :=
  match groupTabs with
  | [] => st
  | [t] => { st with keepers := setAdd st.keepers t.id }
  | _ :: _ :: _ =>
    match sortByScoreDesc preservePinned groupTabs with
    | [] => st
    | keeper :: duplicates =>
      let canonical := if strStartsWith key "id-" then none else some key
      let st1 : DedupeState :=
        { st with
          keepers := setAdd st.keepers keeper.id
          duplicateSets := st.duplicateSets ++ [⟨canonical, keeper, duplicates⟩] }
      duplicates.foldl
        (fun acc dup =>
          if preservePinned && dup.pinned then
            { acc with keepers := setAdd acc.keepers dup.id }
          else
            { acc with tabsToClose := acc.tabsToClose ++ [mkCloseItem dup keeper] }) st1

/-- The per-group phase of `computeDedupePlan` over all canonical groups. -/
def dedupeGroupPhase (preservePinned : Bool) (groups : List (String × List TabSnapshot)) :
    DedupeState :=
  groups.foldl (fun st kv => processDuplicateGroup preservePinned st kv.1 kv.2) ⟨[], [], []⟩

/-- Count survivor domains, modelling the `survivorDomains` map built before
the per-domain floor pass. -/
def initialSurvivorCounts (tabs : List TabSnapshot) (keepers : List Nat) :
    List (String × Nat) :=
  tabs.foldl
    (fun m t =>
      if keepers.contains t.id then
        match extractDomain t.url with
        | some domain =>
          if domain = "" then m
          else mapSet m domain ((mapGet m domain).getD 0 + 1)
        | none => m
      else m) []

/-- State of the per-domain floor pass over the close list. -/
structure FloorState where
  counts : List (String × Nat)
  promoted : List Nat
  kept : List CloseItem
deriving Repr, DecidableEq

/-- One step of the per-domain floor pass: an item whose domain has no
remaining survivor count is promoted (left out of the close list); otherwise
it stays closed and consumes one unit of its domain count. -/
def floorStep (st : FloorState) (item : CloseItem) : FloorState :=
  match item.domain with
  | none => { st with kept := st.kept ++ [item] }
  | some d =>
    if d = "" then { st with kept := st.kept ++ [item] }
    else
      let count := (mapGet st.counts d).getD 0
      if count = 0 then { st with promoted := st.promoted ++ [item.id] }
      else { st with counts := mapSet st.counts d (count - 1), kept := st.kept ++ [item] }

/-- The per-domain floor pass of `computeDedupePlan`. -/
def applyDomainFloor (counts : List (String × Nat)) (items : List CloseItem) : FloorState :=
  items.foldl floorStep ⟨counts, [], []⟩

/-- Model of `computeDedupePlan`. -/
def computeDedupePlan (tabs : List TabSnapshot) (preferences : DedupePreferences) :
    DedupePlan :=
  let st := dedupeGroupPhase preferences.preservePinned (canonicalGroups tabs)
  let afterFloor :=
    if preferences.keepAtLeastOnePerDomain then
      let counts := initialSurvivorCounts tabs st.keepers
      let fs := applyDomainFloor counts st.tabsToClose
      (fs.promoted.foldl setAdd st.keepers, fs.kept)
    else (st.keepers, st.tabsToClose)
  let keepers := afterFloor.1
  let tabsToClose := afterFloor.2
  let survivors := tabs.filter
    (fun t => keepers.contains t.id && !(tabsToClose.any (fun item => item.id = t.id)))
  ⟨tabsToClose, survivors, st.duplicateSets⟩

/-! ## Tokenization and tab classification info -/

/-- Replace every occurrence of one character, modelling a global
single-character `replace`. -/
def replaceCharAll (src dst : Char) (s : String) : String :=
  strOfChars (s.data.map (fun c => if c = src then dst else c))

/-- Model of `stemToken`: light sequential suffix stripping. -/
def stemToken (token : String) : String :=
  if strLen token ≤ 3 then token
  else
    let t1 := if strEndsWith token "ing" then strTake token (strLen token - 3) else token
    let t2 := if strEndsWith t1 "ers" then strTake t1 (strLen t1 - 3) else t1
    let t3 := if strEndsWith t2 "er" then strTake t2 (strLen t2 - 2) else t2
    let t4 := if strEndsWith t3 "ed" then strTake t3 (strLen t3 - 2) else t3
    let t5 := if strEndsWith t4 "es" then strTake t4 (strLen t4 - 2) else t4
    if strEndsWith t5 "s" then strTake t5 (strLen t5 - 1) else t5

/-- Lowercase-alphanumeric tokenization: every other character becomes a
separator, modelling `replace(/[^a-z0-9]+/g, ' ').split(/\s+/).filter(Boolean)`
on lowercased input. -/
def tokenizeChars (cs : List Char) : List String :=
  (((splitCharsOn ' ' (cs.map (fun c => if c.isLower || c.isDigit then c else ' '))).map
    strOfChars).filter (fun t => t ≠ ""))

/-- Model of `buildTokenFrequency`: token-frequency map over host, path and
title with stop-word removal and stemming. -/
def buildTokenFrequency (title host path : String) : List (String × Nat) :=
  let text := replaceCharAll '.' ' ' host ++ " " ++ replaceCharAll '/' ' ' path ++ " " ++ title
  let normalized := deburr (strToLower text)
  let tokens := tokenizeChars normalized.data
  tokens.foldl
    (fun freq token0 =>
      if STOP_WORDS.contains token0 then freq
      else
        let token := stemToken token0
        if token = "" || STOP_WORDS.contains token then freq
        else mapSet freq token ((mapGet freq token).getD 0 + 1)) []

/-- Model of `safeDecodeURIComponent`; the identity on escape-free segments,
which is all the engine produces in this development. -/
def safeDecodeURIComponent (value : String) : String := value

/-- Cached classification view of one tab (`prepareTabForClassification`). -/
structure TabInfo where
  tab : TabSnapshot
  id : Nat
  host : String
  domain : String
  path : String
  pathSegments : List String
  canonical : Option String
  title : String
  normalizedTitle : String
  tokenFrequency : List (String × Nat)
  tokens : List String
  url : Option ParsedUrl
deriving Repr, DecidableEq

/-- Model of `prepareTabForClassification`. -/
def prepareTabForClassification (tab : TabSnapshot) : TabInfo :=
  let url := safeUrl tab.url
  let host := match url with | some u => normalizeHost u.hostname | none => ""
  let path := match url with | some u => normalizePath u.pathname | none => "/"
  let pathSegments := (pathFilteredParts path).map safeDecodeURIComponent
  let domain :=
    match getEffectiveDomain host with
    | some d => if d = "" then host else d
    | none => host
  let canonical := canonicalizeUrl tab.url
  let title := tab.title
  let normalizedTitle := deburr (strToLower title)
  let tokenFrequency := buildTokenFrequency title host path
  ⟨tab, tab.id, host, domain, path, pathSegments, canonical, title, normalizedTitle,
    tokenFrequency, tokenFrequency.map (fun kv => kv.1), url⟩

/-! ## Category tables -/

/-- Fixed category display order (`CATEGORY_ORDER`). -/
def CATEGORY_ORDER : List String :=
  ["Work/PM", "Dev/Code", "Cloud/Infra", "Docs/Files", "Comms",
   "Research/Learning", "Maps/Travel", "Shopping", "News/Media", "Other"]

/-- Canonical category colors (`CATEGORY_COLOR_MAP`). -/
def CATEGORY_COLOR_MAP : List (String × String) :=
  [("Work/PM", "yellow"), ("Dev/Code", "blue"), ("Cloud/Infra", "purple"),
   ("Docs/Files", "green"), ("Comms", "cyan"), ("Research/Learning", "pink"),
   ("Maps/Travel", "orange"), ("Shopping", "red"), ("News/Media", "pink"),
   ("Other", "grey")]

/-- Fixed display priorities (`CATEGORY_PRIORITY`): order position reversed. -/
def CATEGORY_PRIORITY : List (String × Nat) :=
  (enumFrom 0 CATEGORY_ORDER).map (fun p => (p.2, CATEGORY_ORDER.length - p.1))

/-- Declared category neighbor table (`CATEGORY_NEIGHBORS`). -/
def CATEGORY_NEIGHBORS : List (String × List String) :=
  [("Work/PM", ["Dev/Code", "Docs/Files", "Comms"]),
   ("Dev/Code", ["Cloud/Infra", "Research/Learning", "Work/PM"]),
   ("Cloud/Infra", ["Dev/Code", "Comms", "Work/PM"]),
   ("Docs/Files", ["Work/PM", "Comms", "Research/Learning"]),
   ("Comms", ["Work/PM", "Docs/Files", "Cloud/Infra"]),
   ("Research/Learning", ["Dev/Code", "Docs/Files", "News/Media"]),
   ("Maps/Travel", ["Shopping", "News/Media", "Other"]),
   ("Shopping", ["News/Media", "Maps/Travel", "Other"]),
   ("News/Media", ["Research/Learning", "Comms", "Other"]),
   ("Other", ["News/Media", "Shopping", "Maps/Travel"])]

/-! ## Rule catalog -/

/-- Host matcher `(?:^|\.)host$` built by `hostPattern` for literal hosts
(both sides lowercase). -/
def hostPatternTest (pattern s : String) : Bool :=
  s = pattern || strEndsWith s ("." ++ pattern)

/-- Matcher for the host regex `amazon\.[a-z.]+$`. -/
def amazonIntlHostTest : List Char → Bool
  | [] => false
  | c :: t =>
    ("amazon.".data.isPrefixOf (c :: t) &&
      (let rest := (c :: t).drop 7
       !rest.isEmpty && rest.all (fun ch => ch.isLower || ch = '.'))) ||
    amazonIntlHostTest t

/-- A rule of the built-in catalog before compilation (`buildRulesCatalog`
output entries); regex patterns are modelled as predicates. -/
structure RawCatalogRule where
  name : String
  category : String
  label : String
  color : Option String
  priority : Int
  host : Option (String → Bool)
  path : Option (String → Bool)

/-- Host-literal catalog entries of `CATEGORY_RULE_DEFINITIONS`, per category
in declaration order. -/
def categoryRuleHosts (category : String) : List (String × String) :=
  if category = "Work/PM" then
    [("Jira", "atlassian.net"), ("Jira", "jira.com"), ("Linear", "linear.app"),
     ("Trello", "trello.com"), ("Asana", "asana.com"), ("Monday", "monday.com"),
     ("ClickUp", "clickup.com"), ("Notion", "notion.so"), ("Notion", "notion.site"),
     ("Confluence", "confluence.com"), ("Shortcut", "app.shortcut.com"),
     ("Productboard", "productboard.com")]
  else if category = "Dev/Code" then
    [("GitHub", "github.com"), ("GitHub Gist", "gist.github.com"),
     ("GitLab", "gitlab.com"), ("Bitbucket", "bitbucket.org"),
     ("Azure DevOps", "dev.azure.com"), ("Sourcegraph", "sourcegraph.com"),
     ("npm", "npmjs.com"), ("PyPI", "pypi.org"), ("RubyGems", "rubygems.org"),
     ("pkg.go.dev", "pkg.go.dev"), ("crates.io", "crates.io"),
     ("Docker Hub", "hub.docker.com")]
  else if category = "Cloud/Infra" then
    [("AWS Console", "console.aws.amazon.com"), ("GCP Console", "console.cloud.google.com"),
     ("GCP", "cloud.google.com"), ("Azure Portal", "portal.azure.com"),
     ("Cloudflare", "cloudflare.com"), ("Vercel", "vercel.com"), ("Render", "render.com"),
     ("Railway", "railway.app"), ("Fly.io", "fly.io"), ("Heroku", "heroku.com"),
     ("Supabase", "supabase.com"), ("PlanetScale", "planetscale.com"),
     ("Datadog", "datadoghq.com"), ("New Relic", "newrelic.com"),
     ("Grafana", "grafana.com"), ("Sentry", "sentry.io"), ("PagerDuty", "pagerduty.com"),
     ("CircleCI", "circleci.com"), ("Buildkite", "buildkite.com")]
  else if category = "Docs/Files" then
    [("Google Docs", "docs.google.com"), ("Google Drive", "drive.google.com"),
     ("Dropbox", "dropbox.com"), ("Box", "box.com"), ("OneDrive", "onedrive.live.com"),
     ("SharePoint", "sharepoint.com"), ("Office 365", "office.com")]
  else if category = "Comms" then
    [("Gmail", "mail.google.com"), ("Outlook", "outlook.office.com"),
     ("Outlook", "outlook.live.com"), ("Teams", "teams.microsoft.com"),
     ("Slack", "slack.com"), ("Discord", "discord.com"), ("Telegram", "web.telegram.org"),
     ("WhatsApp", "web.whatsapp.com"), ("Zoom", "zoom.us"), ("Google Meet", "meet.google.com"),
     ("Google Calendar", "calendar.google.com"), ("Calendly", "calendly.com")]
  else if category = "Research/Learning" then
    [("Google Scholar", "scholar.google.com"), ("arXiv", "arxiv.org"),
     ("Stack Overflow", "stackoverflow.com"), ("Stack Exchange", "stackexchange.com"),
     ("MDN", "developer.mozilla.org"), ("Wikipedia", "wikipedia.org"),
     ("Medium", "medium.com"), ("Dev.to", "dev.to"), ("freeCodeCamp", "freecodecamp.org")]
  else if category = "Maps/Travel" then
    [("Google Maps", "maps.google.com"), ("Booking", "booking.com"),
     ("Airbnb", "airbnb.com"), ("Expedia", "expedia.com"), ("Kayak", "kayak.com"),
     ("Skyscanner", "skyscanner.com"), ("Skyscanner", "skyscanner.net"),
     ("Uber", "uber.com"), ("Lyft", "lyft.com"), ("Tripadvisor", "tripadvisor.com")]
  else if category = "Shopping" then
    [("Amazon", "amazon.com"), ("eBay", "ebay.com"), ("AliExpress", "aliexpress.com"),
     ("Etsy", "etsy.com"), ("Walmart", "walmart.com"), ("Target", "target.com"),
     ("Best Buy", "bestbuy.com"), ("Costco", "costco.com")]
  else if category = "News/Media" then
    [("Hacker News", "news.ycombinator.com"), ("Reddit", "reddit.com"),
     ("TechCrunch", "techcrunch.com"), ("The Verge", "theverge.com"),
     ("NYTimes", "nytimes.com"), ("Washington Post", "washingtonpost.com"),
     ("BBC", "bbc.com"), ("CNN", "cnn.com"), ("YouTube", "youtube.com"),
     ("Netflix", "netflix.com"), ("Hulu", "hulu.com"), ("Spotify", "spotify.com")]
  else []

/-- Host-regex catalog entries of `CATEGORY_RULE_DEFINITIONS`, with the
regexes `aws\.amazon\.com$`, `amazonaws\.com$` and `amazon\.[a-z.]+$`
translated to explicit matchers. -/
def categoryRuleHostRegexes (category : String) : List (String × (String → Bool)) :=
  if category = "Cloud/Infra" then
    [("AWS", fun s => strEndsWith s "aws.amazon.com"),
     ("AWS", fun s => strEndsWith s "amazonaws.com")]
  else if category = "Shopping" then
    [("Amazon", fun s => amazonIntlHostTest s.data)]
  else []

/-- Host-plus-path catalog entries of `CATEGORY_RULE_DEFINITIONS`, with the
path regexes `^/(?:search|webhp)`, `^/maps` and `^/s` translated to explicit
matchers. -/
def categoryRulePaths (category : String) : List (String × String × (String → Bool)) :=
  if category = "Research/Learning" then
    [("Google Search", "google.com",
      fun p => strStartsWith p "/search" || strStartsWith p "/webhp")]
  else if category = "Maps/Travel" then
    [("Google Maps", "google.com", fun p => strStartsWith p "/maps")]
  else if category = "Shopping" then
    [("Amazon Search", "amazon.com", fun p => strStartsWith p "/s")]
  else []

/-- The categories of `CATEGORY_RULE_DEFINITIONS` in declaration order. -/
def CATEGORY_DEF_ORDER : List String :=
  ["Work/PM", "Dev/Code", "Cloud/Infra", "Docs/Files", "Comms",
   "Research/Learning", "Maps/Travel", "Shopping", "News/Media"]

/-- Model of `buildRulesCatalog`: one rule per host entry, host-regex entry
and path entry, per category, with the category color and default priority
800. -/
def buildRulesCatalog : List RawCatalogRule :=
  CATEGORY_DEF_ORDER.flatMap (fun category =>
    let color := mapGet CATEGORY_COLOR_MAP category
    (categoryRuleHosts category).map
      (fun lh => ⟨category, category, lh.1, color, 800,
        some (fun s => hostPatternTest lh.2 s), none⟩)
    ++ (categoryRuleHostRegexes category).map
      (fun lr => ⟨category, category, lr.1, color, 800, some lr.2, none⟩)
    ++ (categoryRulePaths category).map
      (fun e => ⟨category, category, e.1, color, 800,
        some (fun s => hostPatternTest e.2.1 s), some e.2.2⟩))

/-- A derived-name result, modelling the object a rule `deriveName` callback
returns (absent fields are `none`). -/
structure DerivedName where
  name : Option String
  key : Option String
  color : Option String
  category : Option String
  label : Option String

/-- A compiled rule (`compileSingleRule` / `compileUserRules` output). -/
structure CompiledRule where
  index : Nat
  name : String
  color : Option String
  priority : Int
  host : Option (String → Bool)
  path : Option (String → Bool)
  title : Option (String → Bool)
  category : Option String
  label : String
  deriveName : Option (TabInfo → DerivedName)

/-- Model of `compileSingleRule` for catalog rules (their patterns are
already predicates and they carry no `deriveName`). -/
def compileSingleRule (rule : RawCatalogRule) (index : Nat) : Option CompiledRule :=
  let color := sanitizeGroupColor rule.color
  if rule.host.isNone && rule.path.isNone then none
  else
    some ⟨index, rule.name, color, rule.priority, rule.host, rule.path, none,
      some rule.category, rule.label, none⟩

/-- Ordering used by `compileRuleCatalog`: descending priority, ties by
ascending declaration index. -/
def ruleOrder (a b : CompiledRule) : Prop :=
  b.priority < a.priority ∨ (a.priority = b.priority ∧ a.index ≤ b.index)

instance (a b : CompiledRule) : Decidable (ruleOrder a b) := by
  unfold ruleOrder; infer_instance

instance : IsTotal CompiledRule ruleOrder := by
  refine ⟨fun a b => ?_⟩
  unfold ruleOrder
  rcases lt_trichotomy a.priority b.priority with h | h | h
  · exact Or.inr (Or.inl h)
  · rcases Nat.le_total a.index b.index with hi | hi
    · exact Or.inl (Or.inr ⟨h, hi⟩)
    · exact Or.inr (Or.inr ⟨h.symm, hi⟩)
  · exact Or.inl (Or.inl h)

instance : IsTrans CompiledRule ruleOrder := by
  refine ⟨fun a b c hab hbc => ?_⟩
  unfold ruleOrder at hab hbc ⊢
  rcases hab with h1 | ⟨h1, h1i⟩ <;> rcases hbc with h2 | ⟨h2, h2i⟩
  · exact Or.inl (h2.trans h1)
  · exact Or.inl (h2 ▸ h1)
  · exact Or.inl (h1 ▸ h2)
  · exact Or.inr ⟨h1.trans h2, h1i.trans h2i⟩

/-- Model of `compileRuleCatalog`: compile each rule with its declaration
index and sort by descending priority, ties by declaration order. -/
def compileRuleCatalog (catalog : List RawCatalogRule) : List CompiledRule :=
  List.insertionSort ruleOrder
    ((mapIdxFrom (fun i r => compileSingleRule r i) 0 catalog).filterMap id)

/-- The compiled built-in catalog (`COMPILED_RULES`). -/
def COMPILED_RULES : List CompiledRule := compileRuleCatalog buildRulesCatalog

/-- A user rule as consumed by `compileUserRules`; the compiled `RegExp`
patterns are modelled as predicates. -/
structure UserRule where
  name : String
  host : Option (String → Bool)
  path : Option (String → Bool)
  title : Option (String → Bool)
  color : Option String
  priority : Option Int

/-- Model of `compileUserRules`: keep rules with at least one pattern, in
declaration order (no priority sorting), with default priority 1500 and a
`deriveName` that pins the user group name and key. -/
def compileUserRules (userRules : List UserRule) : List CompiledRule :=
  mapIdxFrom
    (fun i r =>
      let name := truncateLabel r.name
      ⟨i, name, sanitizeGroupColor r.color, (r.priority.getD 1500), r.host, r.path, r.title,
        some name, name,
        some (fun _ => ⟨some name, some ("user:" ++ strToLower name), none, none, none⟩)⟩)
    0 (userRules.filter (fun r => r.host.isSome || r.path.isSome || r.title.isSome))

/-! ## Rule matching -/

/-- Model of `normalizeCategoryName`. -/
def normalizeCategoryName (name : Option String) : String :=
  match name with
  | none => "Other"
  | some s =>
    let trimmed := strTrim s
    if CATEGORY_ORDER.contains trimmed then trimmed else "Other"

/-- The value `matchCompiledRule` returns for the first matching rule. -/
structure RuleMatch where
  name : String
  color : Option String
  key : Option String
  ruleName : String
  category : String
deriving Repr, DecidableEq

/-- Model of `matchCompiledRule`: first-match-wins over the given rule list;
a rule matches when each declared pattern accepts the corresponding field. -/
def matchCompiledRule : List CompiledRule → TabInfo → Option RuleMatch
  | [], _ => none
  | rule :: rest, tabInfo =>
    if (match rule.host with | some h => h tabInfo.host | none => true) &&
        (match rule.title with | some t => t tabInfo.title | none => true) &&
        (match rule.path with | some p => p tabInfo.path | none => true) then
      let derived := rule.deriveName.map (fun f => f tabInfo)
      let dCategory := derived.bind (fun d => d.category)
      let category :=
        normalizeCategoryName (jsOrStr (jsOrStr dCategory rule.category) (some rule.name))
      let dName := derived.bind (fun d => d.name)
      let baseName :=
        if jsTruthy dName then truncateLabel (dName.getD "")
        else truncateLabel ((jsOrStr (some category) (some rule.name)).getD "")
      let dColor := derived.bind (fun d => d.color)
      let color :=
        if jsTruthy dColor then jsOrStr (sanitizeGroupColor dColor) rule.color
        else rule.color
      let dKey := derived.bind (fun d => d.key)
      let key := if jsTruthy dKey then dKey else none
      let dLabel := derived.bind (fun d => d.label)
      let label := (jsOrStr dLabel (jsOrStr (some rule.label) (some rule.name))).getD ""
      some ⟨baseName, color, key, label, category⟩
    else matchCompiledRule rest tabInfo

/-- Model of `matchCategoryRule`. -/
def matchCategoryRule (tabInfo : TabInfo) : Option RuleMatch :=
  matchCompiledRule COMPILED_RULES tabInfo

/-! ## Keyword classifier -/

/-- One compiled keyword-category configuration (`buildKeywordMap` entry). -/
structure KeywordConfig where
  keywords : List (String × JSNum)
  hostHints : List String
  pathHints : List String
  titleHints : List (String → Bool)
  hostWeight : JSNum
  pathWeight : JSNum
  titleWeight : JSNum
  threshold : JSNum
  priority : Int

/-- Title-hint matcher: the sources compile plain lowercase words with the
`i` flag, which is a case-insensitive substring test. -/
def titleHintTest (pattern : String) : String → Bool :=
  fun title => strContainsSub (strToLower title) pattern

/-- The compiled keyword map (`KEYWORD_MAP` built from
`CATEGORY_KEYWORD_DEFINITIONS` with default weights `hostWeight 3`,
`pathWeight 1.5`, `titleWeight 2` and the category display priority). -/
def KEYWORD_MAP : List (String × KeywordConfig) :=
  [("Work/PM",
    ⟨[("jira", .ofInt 4), ("issue", .ofInt 3), ("ticket", .ofInt 3), ("board", .ofInt 2),
      ("sprint", .ofInt 2), ("backlog", .ofInt 2), ("project", .ofInt 2), ("task", .ofInt 2),
      ("kanban", .ofInt 2), ("roadmap", .ofInt 2), ("story", .ofInt 2), ("milestone", .ofInt 2),
      ("notion", ⟨3, 2⟩), ("asana", .ofInt 3), ("trello", .ofInt 3), ("monday", .ofInt 3),
      ("clickup", .ofInt 3), ("productboard", .ofInt 2)],
     ["jira", "atlassian", "linear", "trello", "asana", "monday", "notion", "clickup",
      "shortcut", "productboard"],
     ["board", "sprint", "project", "kanban"], [],
     .ofInt 3, ⟨3, 2⟩, .ofInt 2, .ofInt 4, 10⟩),
   ("Dev/Code",
    ⟨[("git", .ofInt 3), ("repo", .ofInt 3), ("pull", .ofInt 3), ("merge", .ofInt 3),
      ("commit", .ofInt 3), ("branch", .ofInt 2), ("code", .ofInt 2), ("diff", .ofInt 2),
      ("issue", .ofInt 2), ("pr", .ofInt 3), ("review", .ofInt 2), ("package", .ofInt 2),
      ("library", .ofInt 2), ("sdk", .ofInt 2), ("api", .ofInt 2), ("ci", .ofInt 2)],
     ["github", "gitlab", "bitbucket", "sourcegraph", "npm", "pypi", "rubygems",
      "crates", "docker"],
     ["pull", "merge", "commit", "blob", "tree"], [],
     .ofInt 3, ⟨3, 2⟩, .ofInt 2, .ofInt 4, 9⟩),
   ("Cloud/Infra",
    ⟨[("cloud", .ofInt 3), ("aws", .ofInt 3), ("gcp", .ofInt 3), ("azure", .ofInt 3),
      ("console", .ofInt 2), ("cluster", .ofInt 2), ("kube", .ofInt 3), ("kubernet", .ofInt 3),
      ("deploy", .ofInt 2), ("infrastructure", .ofInt 3), ("instance", .ofInt 2),
      ("server", .ofInt 2), ("pipeline", .ofInt 2), ("metric", .ofInt 2), ("monitor", .ofInt 2),
      ("log", .ofInt 2), ("alert", .ofInt 2)],
     ["aws", "amazonaws", "cloud", "azure", "cloudflare", "vercel", "render", "railway",
      "fly.io", "heroku", "supabase", "planetscale", "datadog", "newrelic", "grafana",
      "sentry", "pagerduty", "circleci", "buildkite"],
     ["deploy", "pipeline", "console"], [],
     .ofInt 3, ⟨3, 2⟩, .ofInt 2, .ofInt 4, 8⟩),
   ("Docs/Files",
    ⟨[("doc", .ofInt 3), ("docs", .ofInt 3), ("sheet", .ofInt 3), ("slide", .ofInt 3),
      ("drive", .ofInt 3), ("file", .ofInt 2), ("folder", .ofInt 2), ("pdf", .ofInt 2),
      ("presentation", .ofInt 2), ("spreadsheet", .ofInt 3), ("notebook", .ofInt 2),
      ("note", .ofInt 2)],
     ["docs.google", "drive.google", "dropbox", "box.com", "onedrive", "sharepoint",
      "office.com"],
     ["document", "presentation", "spreadsheets"], [],
     .ofInt 3, ⟨3, 2⟩, .ofInt 2, .ofInt 4, 7⟩),
   ("Comms",
    ⟨[("mail", .ofInt 3), ("inbox", .ofInt 3), ("calendar", .ofInt 3), ("meeting", .ofInt 2),
      ("meet", .ofInt 2), ("chat", .ofInt 3), ("message", .ofInt 3), ("call", .ofInt 2),
      ("video", .ofInt 2), ("slack", .ofInt 3), ("teams", .ofInt 3), ("invite", .ofInt 2),
      ("reply", .ofInt 2)],
     ["mail.google", "outlook", "teams", "slack", "discord", "telegram", "whatsapp",
      "zoom", "meet.google", "calendar.google", "calendly"],
     [], [titleHintTest "meeting", titleHintTest "standup", titleHintTest "1:1"],
     .ofInt 3, ⟨3, 2⟩, .ofInt 2, .ofInt 4, 6⟩),
   ("Research/Learning",
    ⟨[("search", .ofInt 3), ("learn", .ofInt 3), ("tutorial", .ofInt 3), ("guide", .ofInt 3),
      ("reference", .ofInt 3), ("docs", .ofInt 2), ("wiki", .ofInt 3), ("stack", .ofInt 2),
      ("question", .ofInt 2), ("answer", .ofInt 2), ("blog", .ofInt 2), ("analysis", .ofInt 2),
      ("how", .ofInt 2)],
     ["google", "scholar", "arxiv", "stackoverflow", "stackexchange", "mozilla",
      "wikipedia", "medium", "dev.to", "freecodecamp"],
     ["search", "learn"], [],
     .ofInt 3, ⟨3, 2⟩, .ofInt 2, .ofInt 3, 5⟩),
   ("Maps/Travel",
    ⟨[("map", .ofInt 3), ("maps", .ofInt 3), ("travel", .ofInt 3), ("trip", .ofInt 3),
      ("flight", .ofInt 3), ("hotel", .ofInt 3), ("booking", .ofInt 3), ("airbnb", .ofInt 3),
      ("route", .ofInt 2), ("direction", .ofInt 2), ("itinerary", .ofInt 2), ("ride", .ofInt 2),
      ("airport", .ofInt 2)],
     ["maps.google", "booking", "airbnb", "expedia", "kayak", "skyscanner", "uber",
      "lyft", "tripadvisor"],
     ["maps", "travel"], [],
     .ofInt 3, ⟨3, 2⟩, .ofInt 2, .ofInt 3, 4⟩),
   ("Shopping",
    ⟨[("buy", .ofInt 3), ("cart", .ofInt 3), ("checkout", .ofInt 3), ("order", .ofInt 3),
      ("product", .ofInt 3), ("price", .ofInt 2), ("deal", .ofInt 2), ("sale", .ofInt 2),
      ("shop", .ofInt 2), ("wishlist", .ofInt 2), ("shipping", .ofInt 2), ("basket", .ofInt 2)],
     ["amazon", "ebay", "aliexpress", "etsy", "walmart", "target", "bestbuy", "costco"],
     ["cart", "checkout"], [],
     .ofInt 3, ⟨3, 2⟩, .ofInt 2, .ofInt 3, 3⟩),
   ("News/Media",
    ⟨[("news", .ofInt 3), ("headline", .ofInt 3), ("article", .ofInt 3), ("review", .ofInt 3),
      ("reddit", .ofInt 3), ("hn", .ofInt 2), ("video", .ofInt 3), ("watch", .ofInt 3),
      ("stream", .ofInt 3), ("episode", .ofInt 2), ("podcast", .ofInt 2), ("feed", .ofInt 2),
      ("breaking", .ofInt 3), ("story", .ofInt 2)],
     ["news.ycombinator", "reddit", "techcrunch", "verge", "nytimes", "washingtonpost",
      "bbc", "cnn", "youtube", "netflix", "hulu", "spotify"],
     [], [titleHintTest "breaking", titleHintTest "episode", titleHintTest "season"],
     .ofInt 3, ⟨3, 2⟩, .ofInt 2, .ofInt 3, 2⟩)]

/-- The best-scoring category result of `scoreCategory`. -/
structure CategoryScore where
  category : String
  score : JSNum
  keywords : List (String × JSNum)

/-- Model of `scoreCategory`: keyword, host-hint, path-hint and title-hint
scoring with per-category threshold and a priority tie-break within a
0.0001-wide band. -/
def scoreCategory (tabInfo : TabInfo) : CategoryScore :=
  let frequency := tabInfo.tokenFrequency
  KEYWORD_MAP.foldl
    (fun best entry =>
      let category := entry.1
      let config := entry.2
      if category = "Other" then best
      else
        let kwResult := config.keywords.foldl
          (fun acc kw =>
            match mapGet frequency kw.1 with
            | some freq =>
              if freq = 0 then acc
              else
                let contribution := (JSNum.ofInt freq).mul kw.2
                (acc.1.add contribution, acc.2 ++ [(kw.1, contribution)])
            | none => acc) (JSNum.ofInt 0, [])
        let score1 := config.hostHints.foldl
          (fun s hint => if strContainsSub tabInfo.host hint then s.add config.hostWeight else s)
          kwResult.1
        let score2 := config.pathHints.foldl
          (fun s hint => if strContainsSub tabInfo.path hint then s.add config.pathWeight else s)
          score1
        let score3 := config.titleHints.foldl
          (fun s hint => if hint tabInfo.title then s.add config.titleWeight else s) score2
        if JSNum.le config.threshold score3 then
          let sortedMatches := List.insertionSort
            (fun a b : String × JSNum => JSNum.le b.2 a.2) kwResult.2
          let adjusted := score3.add ((JSNum.ofInt config.priority).divNat 100)
          let bestPriority :=
            match mapGet KEYWORD_MAP best.category with
            | some bc => bc.priority
            | none => 0
          if JSNum.lt best.score adjusted ||
              (JSNum.lt ((adjusted.sub best.score).abs) ⟨1, 10000⟩ &&
                bestPriority < config.priority) then
            ⟨category, adjusted, sortedMatches.take 5⟩
          else best
        else best)
    ⟨"Other", JSNum.ofInt 0, []⟩

/-! ## Category assignments -/

/-- A category assignment record (`createCategoryAssignment` /
the user-rule assignment object of `groupByRules`). -/
structure Assignment where
  id : Nat
  info : TabInfo
  category : String
  initialCategory : String
  method : String
  rule : Option String
  color : Option String
  score : Option JSNum
  keywords : List (String × JSNum)
  mergeHistory : List (String × String × String)
deriving Repr, DecidableEq

/-- Model of `createCategoryAssignment`. -/
def createCategoryAssignment (info : TabInfo) (category method : String)
    (rule : Option String) (color : Option String) (score : Option JSNum)
    (keywords : List (String × JSNum)) : Assignment :=
  ⟨info.id, info, category, category, method,
    (if jsTruthy rule then rule else none),
    (if jsTruthy color then color else mapGet CATEGORY_COLOR_MAP category),
    score, keywords, []⟩

/-- Category statistics: ordered map from category name to member tab ids (the
`computeCategoryStats` map; the source also caches counts and assignment
objects, which are recoverable from the ids). -/
def categoryStatsOf (assignments : List (Nat × Assignment)) : List (String × List Nat) :=
  assignments.foldl (fun stats kv => mapPush stats kv.2.category kv.2.id) []

/-- Model of `mergeAssignmentsForTabs`: move the listed tabs to the target
category, recording merge history. -/
def mergeAssignmentsForTabs (assignments : List (Nat × Assignment)) (tabIds : List Nat)
    (fromName toName reason : String) : List (Nat × Assignment) :=
  if fromName = toName then assignments
  else
    tabIds.foldl
      (fun m tabId =>
        match mapGet m tabId with
        | some assignment =>
          if assignment.category = toName then m
          else
            mapSet m tabId
              { assignment with
                mergeHistory := assignment.mergeHistory ++ [(assignment.category, toName, reason)]
                category := toName }
        | none => m) assignments

/-- Minimum of two JS numbers, modelling `Math.min`. -/
def jsMin (a b : JSNum) : JSNum := if JSNum.le a b then a else b

/-- Model of `computeCategorySimilarity`: shared keyword-weight overlap plus a
0.5 bonus per direction of declared neighborship. The source returns positive
infinity when both names are equal; every call site compares distinct names,
so that case is not modelled. -/
def computeCategorySimilarity (a b : String) : JSNum :=
  match mapGet KEYWORD_MAP a, mapGet KEYWORD_MAP b with
  | some configA, some configB =>
    let overlap := configA.keywords.foldl
      (fun s kw =>
        match mapGet configB.keywords kw.1 with
        | some wB =>
          let wA := if kw.2.num = 0 then JSNum.ofInt 1 else kw.2
          let wB2 := if wB.num = 0 then JSNum.ofInt 1 else wB
          s.add (jsMin wA wB2)
        | none => s) (JSNum.ofInt 0)
    let withA :=
      match mapGet CATEGORY_NEIGHBORS a with
      | some ns => if ns.contains b then overlap.add ⟨1, 2⟩ else overlap
      | none => overlap
    match mapGet CATEGORY_NEIGHBORS b with
    | some ns => if ns.contains a then withA.add ⟨1, 2⟩ else withA
    | none => withA
  | _, _ => JSNum.ofInt 0

/-- Model of `findNearestCategory`: the most similar nonempty other category,
ties broken toward the larger one. -/
def findNearestCategory (name : String) (stats : List (String × List Nat)) : Option String :=
  let best := stats.foldl
    (fun (best : Option (String × Nat × JSNum)) entry =>
      if entry.1 = name || entry.2.length = 0 then best
      else
        let score := computeCategorySimilarity name entry.1
        match best with
        | none => some (entry.1, entry.2.length, score)
        | some b =>
          if JSNum.lt b.2.2 score || (JSNum.valEq b.2.2 score && b.2.1 < entry.2.length) then
            some (entry.1, entry.2.length, score)
          else best) none
  best.map (fun b => b.1)

/-- Model of `findSmallestCategory`: the smallest nonempty non-Other category,
falling back to the Other entry. -/
def findSmallestCategory (stats : List (String × List Nat)) : Option (String × List Nat) :=
  let candidate := stats.foldl
    (fun cand entry =>
      if entry.2.length = 0 then cand
      else if entry.1 = "Other" then cand
      else
        match cand with
        | none => some entry
        | some c => if entry.2.length < c.2.length then some entry else cand) none
  match candidate with
  | some c => some c
  | none => (mapGet stats "Other").map (fun ids => ("Other", ids))

/-- Ranking used by the overflow phase: descending member count, ties by
descending display priority. -/
def overflowRank (a b : String × List Nat) : Prop :=
  b.2.length < a.2.length ∨
    (a.2.length = b.2.length ∧
      (mapGet CATEGORY_PRIORITY b.1).getD 0 ≤ (mapGet CATEGORY_PRIORITY a.1).getD 0)

instance (a b : String × List Nat) : Decidable (overflowRank a b) := by
  unfold overflowRank; infer_instance

/-- One pass of the `while (changed)` body of `limitCategoryAssignments`:
overflow merges into Other, then a single small-category merge, then a single
smallest-into-nearest merge; returns the updated assignments and whether
anything changed. -/
def limitStep (assignments : List (Nat × Assignment)) (safeMax : Nat) :
    List (Nat × Assignment) × Bool :=
  let stats := categoryStatsOf assignments
  let entries := stats.filter (fun e => 0 < e.2.length)
  if entries.isEmpty then (assignments, false)
  else
    let otherEntry := mapGet stats "Other"
    let nonOther := entries.filter (fun e => e.1 ≠ "Other")
    let totalGroups := entries.length
    let afterOverflow :=
      if safeMax < totalGroups then
        let reserveForOther : Nat :=
          if safeMax < nonOther.length ||
              (match otherEntry with | some ids => 0 < ids.length | none => false) then 1
          else 0
        let allowedNonOther := safeMax - reserveForOther
        let sortedNonOther := List.insertionSort overflowRank nonOther
        let toMerge := sortedNonOther.drop allowedNonOther
        (toMerge.foldl (fun m e => mergeAssignmentsForTabs m e.2 e.1 "Other" "overflow")
          assignments, !toMerge.isEmpty)
      else (assignments, false)
    if afterOverflow.2 then afterOverflow
    else if 4 ≤ totalGroups then
      let refreshed := categoryStatsOf assignments
      match refreshed.find? (fun e => e.1 ≠ "Other" && e.2.length < 2) with
      | some e =>
        let target := (findNearestCategory e.1 refreshed).getD "Other"
        (mergeAssignmentsForTabs assignments e.2 e.1 target "small", true)
      | none =>
        let refreshed2 := categoryStatsOf assignments
        if safeMax < refreshed2.length then
          match findSmallestCategory refreshed2 with
          | some cand =>
            let target := (findNearestCategory cand.1 refreshed2).getD "Other"
            (mergeAssignmentsForTabs assignments cand.2 cand.1 target "limit", true)
          | none => (assignments, false)
        else (assignments, false)
    else
      let refreshed2 := categoryStatsOf assignments
      if safeMax < refreshed2.length then
        match findSmallestCategory refreshed2 with
        | some cand =>
          let target := (findNearestCategory cand.1 refreshed2).getD "Other"
          (mergeAssignmentsForTabs assignments cand.2 cand.1 target "limit", true)
        | none => (assignments, false)
      else (assignments, false)

/-- Model of `limitCategoryAssignments` with explicit fuel for the
`while (changed)` loop; every category name is one of the ten fixed names, so
the loop stabilizes after at most ten merges and the fuel used by callers is
sufficient. -/
def limitCategoryAssignments : Nat → List (Nat × Assignment) → Nat →
    List (Nat × Assignment)
  | 0, assignments, _ => assignments
  | fuel + 1, assignments, maxGroups =>
    let safeMax := max 1 (min 5 maxGroups)
    let step := limitStep assignments safeMax
    if step.2 then limitCategoryAssignments fuel step.1 maxGroups else step.1

/-! ## Group records -/

/-- A group record flowing into `capTotalGroups`. The `serial` field is a
model artifact standing for JS object identity, which the source relies on
through the `other` reference it captures before the merge loop. -/
structure GroupRecord where
  serial : Nat
  name : String
  tabIds : List Nat
  color : Option String
  origin : String
deriving Repr, DecidableEq

/-- Model of `sortTabIdsByIndex`: stable sort of tab ids by the position index
recorded in the assignments map (missing entries count as index 0). -/
def sortTabIdsByIndex (tabIds : List Nat) (assignments : List (Nat × Assignment)) :
    List Nat :=
  List.insertionSort
    (fun a b =>
      (match mapGet assignments a with | some x => x.info.tab.index | none => 0) ≤
      (match mapGet assignments b with | some x => x.info.tab.index | none => 0)) tabIds

/-- Ranking used when ordering category records and the final records:
descending size, ties by descending display priority (priorities of names
outside the category table are modelled as 0; in the source that comparator
value is `NaN`, which leaves the stable order unchanged in the engines this
targets). -/
def recordRank (a b : GroupRecord) : Prop :=
  b.tabIds.length < a.tabIds.length ∨
    (a.tabIds.length = b.tabIds.length ∧
      (mapGet CATEGORY_PRIORITY b.name).getD 0 ≤ (mapGet CATEGORY_PRIORITY a.name).getD 0)

instance (a b : GroupRecord) : Decidable (recordRank a b) := by
  unfold recordRank; infer_instance

/-- Model of `collectCategoryGroupRecords`: one record per category with
position-sorted ids, ordered by descending size then priority. -/
def collectCategoryGroupRecords (assignments : List (Nat × Assignment)) :
    List GroupRecord × List (String × List Nat) :=
  let stats := categoryStatsOf assignments
  let groups := stats.map
    (fun e =>
      (⟨0, e.1, sortTabIdsByIndex e.2 assignments, mapGet CATEGORY_COLOR_MAP e.1,
        "category"⟩ : GroupRecord))
  (List.insertionSort recordRank groups, stats)

/-- The result record of `categorizeTabInfos`. -/
structure CategorizeResult where
  groups : List GroupRecord
  assignments : List (Nat × Assignment)

/-- The per-tab rule-matching step of `categorizeTabInfos`: matched tabs get a
rule assignment, the rest are queued for keyword scoring. -/
def classifyRuleStep (acc : List (Nat × Assignment) × List TabInfo) (info : TabInfo) :
    List (Nat × Assignment) × List TabInfo :=
  match matchCategoryRule info with
  | some ruleMatch =>
    let category :=
      normalizeCategoryName (jsOrStr (some ruleMatch.category) (some ruleMatch.name))
    (mapSet acc.1 info.id
      (createCategoryAssignment info category "rule" (some ruleMatch.ruleName)
        (jsOrStr ruleMatch.color (mapGet CATEGORY_COLOR_MAP category)) none []),
      acc.2)
  | none => (acc.1, acc.2 ++ [info])

/-- The per-tab keyword-scoring step of `categorizeTabInfos`. -/
def classifyKeywordStep (m : List (Nat × Assignment)) (info : TabInfo) :
    List (Nat × Assignment) :=
  let scored := scoreCategory info
  let category := normalizeCategoryName (some scored.category)
  mapSet m info.id
    (createCategoryAssignment info category "keyword" none none (some scored.score)
      scored.keywords)

/-- Model of `categorizeTabInfos`: rule matching first, keyword scoring for
the rest, then category limiting (`options.maxGroups || 5`). -/
def categorizeTabInfos (tabInfos : List TabInfo) (maxGroups : Nat) : CategorizeResult :=
  let step1 := tabInfos.foldl classifyRuleStep ([], [])
  let assignments1 := step1.2.foldl classifyKeywordStep step1.1
  let effectiveMax := if maxGroups = 0 then 5 else maxGroups
  let assignments2 := limitCategoryAssignments 32 assignments1 effectiveMax
  ⟨(collectCategoryGroupRecords assignments2).1, assignments2⟩

/-! ## Diagnostics -/

/-- A classification diagnostic; absent JS object fields are modelled by
`none` and empty lists. -/
structure Diagnostic where
  group : Option String
  reason : String
  rule : Option String
  score : Option JSNum
  keywords : List String
  merge : List (String × String × String)
deriving Repr, DecidableEq

/-- Rounding to two decimal places, modelling `Number(score.toFixed(2))` for
the non-negative scores the classifier produces. -/
def roundTo2 (s : JSNum) : JSNum :=
  ⟨Int.fdiv (s.num * 200 + (s.den : Int)) (2 * (s.den : Int)), 100⟩

/-- Model of `buildCategoryDiagnostic`. -/
def buildCategoryDiagnostic (assignment : Assignment) : Diagnostic :=
  ⟨some assignment.category,
    (if assignment.method = "rule" then "category-rule" else "category-keywords"),
    (if jsTruthy assignment.rule then assignment.rule else none),
    (if assignment.method = "keyword" then
      some (match assignment.score with | some s => roundTo2 s | none => JSNum.ofInt 0)
    else none),
    (if assignment.method = "keyword" && !assignment.keywords.isEmpty then
      assignment.keywords.map (fun kv => kv.1)
    else []),
    assignment.mergeHistory⟩

/-- Model of `buildFinalDiagnostic`. -/
def buildFinalDiagnostic (assignment : Assignment) : Diagnostic :=
  if assignment.method = "user-rule" then
    ⟨some assignment.category, "rule",
      (if jsTruthy assignment.rule then assignment.rule else none), none, [],
      assignment.mergeHistory⟩
  else buildCategoryDiagnostic assignment

/-! ## Group-count capping -/

/-- Model of `findSmallestRecordIndex`: pick the merge candidate by the key
(category records first, then fewest tabs, then highest display priority). -/
def findSmallestRecordIndex (records : List GroupRecord) : Option Nat :=
  let res := (enumFrom 0 records).foldl
    (fun (best : Option (Nat × Nat × Nat × Nat)) p =>
      let i := p.1
      let record := p.2
      if record.name = "Other" && records.length ≤ 1 then best
      else
        let prefer : Nat := if record.origin = "category" then 0 else 1
        let k1 := prefer
        let k2 := record.tabIds.length
        let k3 := (mapGet CATEGORY_PRIORITY record.name).getD 0
        match best with
        | none => some (i, k1, k2, k3)
        | some b =>
          if k1 < b.2.1 ||
              (k1 = b.2.1 && (k2 < b.2.2.1 || (k2 = b.2.2.1 && b.2.2.2 < k3))) then
            some (i, k1, k2, k3)
          else best) none
  res.map (fun r => r.1)

/-- Model of `selectTargetRecord`, returning the serial of the chosen target
record: for category candidates the most similar nonempty record (ties toward
the larger), otherwise the first record named Other. -/
def selectTargetRecord (candidate : GroupRecord) (records : List GroupRecord) :
    Option Nat :=
  let best :=
    if candidate.origin = "category" then
      records.foldl
        (fun (best : Option (GroupRecord × JSNum)) record =>
          if record.name = candidate.name || record.tabIds.length = 0 then best
          else
            let score :=
              if record.origin = "category" then
                computeCategorySimilarity candidate.name record.name
              else JSNum.ofInt 0
            match best with
            | none => some (record, score)
            | some b =>
              if JSNum.lt b.2 score ||
                  (JSNum.valEq b.2 score && b.1.tabIds.length < record.tabIds.length) then
                some (record, score)
              else best) none
    else none
  match best with
  | some b => some b.1.serial
  | none => (records.find? (fun r => r.name = "Other")).map (fun r => r.serial)

/-- State of the `capTotalGroups` merge loop: the working records, the merged
assignments, the captured reference to the Other record (by serial; it can
become stale when that record is itself merged away, exactly as the JS
variable does), and the next fresh serial. -/
structure CapState where
  working : List GroupRecord
  assignments : List (Nat × Assignment)
  otherSerial : Option Nat
  nextSerial : Nat
deriving Repr, DecidableEq

/-- Resolve the merge target for one cap-loop iteration: the selected record's
serial, the captured Other serial, or a freshly created empty Other record
(whose serial is recorded). -/
def capChooseTarget (st : CapState) (candidate : GroupRecord) : CapState × Nat :=
  match selectTargetRecord candidate st.working with
  | some s => (st, s)
  | none =>
    match st.otherSerial with
    | some s => (st, s)
    | none =>
      let newRec : GroupRecord :=
        ⟨st.nextSerial, "Other", [], mapGet CATEGORY_COLOR_MAP "Other", "category"⟩
      ({ st with
          working := st.working ++ [newRec]
          otherSerial := some st.nextSerial
          nextSerial := st.nextSerial + 1 }, st.nextSerial)

/-- One iteration of the `capTotalGroups` merge loop: the flag says whether
the loop continues with the returned state; a `false` flag is one of the
source's break conditions (or the loop guard). -/
def capStepOnce (st : CapState) (safeMax : Nat) : Bool × CapState :=
  if st.working.length ≤ safeMax then (false, st)
  else
    match findSmallestRecordIndex st.working with
    | none => (false, st)
    | some index =>
      match st.working.get? index with
      | none => (false, st)
      | some candidate =>
        let withTarget := capChooseTarget st candidate
        let st1 := withTarget.1
        let targetSerial := withTarget.2
        let targetName :=
          match st1.working.find? (fun r => r.serial = targetSerial) with
          | some r => r.name
          | none => "Other"
        if targetName = candidate.name then (false, st1)
        else
          let uniqueIds := dedupList candidate.tabIds
          let working2 := st1.working.map
            (fun r =>
              if r.serial = targetSerial then { r with tabIds := r.tabIds ++ uniqueIds }
              else r)
          let assignments2 :=
            mergeAssignmentsForTabs st1.assignments uniqueIds candidate.name targetName
              "limit"
          (true, { st1 with working := working2.eraseIdx index, assignments := assignments2 })

/-- The `while (working.length > safeMax)` loop of `capTotalGroups` with
explicit fuel. Each iteration merges the chosen candidate into its target
(creating the Other record at most once) or stops at the source's break
conditions. -/
def capStepLoop : Nat → CapState → Nat → CapState
  | 0, st, _ => st
  | fuel + 1, st, safeMax =>
    let step := capStepOnce st safeMax
    if step.1 then capStepLoop fuel step.2 safeMax else step.2

/-- Model of `capTotalGroups`: clone records with deduplicated ids, drop empty
ones, run the merge loop, and drop records emptied by merging. Serial numbers
are assigned on entry to stand for object identity. -/
def capTotalGroups (records : List GroupRecord) (assignments : List (Nat × Assignment))
    (maxGroups : Nat) : List GroupRecord × List (Nat × Assignment) :=
  let safeMax := max 1 (min 5 maxGroups)
  let working := (mapIdxFrom
    (fun i r => { r with serial := i, tabIds := dedupList r.tabIds }) 0 records).filter
      (fun r => 0 < r.tabIds.length)
  if working.isEmpty then (working, assignments)
  else
    let otherSerial := (working.find? (fun r => r.name = "Other")).map (fun r => r.serial)
    let st := capStepLoop (working.length + 2)
      ⟨working, assignments, otherSerial, records.length⟩ safeMax
    (st.working.filter (fun r => 0 < r.tabIds.length), st.assignments)

/-! ## Group assembly -/

/-- The candidate-search loop of `resolveGroupName`, returning the chosen
label and the final counter value; the fuel passed by the caller exceeds the
number of group names, which bounds the loop. -/
def resolveGroupNameLoop : Nat → List (String × List Nat) → String → Nat → Nat →
    String × Nat
  | 0, _, clean, index, _ =>
    ((if index = 0 then clean else clean ++ " (" ++ natToString (index + 1) ++ ")"), index)
  | fuel + 1, groups, clean, index, limit =>
    let candidate :=
      if index = 0 then clean else clean ++ " (" ++ natToString (index + 1) ++ ")"
    match mapGet groups candidate with
    | some ids =>
      if limit ≤ ids.length then resolveGroupNameLoop fuel groups clean (index + 1) limit
      else (candidate, index)
    | none => (candidate, index)

/-- Model of `resolveGroupName`: the base label when no limit applies,
otherwise the first non-full suffixed label starting from the remembered
counter. -/
def resolveGroupName (groups : List (String × List Nat)) (counters : List (String × Nat))
    (baseName : String) (limit : Nat) : String × List (String × Nat) :=
  let clean := truncateLabel (if baseName = "" then "Group" else baseName)
  if limit < 2 then (clean, counters)
  else
    let start := (mapGet counters clean).getD 0
    let res := resolveGroupNameLoop (groups.length + 1) groups clean start limit
    (res.1, mapSet counters clean res.2)

/-- Model of `assignTabToGroupMap`: push the tab id under the resolved label,
record the group color on first use, and return the updated state plus the
resolved label. -/
def assignTabToGroupMap (groups : List (String × List Nat))
    (colorMap : List (String × String)) (counters : List (String × Nat))
    (baseName : String) (color : Option String) (tabId : Nat) (limit : Nat) :
    List (String × List Nat) × List (String × String) × List (String × Nat) × String :=
  let resolved := resolveGroupName groups counters baseName limit
  let resolvedName := resolved.1
  let groups2 := mapPush groups resolvedName tabId
  let colorMap2 :=
    match color with
    | some c =>
      if c ≠ "" && !(mapHasKey colorMap resolvedName) then mapSet colorMap resolvedName c
      else colorMap
    | none => colorMap
  (groups2, colorMap2, resolved.2, resolvedName)

/-- Options consumed by `groupByRules` (the legacy call form passing a bare
rule array is not modelled; the numeric `maxTabsPerGroup` preference is
modelled as an optional integer, `none` standing for a non-finite value). -/
structure GroupOptions where
  userRules : List UserRule
  maxTabsPerGroup : Option Int
  preservePinned : Bool

/-- The value of `groupByRules`: the name-to-ids group map with its attached
color and diagnostics maps, all insertion-ordered. -/
structure GroupingResult where
  groups : List (String × List Nat)
  colors : List (String × String)
  diagnostics : List (Nat × Diagnostic)
deriving Repr, DecidableEq

/-- State accumulated by the user-rule phase of `groupByRules`. -/
structure UserPhaseState where
  userGroups : List (String × List Nat)
  colorMap : List (String × String)
  counters : List (String × Nat)
  assignments : List (Nat × Assignment)
  pinnedDiagnostics : List (Nat × Diagnostic)
  unmatchedInfos : List TabInfo

/-- One step of the user-rule phase: skip pinned tabs (recording the pinned
diagnostic), assign user-rule matches to user groups, and queue the rest for
category classification. -/
def userPhaseStep (preservePinned : Bool) (compiledUserRules : List CompiledRule)
    (maxTabsPerGroup : Nat) (st : UserPhaseState) (tab : TabSnapshot) : UserPhaseState :=
  if preservePinned && tab.pinned then
    { st with
      pinnedDiagnostics :=
        mapSet st.pinnedDiagnostics tab.id ⟨none, "pinned", none, none, [], []⟩ }
  else
    let info := prepareTabForClassification tab
    match matchCompiledRule compiledUserRules info with
    | some m =>
      let assigned := assignTabToGroupMap st.userGroups st.colorMap st.counters m.name
        m.color tab.id maxTabsPerGroup
      let groupName := assigned.2.2.2
      { st with
        userGroups := assigned.1
        colorMap := assigned.2.1
        counters := assigned.2.2.1
        assignments := mapSet st.assignments tab.id
          ⟨tab.id, info, groupName, groupName, "user-rule", some m.ruleName, none, none,
            [], []⟩ }
    | none => { st with unmatchedInfos := st.unmatchedInfos ++ [info] }

/-- The user-rule phase of `groupByRules`: snapshots sorted by position are
folded through `userPhaseStep`. -/
def userPhaseOf (tabs : List TabSnapshot) (options : GroupOptions) : UserPhaseState :=
  let preservePinned := options.preservePinned
  let maxTabsPerGroup : Nat :=
    match options.maxTabsPerGroup with
    | some v => if 2 ≤ v then v.toNat else 0
    | none => 0
  let compiledUserRules := compileUserRules options.userRules
  let snapshots := List.insertionSort (fun a b : TabSnapshot => a.index ≤ b.index) tabs
  snapshots.foldl (userPhaseStep preservePinned compiledUserRules maxTabsPerGroup)
    ⟨[], [], [], [], [], []⟩

/-- The category-classification stage of `groupByRules`, bounded by the slots
the user groups leave free. -/
def categoryResultOf (st : UserPhaseState) : CategorizeResult :=
  if st.unmatchedInfos.isEmpty then (⟨[], []⟩ : CategorizeResult)
  else
    let availableSlots := max 1 (5 - st.userGroups.length)
    categorizeTabInfos st.unmatchedInfos availableSlots

/-- The merged assignments map of `groupByRules`: category assignments are
written over the user-rule assignments. -/
def mergedAssignmentsOf (st : UserPhaseState) : List (Nat × Assignment) :=
  (categoryResultOf st).assignments.foldl (fun m kv => mapSet m kv.1 kv.2) st.assignments

/-- The raw record list handed to `capTotalGroups`: non-empty user groups
first, then the category records. -/
def recordsOf (st : UserPhaseState) : List GroupRecord :=
  ((st.userGroups.filter (fun kv => !kv.2.isEmpty)).map
    (fun kv =>
      (⟨0, kv.1, sortTabIdsByIndex kv.2 (mergedAssignmentsOf st), mapGet st.colorMap kv.1,
        "user"⟩ : GroupRecord))) ++ (categoryResultOf st).groups

/-- The capped records and assignments of `groupByRules`. -/
def cappedOf (st : UserPhaseState) : List GroupRecord × List (Nat × Assignment) :=
  capTotalGroups (recordsOf st) (mergedAssignmentsOf st) 5

/-- The final ordered records of `groupByRules`: position-sorted ids, empty
records dropped, sorted by size then priority. -/
def normalizedRecordsOf (st : UserPhaseState) : List GroupRecord :=
  List.insertionSort recordRank
    (((cappedOf st).1.map
      (fun r => { r with tabIds := sortTabIdsByIndex r.tabIds (cappedOf st).2 })).filter
      (fun r => !r.tabIds.isEmpty))

/-- Model of `groupByRules`: sort snapshots by position, run the user-rule
phase, classify the rest into categories (bounded by the slots user groups
leave free), cap the total group count at five, and assemble the final
ordered group, color and diagnostics maps. -/
def groupByRules (tabs : List TabSnapshot) (options : GroupOptions) : GroupingResult :=
  let st := userPhaseOf tabs options
  let finalAssignments := (cappedOf st).2
  let finalPair := (normalizedRecordsOf st).foldl
    (fun (acc : List (String × List Nat) × List (String × String)) record =>
      let groups2 := mapSet acc.1 record.name record.tabIds
      let color :=
        if record.origin = "user" then jsOrStr (mapGet st.colorMap record.name) record.color
        else jsOrStr (mapGet CATEGORY_COLOR_MAP record.name) record.color
      let colors2 :=
        match color with
        | some c => if c ≠ "" then mapSet acc.2 record.name c else acc.2
        | none => acc.2
      (groups2, colors2)) ([], [])
  let finalDiagnostics := finalAssignments.foldl
    (fun m kv => mapSet m kv.1 (buildFinalDiagnostic kv.2)) st.pinnedDiagnostics
  ⟨finalPair.1, finalPair.2, finalDiagnostics⟩

/-- Model of `explainClassification`: look up a tab id in the diagnostics of
the most recent `groupByRules` run. The source keeps that run in the
module-level `lastClassification` map; the state is modelled explicitly by
passing the grouping result whose diagnostics were stored. -/
def explainClassification (result : GroupingResult) (tabId : Nat) : Option Diagnostic :=
  mapGet result.diagnostics tabId

/-! ## Specification-side definitions

These definitions follow the words of the specification, for comparison with
the code-derived definitions above. -/

/-- Stated keeper choice of the specification: the tab with the highest
`scoreTab` score, ties broken by input order. -/
def specKeeperHighestScoreFirst (preferPinned : Bool) (groupTabs : List TabSnapshot) :
    Option TabSnapshot :=
  groupTabs.find? (fun t => groupTabs.all
    (fun u => decide (JSNum.le (scoreTab u preferPinned) (scoreTab t preferPinned))))

/-- The per-tab rule determination of `groupByRules`: the first matching user
rule, otherwise the first matching catalog rule (extracted from the user-rule
phase and `categorizeTabInfos`). -/
def ruleCascadeMatch (compiledUserRules : List CompiledRule) (info : TabInfo) :
    Option RuleMatch :=
  match matchCompiledRule compiledUserRules info with
  | some m => some m
  | none => matchCategoryRule info

/-! ## Concrete inputs used by the claim analyses -/

/-- A plain unpinned, inactive tab snapshot. -/
def sampleTab (id : Nat) (url : String) (index : Nat) : TabSnapshot :=
  ⟨id, "Tab " ++ natToString id, url, false, false, false, index, none⟩

/-- A user rule whose host pattern is a literal substring regex. -/
def substringHostRule (name pat : String) : UserRule :=
  ⟨name, some (fun s => strContainsSub s pat), none, none, none, none⟩

/-- Six user rules, one of them named Other, each matching one host. -/
def c1Rules : List UserRule :=
  [substringHostRule "R1" "site1", substringHostRule "R2" "site2",
   substringHostRule "R3" "site3", substringHostRule "R4" "site4",
   substringHostRule "R5" "site5", substringHostRule "Other" "site6"]

/-- Six tabs on six unrelated hosts, one per rule of `c1Rules`. -/
def c1Tabs : List TabSnapshot :=
  [sampleTab 1 "https://site1.test/" 0, sampleTab 2 "https://site2.test/" 1,
   sampleTab 3 "https://site3.test/" 2, sampleTab 4 "https://site4.test/" 3,
   sampleTab 5 "https://site5.test/" 4, sampleTab 6 "https://site6.test/" 5]

/-- Options for the `c1Tabs` run. -/
def c1Opts : GroupOptions := ⟨c1Rules, none, true⟩

/-- Two tabs: one matching a user rule named Other, one matching nothing. -/
def c2Tabs : List TabSnapshot :=
  [sampleTab 1 "https://uno.test/" 0, sampleTab 2 "https://blank.test/" 1]

/-- Options for the `c2Tabs` run: a single user rule named Other. -/
def c2Opts : GroupOptions := ⟨[substringHostRule "Other" "uno"], none, true⟩

/-- Preferences used by the pipeline analyses. -/
def c2Prefs : DedupePreferences := ⟨true, true⟩

/-- Three GitHub tabs, all matching the Dev/Code catalog category. -/
def c9Tabs : List TabSnapshot :=
  [sampleTab 1 "https://github.com/a/b" 0, sampleTab 2 "https://github.com/c/d" 1,
   sampleTab 3 "https://github.com/e/f" 2]

/-- Options for the `c9Tabs` run: group size limit two, no user rules. -/
def c9Opts : GroupOptions := ⟨[], some 2, true⟩

/-- Two user rules matching the same host, the earlier one with the lower
priority. -/
def c4Rules : List UserRule :=
  [⟨"First Low", some (fun s => strContainsSub s "site1"), none, none, none, some 1⟩,
   ⟨"Second High", some (fun s => strContainsSub s "site1"), none, none, none, some 9999⟩]

/-- The classification info of a tab both rules of `c4Rules` match. -/
def c4Info : TabInfo := prepareTabForClassification (sampleTab 1 "https://site1.test/" 0)

end TabOrg

namespace TabOrg

set_option maxRecDepth 40000

/-- C1: the group-count ceiling fails on the code: with six single-tab user
groups, one of which is named Other, `capTotalGroups` picks the user record
named Other as the merge candidate, resolves it as its own merge target, and
breaks out of the merge loop, so `groupByRules` returns six non-empty groups.
This evaluates the engine at that failing input. -/
theorem groupByRules_six_nonempty_groups :
    5 < (groupByRules c1Tabs c1Opts).groups.length ∧
    ∀ entry ∈ (groupByRules c1Tabs c1Opts).groups, entry.2 ≠ [] := by decide

/-- C2: tab coverage fails on the code: when a user group and a category group
share the name Other, the final `Map.set` assembly overwrites one with the
other, so the tab of the overwritten record appears in no output group and in
no close list. This evaluates the pipeline at that failing input. -/
theorem groupByRules_loses_tab_on_name_collision :
    (computeDedupePlan c2Tabs c2Prefs).tabsToClose = [] ∧
    (computeDedupePlan c2Tabs c2Prefs).survivors = c2Tabs ∧
    (groupByRules (computeDedupePlan c2Tabs c2Prefs).survivors c2Opts).groups =
      [("Other", [2])] ∧
    (∀ entry ∈ (groupByRules (computeDedupePlan c2Tabs c2Prefs).survivors c2Opts).groups,
      1 ∉ entry.2) := by decide

/-- C5: canonicalization is not idempotent: `normalizeHost` strips a single
leading `www.` label, so a host beginning `www.www.` canonicalizes to a URL
that canonicalizes again to something different. -/
theorem canonicalizeUrl_not_idempotent :
    canonicalizeUrl "https://www.www.example.com/" = some "https://www.example.com" ∧
    canonicalizeUrl "https://www.example.com" = some "https://example.com" ∧
    (canonicalizeUrl "https://www.www.example.com/").bind canonicalizeUrl ≠
      canonicalizeUrl "https://www.www.example.com/" := by decide

/-- C9: the group size ceiling fails on the code: `maxTabsPerGroup` is only
enforced by the user-rule assignment path, so three catalog-matched tabs stay
in one Dev/Code group of size three although the limit is two. -/
theorem groupByRules_category_group_exceeds_limit :
    (groupByRules c9Tabs c9Opts).groups = [("Dev/Code", [1, 2, 3])] ∧
    2 < ((groupByRules c9Tabs c9Opts).groups.headD ("", [])).2.length := by decide

/-- First-match over an appended rule list splits into first-match over the
first list, then the second. -/
theorem matchCompiledRule_append (rules₁ rules₂ : List CompiledRule) (info : TabInfo) :
    matchCompiledRule (rules₁ ++ rules₂) info =
      match matchCompiledRule rules₁ info with
      | some m => some m
      | none => matchCompiledRule rules₂ info := by
  induction rules₁ with
  | nil => simp [matchCompiledRule]
  | cons rule rest ih =>
    by_cases h :
        ((match rule.host with | some h => h info.host | none => true) &&
          (match rule.title with | some t => t info.title | none => true) &&
          (match rule.path with | some p => p info.path | none => true)) = true
    · simp only [List.cons_append, matchCompiledRule, h, if_true]
    · simp only [List.cons_append, matchCompiledRule, h, if_false]
      exact ih

/-- Indexed map preserves length. -/
theorem mapIdxFrom_length {α β : Type} (f : Nat → α → β) :
    ∀ (n : Nat) (l : List α), (mapIdxFrom f n l).length = l.length := by
  intro n l
  induction l generalizing n with
  | nil => rfl
  | cons a t ih => simp [mapIdxFrom, ih]

/-- Indexed map with a projection recovering the index yields the index
range. -/
theorem mapIdxFrom_map_index {α β : Type} (f : Nat → α → β) (g : β → Nat)
    (hfg : ∀ i a, g (f i a) = i) :
    ∀ (l : List α) (n : Nat), (mapIdxFrom f n l).map g = List.range' n l.length := by
  intro l
  induction l with
  | nil => intro n; rfl
  | cons a t ih =>
    intro n
    simp [mapIdxFrom, hfg, ih, List.range']

/-- C4 counterexample: within the user tier the declared priority does not
order rule evaluation; the earlier, lower-priority rule wins the match. -/
theorem userRules_ignore_priority :
    ((matchCompiledRule (compileUserRules c4Rules) c4Info).map (fun m => m.name)) =
      some "First Low" ∧
    ((groupByRules [sampleTab 1 "https://site1.test/" 0] ⟨c4Rules, none, true⟩).groups =
      [("First Low", [1])]) ∧
    ((compileUserRules c4Rules).map (fun r => r.priority) = [1, 9999]) := by decide

/-- C4 amended: the rule cascade of `groupByRules` is first-match-wins over
the concatenation of the compiled user rules and the compiled catalog; the
compiled user rules keep declaration order (their indexes are the positions
of the kept rules, regardless of declared priority), and the compiled catalog
is ordered by descending priority with ties broken by declaration index. -/
theorem rule_precedence_amended :
    (∀ (userRules : List UserRule) (info : TabInfo),
      ruleCascadeMatch (compileUserRules userRules) info =
        matchCompiledRule (compileUserRules userRules ++ COMPILED_RULES) info) ∧
    (∀ userRules : List UserRule,
      (compileUserRules userRules).map (fun r => r.index) =
        List.range (compileUserRules userRules).length) ∧
    List.Sorted ruleOrder COMPILED_RULES := by
  refine ⟨fun userRules info => ?_, fun userRules => ?_, ?_⟩
  · rw [matchCompiledRule_append]
    rfl
  · unfold compileUserRules
    rw [mapIdxFrom_map_index _ _ (fun i a => rfl), mapIdxFrom_length,
      List.range_eq_range']
  · unfold COMPILED_RULES compileRuleCatalog
    exact List.sorted_insertionSort _ _

/-! ### Keeper selection (C8) -/

theorem JSNum.ofInt_pos (n : Int) : (JSNum.ofInt n).Pos := Nat.one_pos

theorem JSNum.add_pos {a b : JSNum} (ha : a.Pos) (hb : b.Pos) : (a.add b).Pos :=
  Nat.mul_pos ha hb

theorem JSNum.divNat_pos {a : JSNum} (ha : a.Pos) {k : Nat} (hk : 0 < k) :
    (a.divNat k).Pos :=
  Nat.mul_pos ha hk

/-- Every tab score has a positive denominator. -/
theorem scoreTab_Pos (tab : TabSnapshot) (preferPinned : Bool) :
    (scoreTab tab preferPinned).Pos := by
  unfold scoreTab
  dsimp only
  repeat'
    first
    | exact JSNum.ofInt_pos _
    | apply JSNum.add_pos
    | apply JSNum.divNat_pos
    | split
    | omega

/-- Transitivity of the score comparison. -/
theorem score_le_trans {pp : Bool} {a b c : TabSnapshot}
    (h1 : JSNum.le (scoreTab a pp) (scoreTab b pp))
    (h2 : JSNum.le (scoreTab b pp) (scoreTab c pp)) :
    JSNum.le (scoreTab a pp) (scoreTab c pp) :=
  JSNum.le_trans (scoreTab_Pos b pp) h1 h2

/-- If a predicate factors as a conjunction whose right factor is another
predicate, the first hit of the other predicate is also the first hit of the
conjunction provided the left factor holds there. -/
theorem find?_and_left {α : Type} (p q f : α → Bool)
    (hpq : ∀ x, p x = (f x && q x)) :
    ∀ (l : List α) (h : α), l.find? q = some h → f h = true → l.find? p = some h := by
  intro l
  induction l with
  | nil => intro h hfind; simp [List.find?] at hfind
  | cons x xs ih =>
    intro h hfind hf
    by_cases hq : q x = true
    · rw [List.find?_cons_of_pos _ hq] at hfind
      injection hfind with heq
      subst heq
      rw [List.find?_cons_of_pos _ (by rw [hpq]; simp [hq, hf])]
    · rw [List.find?_cons_of_neg _ (by simpa using hq)] at hfind
      rw [List.find?_cons_of_neg _ (by rw [hpq]; simp; intro _; simpa using hq)]
      exact ih h hfind hf

/-- The head of the stable descending score sort is the first tab of the
input attaining the maximal score, which is the keeper the specification
describes. -/
theorem sortByScoreDesc_head_specKeeper (pp : Bool) :
    ∀ l : List TabSnapshot, l ≠ [] →
      ∃ h t, sortByScoreDesc pp l = h :: t ∧
        specKeeperHighestScoreFirst pp l = some h := by
  intro l
  induction l with
  | nil => intro hne; exact absurd rfl hne
  | cons a l ih =>
    intro _
    cases l with
    | nil =>
      refine ⟨a, [], rfl, ?_⟩
      simp [specKeeperHighestScoreFirst, List.find?, List.all, JSNum.le_refl]
    | cons b l' =>
      obtain ⟨h', t', hsort, hspec⟩ := ih (by simp)
      have hmem : h' ∈ b :: l' := List.mem_of_find?_eq_some hspec
      have hpred := List.find?_some hspec
      rw [List.all_eq_true] at hpred
      have hmax : ∀ u ∈ b :: l', JSNum.le (scoreTab u pp) (scoreTab h' pp) := by
        intro u hu
        simpa using hpred u hu
      have hsort2 : sortByScoreDesc pp (a :: b :: l') =
          List.orderedInsert
            (fun x y => JSNum.le (scoreTab y pp) (scoreTab x pp)) a (h' :: t') := by
        unfold sortByScoreDesc at hsort ⊢
        rw [List.insertionSort, hsort]
      by_cases hr : JSNum.le (scoreTab h' pp) (scoreTab a pp)
      · refine ⟨a, h' :: t', ?_, ?_⟩
        · rw [hsort2, List.orderedInsert, if_pos hr]
        · unfold specKeeperHighestScoreFirst
          rw [List.find?_cons_of_pos]
          rw [List.all_eq_true]
          intro u hu
          rcases List.mem_cons.mp hu with rfl | hu'
          · simpa using JSNum.le_refl (scoreTab u pp)
          · simpa using score_le_trans (hmax u hu') hr
      · refine ⟨h',
          List.orderedInsert (fun x y => JSNum.le (scoreTab y pp) (scoreTab x pp)) a t',
          ?_, ?_⟩
        · rw [hsort2, List.orderedInsert, if_neg hr]
        · unfold specKeeperHighestScoreFirst
          rw [List.find?_cons_of_neg]
          · refine find?_and_left _ _
              (fun x => decide (JSNum.le (scoreTab a pp) (scoreTab x pp))) ?_ _ _ hspec ?_
            · intro x
              simp [List.all_cons]
            · rcases JSNum.le_total (scoreTab a pp) (scoreTab h' pp) with h | h
              · simpa using h
              · exact absurd h hr
          · simp only [List.all_eq_true, not_forall]
            refine ⟨h', List.mem_cons_of_mem a hmem, ?_⟩
            simpa using hr

/-- The inner duplicates fold of `processDuplicateGroup` never touches the
duplicate-set list. -/
theorem dupFold_duplicateSets (pp : Bool) (keeper : TabSnapshot) :
    ∀ (dups : List TabSnapshot) (st : DedupeState),
      (dups.foldl
        (fun acc dup =>
          if pp && dup.pinned then { acc with keepers := setAdd acc.keepers dup.id }
          else { acc with tabsToClose := acc.tabsToClose ++ [mkCloseItem dup keeper] })
        st).duplicateSets = st.duplicateSets := by
  intro dups
  induction dups with
  | nil => intro st; rfl
  | cons d rest ih =>
    intro st
    rw [List.foldl_cons, ih]
    split <;> rfl

/-- Characterization of the duplicate sets a single group contributes. -/
theorem processDuplicateGroup_duplicateSets (pp : Bool) (st : DedupeState) (key : String)
    (g : List TabSnapshot) (keeper : TabSnapshot) (dups : List TabSnapshot)
    (hlen : 2 ≤ g.length) (hsort : sortByScoreDesc pp g = keeper :: dups) :
    (processDuplicateGroup pp st key g).duplicateSets =
      st.duplicateSets ++
        [⟨(if strStartsWith key "id-" then none else some key), keeper, dups⟩] := by
  match g, hlen with
  | t1 :: t2 :: rest, _ =>
    unfold processDuplicateGroup
    rw [hsort]
    dsimp only
    rw [dupFold_duplicateSets]

/-- Duplicate sets only grow along the group fold. -/
theorem dedupeGroupPhase_duplicateSets_mono (pp : Bool) :
    ∀ (groups : List (String × List TabSnapshot)) (st : DedupeState) (ds : DuplicateSet),
      ds ∈ st.duplicateSets →
      ds ∈ (groups.foldl (fun s kv => processDuplicateGroup pp s kv.1 kv.2) st).duplicateSets := by
  intro groups
  induction groups with
  | nil => intro st ds h; exact h
  | cons kv rest ih =>
    intro st ds h
    rw [List.foldl_cons]
    refine ih _ _ ?_
    unfold processDuplicateGroup
    match kv.2 with
    | [] => exact h
    | [t] => exact h
    | t1 :: t2 :: g' =>
      dsimp only
      match hs : sortByScoreDesc pp (t1 :: t2 :: g') with
      | [] => exact h
      | keeper :: dups =>
        dsimp only
        rw [dupFold_duplicateSets]
        exact List.mem_append_left _ h

/-- Every canonical group of size at least two contributes its duplicate set
to the group-phase output. -/
theorem dedupeGroupPhase_mem_duplicateSets (pp : Bool) (key : String)
    (g : List TabSnapshot) (keeper : TabSnapshot) (dups : List TabSnapshot)
    (hlen : 2 ≤ g.length) (hsort : sortByScoreDesc pp g = keeper :: dups) :
    ∀ (groups : List (String × List TabSnapshot)) (st : DedupeState),
      (key, g) ∈ groups →
      (⟨(if strStartsWith key "id-" then none else some key), keeper, dups⟩ : DuplicateSet) ∈
        (groups.foldl (fun s kv => processDuplicateGroup pp s kv.1 kv.2) st).duplicateSets := by
  intro groups
  induction groups with
  | nil => intro st h; simp at h
  | cons kv rest ih =>
    intro st hmem
    rcases List.mem_cons.mp hmem with heq | htail
    · rw [List.foldl_cons]
      refine dedupeGroupPhase_duplicateSets_mono pp rest _ _ ?_
      rw [← heq] at *
      rw [processDuplicateGroup_duplicateSets pp st key g keeper dups hlen hsort]
      exact List.mem_append_right _ (List.mem_singleton.mpr rfl)
    · rw [List.foldl_cons]
      exact ih _ htail

/-- C8: within every canonical-URL duplicate group of size at least two,
`computeDedupePlan` records exactly one keeper, and it is the first tab of
the group attaining the maximal `scoreTab` score (stable descending sort);
the group members are exactly the keeper plus the closing candidates. -/
theorem computeDedupePlan_keeper_spec (tabs : List TabSnapshot)
    (prefs : DedupePreferences) (key : String) (g : List TabSnapshot)
    (hmem : (key, g) ∈ canonicalGroups tabs) (hlen : 2 ≤ g.length) :
    ∃ ds ∈ (computeDedupePlan tabs prefs).duplicateSets,
      specKeeperHighestScoreFirst prefs.preservePinned g = some ds.keeper ∧
      (ds.keeper :: ds.closing).Perm g ∧
      ds.canonical = (if strStartsWith key "id-" then none else some key) := by
  have hne : g ≠ [] := by
    intro h; rw [h] at hlen; simp at hlen
  obtain ⟨h, t, hsort, hspec⟩ :=
    sortByScoreDesc_head_specKeeper prefs.preservePinned g hne
  have hplan : (computeDedupePlan tabs prefs).duplicateSets =
      (dedupeGroupPhase prefs.preservePinned (canonicalGroups tabs)).duplicateSets := rfl
  refine ⟨⟨(if strStartsWith key "id-" then none else some key), h, t⟩, ?_, ?_, ?_, rfl⟩
  · rw [hplan]
    exact dedupeGroupPhase_mem_duplicateSets prefs.preservePinned key g h t hlen hsort
      (canonicalGroups tabs) ⟨[], [], []⟩ hmem
  · exact hspec
  · have : (h :: t).Perm g := by
      rw [← hsort]
      exact List.perm_insertionSort _ g
    exact this

/-! ### Basic map and set lemmas -/

theorem setAdd_mem {α : Type} [DecidableEq α] (s : List α) (a x : α) :
    x ∈ setAdd s a ↔ x ∈ s ∨ x = a := by
  unfold setAdd
  split
  · next h =>
    constructor
    · exact Or.inl
    · rintro (hx | rfl)
      · exact hx
      · simpa using h
  · simp [List.mem_append]

theorem setAdd_nodup {α : Type} [DecidableEq α] {s : List α} (h : s.Nodup) (a : α) :
    (setAdd s a).Nodup := by
  unfold setAdd
  split
  · exact h
  · next hna =>
    simpa [List.nodup_append] using ⟨h, by simpa using hna⟩

theorem foldl_setAdd_mem {α : Type} [DecidableEq α] :
    ∀ (l : List α) (s : List α) (x : α), x ∈ l.foldl setAdd s ↔ x ∈ s ∨ x ∈ l := by
  intro l
  induction l with
  | nil => intro s x; simp
  | cons a t ih =>
    intro s x
    rw [List.foldl_cons, ih, setAdd_mem]
    constructor
    · rintro ((hx | rfl) | hx)
      · exact Or.inl hx
      · exact Or.inr (List.mem_cons_self _ _)
      · exact Or.inr (List.mem_cons_of_mem _ hx)
    · rintro (hx | hx)
      · exact Or.inl (Or.inl hx)
      · rcases List.mem_cons.mp hx with rfl | hx'
        · exact Or.inl (Or.inr rfl)
        · exact Or.inr hx'

theorem mapGet_mapSet_self {α β : Type} [DecidableEq α] :
    ∀ (m : List (α × β)) (k : α) (v : β), mapGet (mapSet m k v) k = some v := by
  intro m k v
  induction m with
  | nil => simp [mapSet, mapGet]
  | cons kv rest ih =>
    by_cases h : kv.1 = k
    · simp [mapSet, h, mapGet]
    · simp [mapSet, h, mapGet, ih]

theorem mapGet_mapSet_ne {α β : Type} [DecidableEq α] {k k' : α} (hne : k' ≠ k) :
    ∀ (m : List (α × β)) (v : β), mapGet (mapSet m k v) k' = mapGet m k' := by
  intro m v
  induction m with
  | nil => simp [mapSet, mapGet, hne.symm]
  | cons kv rest ih =>
    by_cases h : kv.1 = k
    · rw [mapSet, if_pos h]
      have hne2 : kv.1 ≠ k' := by rw [h]; exact fun hc => hne hc.symm
      simp [mapGet, hne.symm, hne2]
    · rw [mapSet, if_neg h]
      by_cases hk' : kv.1 = k'
      · simp [mapGet, hk']
      · simp [mapGet, hk', ih]

/-- Entries of `mapSet` come from the original map or are the new pair. -/
theorem mapSet_mem {α β : Type} [DecidableEq α] :
    ∀ (m : List (α × β)) (k : α) (v : β) (e : α × β),
      e ∈ mapSet m k v → e ∈ m ∨ e = (k, v) := by
  intro m k v e
  induction m with
  | nil => simp [mapSet]
  | cons kv rest ih =>
    by_cases h : kv.1 = k
    · rw [mapSet, if_pos h]
      intro he
      rcases List.mem_cons.mp he with rfl | he'
      · exact Or.inr rfl
      · exact Or.inl (List.mem_cons_of_mem _ he')
    · rw [mapSet, if_neg h]
      intro he
      rcases List.mem_cons.mp he with rfl | he'
      · exact Or.inl (List.mem_cons_self _ _)
      · rcases ih he' with h1 | h1
        · exact Or.inl (List.mem_cons_of_mem _ h1)
        · exact Or.inr h1

/-- Keys of `mapSet` are the old keys plus possibly the new one. -/
theorem mapSet_key_mem {α β : Type} [DecidableEq α] :
    ∀ (m : List (α × β)) (k : α) (v : β) (k' : α),
      ((mapGet (mapSet m k v) k').isSome) ↔ (mapGet m k').isSome ∨ k' = k := by
  intro m k v k'
  by_cases h : k' = k
  · subst h
    simp [mapGet_mapSet_self]
  · rw [mapGet_mapSet_ne h]
    simp [h]

/-! ### The canonical grouping covers the input tabs -/

/-- All tabs stored in a grouping map, in map-then-group order. -/
def flatTabs (groups : List (String × List TabSnapshot)) : List TabSnapshot :=
  groups.flatMap (fun kv => kv.2)

theorem flatTabs_mapPush (m : List (String × List TabSnapshot)) (k : String)
    (v : TabSnapshot) : (flatTabs (mapPush m k v)).Perm (flatTabs m ++ [v]) := by
  induction m with
  | nil => simp [mapPush, flatTabs]
  | cons kv rest ih =>
    by_cases h : kv.1 = k
    · rw [mapPush, if_pos h]
      unfold flatTabs
      simp only [List.flatMap_cons]
      rw [List.append_assoc, List.append_assoc]
      exact List.Perm.append_left _ List.perm_append_comm
    · rw [mapPush, if_neg h]
      unfold flatTabs at ih ⊢
      simp only [List.flatMap_cons]
      rw [List.append_assoc]
      exact List.Perm.append_left _ ih

theorem flatTabs_canonicalGroups (tabs : List TabSnapshot) :
    (flatTabs (canonicalGroups tabs)).Perm tabs := by
  suffices h : ∀ (l : List TabSnapshot) (m : List (String × List TabSnapshot)),
      (flatTabs (l.foldl (fun m t => mapPush m (canonicalKey t) t) m)).Perm
        (flatTabs m ++ l) by
    simpa [canonicalGroups, flatTabs] using h tabs []
  intro l
  induction l with
  | nil => intro m; simp
  | cons t rest ih =>
    intro m
    rw [List.foldl_cons]
    refine (ih _).trans ?_
    have h1 := (flatTabs_mapPush m (canonicalKey t) t).append_right rest
    have h2 : (flatTabs m ++ [t]) ++ rest = flatTabs m ++ (t :: rest) := by simp
    exact h2 ▸ h1

/-! ### Per-group keeper and close contributions -/

/-- The ids a single canonical group adds to the keeper set: the singleton
member, or the sort head plus the pinned-exempt duplicates. -/
def groupKeeperIds (pp : Bool) (g : List TabSnapshot) : List Nat :=
  match g with
  | [] => []
  | [t] => [t.id]
  | _ :: _ :: _ =>
    match sortByScoreDesc pp g with
    | [] => []
    | keeper :: dups =>
      keeper.id :: (dups.filter (fun d => pp && d.pinned)).map (fun d => d.id)

/-- The close items a single canonical group contributes. -/
def groupCloseItems (pp : Bool) (g : List TabSnapshot) : List CloseItem :=
  match g with
  | [] => []
  | [_] => []
  | _ :: _ :: _ =>
    match sortByScoreDesc pp g with
    | [] => []
    | keeper :: dups =>
      (dups.filter (fun d => !(pp && d.pinned))).map (fun d => mkCloseItem d keeper)

/-- Boolean negation characterization used for filter membership proofs. -/
theorem bnot_eq_true_iff (b : Bool) : (!b) = true ↔ b = false := by
  cases b <;> simp

/-- The inner duplicates fold appends exactly the non-exempt close items. -/
theorem dupFold_tabsToClose (pp : Bool) (keeper : TabSnapshot) :
    ∀ (dups : List TabSnapshot) (st : DedupeState),
      (dups.foldl
        (fun acc dup =>
          if pp && dup.pinned then { acc with keepers := setAdd acc.keepers dup.id }
          else { acc with tabsToClose := acc.tabsToClose ++ [mkCloseItem dup keeper] })
        st).tabsToClose =
      st.tabsToClose ++
        (dups.filter (fun d => !(pp && d.pinned))).map (fun d => mkCloseItem d keeper) := by
  intro dups
  induction dups with
  | nil => intro st; simp
  | cons d rest ih =>
    intro st
    rw [List.foldl_cons]
    by_cases hd : (pp && d.pinned) = true
    · rw [if_pos hd, ih, List.filter_cons,
        if_neg (fun hc => by rw [(bnot_eq_true_iff _).mp hc] at hd; exact Bool.noConfusion hd)]
    · have hd' : (pp && d.pinned) = false := by
        revert hd; cases (pp && d.pinned) <;> simp
      rw [if_neg hd, ih, List.filter_cons, if_pos ((bnot_eq_true_iff _).mpr hd')]
      simp

/-- The inner duplicates fold adds exactly the exempt ids to the keeper set. -/
theorem dupFold_keepers (pp : Bool) (keeper : TabSnapshot) :
    ∀ (dups : List TabSnapshot) (st : DedupeState) (id : Nat),
      (id ∈ (dups.foldl
        (fun acc dup =>
          if pp && dup.pinned then { acc with keepers := setAdd acc.keepers dup.id }
          else { acc with tabsToClose := acc.tabsToClose ++ [mkCloseItem dup keeper] })
        st).keepers ↔
      id ∈ st.keepers ∨ id ∈ (dups.filter (fun d => pp && d.pinned)).map (fun d => d.id)) := by
  intro dups
  induction dups with
  | nil => intro st id; simp
  | cons d rest ih =>
    intro st id
    rw [List.foldl_cons]
    by_cases hd : (pp && d.pinned) = true
    · rw [if_pos hd, ih, List.filter_cons, if_pos hd]
      simp only [List.map_cons, List.mem_cons, setAdd_mem]
      tauto
    · rw [if_neg hd, ih, List.filter_cons, if_neg hd]

/-- Decomposition of `processDuplicateGroup`: close items. -/
theorem processDuplicateGroup_tabsToClose (pp : Bool) (st : DedupeState) (key : String)
    (g : List TabSnapshot) :
    (processDuplicateGroup pp st key g).tabsToClose =
      st.tabsToClose ++ groupCloseItems pp g := by
  match g with
  | [] => simp [processDuplicateGroup, groupCloseItems]
  | [t] => simp [processDuplicateGroup, groupCloseItems]
  | t1 :: t2 :: rest =>
    unfold processDuplicateGroup groupCloseItems
    match hs : sortByScoreDesc pp (t1 :: t2 :: rest) with
    | [] =>
      have := List.length_insertionSort
        (fun a b => JSNum.le (scoreTab b pp) (scoreTab a pp)) (t1 :: t2 :: rest)
      rw [show List.insertionSort
          (fun a b => JSNum.le (scoreTab b pp) (scoreTab a pp)) (t1 :: t2 :: rest) =
            sortByScoreDesc pp (t1 :: t2 :: rest) from rfl, hs] at this
      simp at this
    | keeper :: dups =>
      dsimp only
      rw [dupFold_tabsToClose]

/-- Decomposition of `processDuplicateGroup`: keeper ids. -/
theorem processDuplicateGroup_keepers (pp : Bool) (st : DedupeState) (key : String)
    (g : List TabSnapshot) (id : Nat) :
    (id ∈ (processDuplicateGroup pp st key g).keepers ↔
      id ∈ st.keepers ∨ id ∈ groupKeeperIds pp g) := by
  match g with
  | [] => simp [processDuplicateGroup, groupKeeperIds]
  | [t] => simp [processDuplicateGroup, groupKeeperIds, setAdd_mem]
  | t1 :: t2 :: rest =>
    unfold processDuplicateGroup groupKeeperIds
    match hs : sortByScoreDesc pp (t1 :: t2 :: rest) with
    | [] =>
      have := List.length_insertionSort
        (fun a b => JSNum.le (scoreTab b pp) (scoreTab a pp)) (t1 :: t2 :: rest)
      rw [show List.insertionSort
          (fun a b => JSNum.le (scoreTab b pp) (scoreTab a pp)) (t1 :: t2 :: rest) =
            sortByScoreDesc pp (t1 :: t2 :: rest) from rfl, hs] at this
      simp at this
    | keeper :: dups =>
      dsimp only
      rw [dupFold_keepers]
      simp only [setAdd_mem, List.mem_cons]
      tauto

/-- The members of the sorted group are members of the group. -/
theorem sortByScoreDesc_mem {pp : Bool} {g : List TabSnapshot} {t : TabSnapshot}
    (h : t ∈ sortByScoreDesc pp g) : t ∈ g :=
  (List.mem_insertionSort _).mp h

/-- Every contributed keeper id is the id of a group member. -/
theorem groupKeeperIds_src (pp : Bool) (g : List TabSnapshot) :
    ∀ id ∈ groupKeeperIds pp g, ∃ t ∈ g, t.id = id := by
  intro id hid
  match g, hid with
  | [t], hid =>
    simp only [groupKeeperIds, List.mem_singleton] at hid
    exact ⟨t, List.mem_singleton.mpr rfl, hid.symm⟩
  | t1 :: t2 :: rest, hid =>
    unfold groupKeeperIds at hid
    revert hid
    match hs : sortByScoreDesc pp (t1 :: t2 :: rest) with
    | [] => intro hid; simp at hid
    | keeper :: dups =>
      intro hid
      rcases List.mem_cons.mp hid with rfl | hid'
      · exact ⟨keeper, sortByScoreDesc_mem (hs ▸ List.mem_cons_self _ _), rfl⟩
      · obtain ⟨d, hd, hdid⟩ := List.mem_map.mp hid'
        have hdg : d ∈ t1 :: t2 :: rest :=
          sortByScoreDesc_mem (hs ▸ List.mem_cons_of_mem _ (List.mem_of_mem_filter hd))
        exact ⟨d, hdg, hdid⟩

/-- Every contributed close item stems from an unexempted group member. -/
theorem groupCloseItems_src (pp : Bool) (g : List TabSnapshot) :
    ∀ item ∈ groupCloseItems pp g,
      ∃ t ∈ g, item.id = t.id ∧ item.url = t.url ∧
        item.domain = extractDomain t.url ∧ (pp && t.pinned) = false := by
  intro item hitem
  match g, hitem with
  | t1 :: t2 :: rest, hitem =>
    unfold groupCloseItems at hitem
    revert hitem
    match hs : sortByScoreDesc pp (t1 :: t2 :: rest) with
    | [] => intro hitem; simp at hitem
    | keeper :: dups =>
      intro hitem
      obtain ⟨d, hd, hdi⟩ := List.mem_map.mp hitem
      have hdg : d ∈ t1 :: t2 :: rest :=
        sortByScoreDesc_mem (hs ▸ List.mem_cons_of_mem _ (List.mem_of_mem_filter hd))
      have hd0 := List.of_mem_filter hd
      have hex : (pp && d.pinned) = false := (bnot_eq_true_iff _).mp hd0
      exact ⟨d, hdg, by rw [← hdi]; exact rfl, by rw [← hdi]; exact rfl,
        by rw [← hdi]; exact rfl, hex⟩

/-- Every group member is covered: its id is contributed to the keepers or it
is the source of a contributed close item. -/
theorem group_cover (pp : Bool) (g : List TabSnapshot) :
    ∀ t ∈ g, t.id ∈ groupKeeperIds pp g ∨
      ∃ item ∈ groupCloseItems pp g,
        item.id = t.id ∧ item.domain = extractDomain t.url := by
  intro t ht
  match g, ht with
  | [t'], ht =>
    left
    rcases List.mem_singleton.mp ht with rfl
    simp [groupKeeperIds]
  | t1 :: t2 :: rest, ht =>
    unfold groupKeeperIds groupCloseItems
    have hsmem : t ∈ sortByScoreDesc pp (t1 :: t2 :: rest) :=
      (List.mem_insertionSort _).mpr ht
    revert hsmem
    match hs : sortByScoreDesc pp (t1 :: t2 :: rest) with
    | [] => intro hsmem; simp at hsmem
    | keeper :: dups =>
      intro hsmem
      rcases List.mem_cons.mp hsmem with rfl | hdup
      · exact Or.inl (List.mem_cons_self _ _)
      · by_cases hex : (pp && t.pinned) = true
        · refine Or.inl (List.mem_cons_of_mem _ ?_)
          exact List.mem_map.mpr ⟨t, List.mem_filter.mpr ⟨hdup, hex⟩, rfl⟩
        · have hex' : (pp && t.pinned) = false := by
            revert hex; cases (pp && t.pinned) <;> simp
          refine Or.inr ⟨mkCloseItem t keeper, ?_, rfl, rfl⟩
          exact List.mem_map.mpr
            ⟨t, List.mem_filter.mpr ⟨hdup, (bnot_eq_true_iff _).mpr hex'⟩, rfl⟩

/-- Under distinct ids within a group, the contributed keeper ids and close
items are disjoint. -/
theorem group_disjoint (pp : Bool) (g : List TabSnapshot)
    (hnd : (g.map TabSnapshot.id).Nodup) :
    ∀ id ∈ groupKeeperIds pp g, ∀ item ∈ groupCloseItems pp g, item.id ≠ id := by
  intro id hid item hitem
  match g, hid, hitem with
  | t1 :: t2 :: rest, hid, hitem =>
    have hperm : (sortByScoreDesc pp (t1 :: t2 :: rest)).Perm (t1 :: t2 :: rest) :=
      List.perm_insertionSort _ _
    have hndS : ((sortByScoreDesc pp (t1 :: t2 :: rest)).map TabSnapshot.id).Nodup :=
      ((hperm.map TabSnapshot.id).nodup_iff).mpr hnd
    revert hid hitem hndS
    unfold groupKeeperIds groupCloseItems
    match hs : sortByScoreDesc pp (t1 :: t2 :: rest) with
    | [] => intro hid; simp at hid
    | keeper :: dups =>
      intro hid hitem hndS
      obtain ⟨d, hd, hdi⟩ := List.mem_map.mp hitem
      have hdmem : d ∈ dups := List.mem_of_mem_filter hd
      have hd0 := List.of_mem_filter hd
      have hdex : (pp && d.pinned) = false := (bnot_eq_true_iff _).mp hd0
      have hitemid : item.id = d.id := by rw [← hdi]; rfl
      simp only [List.map_cons, List.nodup_cons] at hndS
      rcases List.mem_cons.mp hid with rfl | hid'
      · intro hc
        refine hndS.1 ?_
        have : keeper.id = d.id := by rw [← hc, hitemid]
        rw [this]
        exact List.mem_map_of_mem TabSnapshot.id hdmem
      · obtain ⟨e, he, hei⟩ := List.mem_map.mp hid'
        have hemem : e ∈ dups := List.mem_of_mem_filter he
        have heex0 := List.of_mem_filter he
        have heex : (pp && e.pinned) = true := heex0
        intro hc
        have hde : d ≠ e := by
          intro hdeq
          rw [hdeq, heex] at hdex
          exact Bool.noConfusion hdex
        have hinj := List.inj_on_of_nodup_map hndS.2
        exact hde (hinj hdmem hemem (by rw [← hitemid, hc, hei]))

/-! ### The per-group fold of the dedupe phase -/

/-- `flatTabs` distributes over cons. -/
theorem flatTabs_cons (g : String × List TabSnapshot) (rest : List (String × List TabSnapshot)) :
    flatTabs (g :: rest) = g.2 ++ flatTabs rest := rfl

/-- Keeper ids only accumulate across the group fold. -/
theorem dedupeFold_keepers_mono (pp : Bool) :
    ∀ (groups : List (String × List TabSnapshot)) (st : DedupeState) (k : Nat),
      k ∈ st.keepers →
      k ∈ (groups.foldl (fun st kv => processDuplicateGroup pp st kv.1 kv.2) st).keepers := by
  intro groups
  induction groups with
  | nil => intro st k h; exact h
  | cons g rest ih =>
    intro st k h
    rw [List.foldl_cons]
    exact ih _ k ((processDuplicateGroup_keepers pp st g.1 g.2 k).mpr (Or.inl h))

/-- Close items only accumulate across the group fold. -/
theorem dedupeFold_close_mono (pp : Bool) :
    ∀ (groups : List (String × List TabSnapshot)) (st : DedupeState) (item : CloseItem),
      item ∈ st.tabsToClose →
      item ∈ (groups.foldl
        (fun st kv => processDuplicateGroup pp st kv.1 kv.2) st).tabsToClose := by
  intro groups
  induction groups with
  | nil => intro st item h; exact h
  | cons g rest ih =>
    intro st item h
    rw [List.foldl_cons]
    refine ih _ item ?_
    rw [processDuplicateGroup_tabsToClose]
    exact List.mem_append.mpr (Or.inl h)

/-- Every close item of the group fold is inherited or stems from a
non-exempt tab of one of the groups. -/
theorem dedupeFold_close_src (pp : Bool) :
    ∀ (groups : List (String × List TabSnapshot)) (st : DedupeState),
      ∀ item ∈ (groups.foldl
          (fun st kv => processDuplicateGroup pp st kv.1 kv.2) st).tabsToClose,
        item ∈ st.tabsToClose ∨
          ∃ t ∈ flatTabs groups, item.id = t.id ∧ item.domain = extractDomain t.url ∧
            (pp && t.pinned) = false := by
  intro groups
  induction groups with
  | nil => intro st item h; exact Or.inl h
  | cons g rest ih =>
    intro st item h
    rw [List.foldl_cons] at h
    rcases ih _ item h with h' | ⟨t, ht, h1, h2, h3⟩
    · rw [processDuplicateGroup_tabsToClose] at h'
      rcases List.mem_append.mp h' with h2 | h2
      · exact Or.inl h2
      · obtain ⟨t, ht, hid, _, hdom, hex⟩ := groupCloseItems_src pp g.2 item h2
        refine Or.inr ⟨t, ?_, hid, hdom, hex⟩
        rw [flatTabs_cons]
        exact List.mem_append.mpr (Or.inl ht)
    · refine Or.inr ⟨t, ?_, h1, h2, h3⟩
      rw [flatTabs_cons]
      exact List.mem_append.mpr (Or.inr ht)

/-- Every keeper id of the group fold is inherited or is the id of a tab of
one of the groups. -/
theorem dedupeFold_keeper_src (pp : Bool) :
    ∀ (groups : List (String × List TabSnapshot)) (st : DedupeState),
      ∀ k ∈ (groups.foldl
          (fun st kv => processDuplicateGroup pp st kv.1 kv.2) st).keepers,
        k ∈ st.keepers ∨ ∃ t ∈ flatTabs groups, t.id = k := by
  intro groups
  induction groups with
  | nil => intro st k h; exact Or.inl h
  | cons g rest ih =>
    intro st k h
    rw [List.foldl_cons] at h
    rcases ih _ k h with h' | ⟨t, ht, h1⟩
    · rcases (processDuplicateGroup_keepers pp st g.1 g.2 k).mp h' with h2 | h2
      · exact Or.inl h2
      · obtain ⟨t, ht, hid⟩ := groupKeeperIds_src pp g.2 k h2
        refine Or.inr ⟨t, ?_, hid⟩
        rw [flatTabs_cons]
        exact List.mem_append.mpr (Or.inl ht)
    · refine Or.inr ⟨t, ?_, h1⟩
      rw [flatTabs_cons]
      exact List.mem_append.mpr (Or.inr ht)

/-- Every tab of every group is covered by the fold: its id survives as a
keeper or a close item records it together with its extracted domain. -/
theorem dedupeFold_cover (pp : Bool) :
    ∀ (groups : List (String × List TabSnapshot)) (st : DedupeState),
      ∀ t ∈ flatTabs groups,
        t.id ∈ (groups.foldl
            (fun st kv => processDuplicateGroup pp st kv.1 kv.2) st).keepers ∨
          ∃ item ∈ (groups.foldl
              (fun st kv => processDuplicateGroup pp st kv.1 kv.2) st).tabsToClose,
            item.id = t.id ∧ item.domain = extractDomain t.url := by
  intro groups
  induction groups with
  | nil => intro st t ht; simp [flatTabs] at ht
  | cons g rest ih =>
    intro st t ht
    rw [flatTabs_cons] at ht
    rw [List.foldl_cons]
    rcases List.mem_append.mp ht with hg | hrest
    · rcases group_cover pp g.2 t hg with hk | ⟨item, hitem, h1, h2⟩
      · exact Or.inl (dedupeFold_keepers_mono pp rest _ t.id
          ((processDuplicateGroup_keepers pp st g.1 g.2 t.id).mpr (Or.inr hk)))
      · refine Or.inr ⟨item, ?_, h1, h2⟩
        refine dedupeFold_close_mono pp rest _ item ?_
        rw [processDuplicateGroup_tabsToClose]
        exact List.mem_append.mpr (Or.inr hitem)
    · exact ih _ t hrest

/-- Under globally distinct tab ids, no close item of the fold shares an id
with a keeper. -/
theorem dedupeFold_disjoint (pp : Bool) :
    ∀ (groups : List (String × List TabSnapshot)) (st : DedupeState),
      ((flatTabs groups).map TabSnapshot.id).Nodup →
      (∀ k ∈ st.keepers, ∀ item ∈ st.tabsToClose, item.id ≠ k) →
      (∀ k ∈ st.keepers, k ∉ (flatTabs groups).map TabSnapshot.id) →
      (∀ item ∈ st.tabsToClose, item.id ∉ (flatTabs groups).map TabSnapshot.id) →
      ∀ k ∈ (groups.foldl
          (fun st kv => processDuplicateGroup pp st kv.1 kv.2) st).keepers,
        ∀ item ∈ (groups.foldl
            (fun st kv => processDuplicateGroup pp st kv.1 kv.2) st).tabsToClose,
          item.id ≠ k := by
  intro groups
  induction groups with
  | nil => intro st _ hdisj _ _ k hk item hitem; exact hdisj k hk item hitem
  | cons g rest ih =>
    intro st hnd hdisj hkflat hcflat
    rw [List.foldl_cons]
    have hmap : (flatTabs (g :: rest)).map TabSnapshot.id =
        g.2.map TabSnapshot.id ++ (flatTabs rest).map TabSnapshot.id := by
      rw [flatTabs_cons, List.map_append]
    rw [hmap] at hnd hkflat hcflat
    obtain ⟨hndg, hndrest, hgr⟩ := List.nodup_append.mp hnd
    have hKsub : ∀ k ∈ groupKeeperIds pp g.2, k ∈ g.2.map TabSnapshot.id := by
      intro k hk
      obtain ⟨t, ht, hid⟩ := groupKeeperIds_src pp g.2 k hk
      exact hid ▸ List.mem_map_of_mem TabSnapshot.id ht
    have hCsub : ∀ item ∈ groupCloseItems pp g.2, item.id ∈ g.2.map TabSnapshot.id := by
      intro item hitem
      obtain ⟨t, ht, hid, _, _, _⟩ := groupCloseItems_src pp g.2 item hitem
      exact hid ▸ List.mem_map_of_mem TabSnapshot.id ht
    refine ih (processDuplicateGroup pp st g.1 g.2) hndrest ?_ ?_ ?_
    · intro k hk item hitem
      rw [processDuplicateGroup_tabsToClose] at hitem
      rcases (processDuplicateGroup_keepers pp st g.1 g.2 k).mp hk with hko | hkn
      · rcases List.mem_append.mp hitem with hio | hin
        · exact hdisj k hko item hio
        · intro hc
          exact hkflat k hko (List.mem_append.mpr (Or.inl (hc ▸ hCsub item hin)))
      · rcases List.mem_append.mp hitem with hio | hin
        · intro hc
          exact hcflat item hio (List.mem_append.mpr (Or.inl (hc ▸ hKsub k hkn)))
        · exact group_disjoint pp g.2 hndg k hkn item hin
    · intro k hk
      rcases (processDuplicateGroup_keepers pp st g.1 g.2 k).mp hk with hko | hkn
      · intro hc
        exact hkflat k hko (List.mem_append.mpr (Or.inr hc))
      · exact fun hc => hgr (hKsub k hkn) hc
    · intro item hitem
      rw [processDuplicateGroup_tabsToClose] at hitem
      rcases List.mem_append.mp hitem with hio | hin
      · intro hc
        exact hcflat item hio (List.mem_append.mpr (Or.inr hc))
      · exact fun hc => hgr (hCsub item hin) hc

/-- The keeper set and the close list of the dedupe group phase are disjoint
when the input tab ids are distinct. -/
theorem dedupeGroupPhase_disjoint (pp : Bool) (tabs : List TabSnapshot)
    (hnd : (tabs.map TabSnapshot.id).Nodup) :
    ∀ k ∈ (dedupeGroupPhase pp (canonicalGroups tabs)).keepers,
      ∀ item ∈ (dedupeGroupPhase pp (canonicalGroups tabs)).tabsToClose,
        item.id ≠ k := by
  have hperm := (flatTabs_canonicalGroups tabs).map TabSnapshot.id
  have hndf : ((flatTabs (canonicalGroups tabs)).map TabSnapshot.id).Nodup :=
    (hperm.nodup_iff).mpr hnd
  exact dedupeFold_disjoint pp (canonicalGroups tabs) ⟨[], [], []⟩ hndf
    (by intro k hk; simp at hk) (by intro k hk; simp at hk)
    (by intro item hitem; simp at hitem)

/-- Every close item of the dedupe group phase stems from a non-exempt input
tab, recording its id and extracted domain. -/
theorem dedupeGroupPhase_close_src (pp : Bool) (tabs : List TabSnapshot) :
    ∀ item ∈ (dedupeGroupPhase pp (canonicalGroups tabs)).tabsToClose,
      ∃ t ∈ tabs, item.id = t.id ∧ item.domain = extractDomain t.url ∧
        (pp && t.pinned) = false := by
  intro item h
  rcases dedupeFold_close_src pp (canonicalGroups tabs) ⟨[], [], []⟩ item h with
    h' | ⟨t, ht, h1, h2, h3⟩
  · simp at h'
  · exact ⟨t, (flatTabs_canonicalGroups tabs).mem_iff.mp ht, h1, h2, h3⟩

/-- Every tab is covered by the dedupe group phase. -/
theorem dedupeGroupPhase_cover (pp : Bool) (tabs : List TabSnapshot) :
    ∀ t ∈ tabs,
      t.id ∈ (dedupeGroupPhase pp (canonicalGroups tabs)).keepers ∨
        ∃ item ∈ (dedupeGroupPhase pp (canonicalGroups tabs)).tabsToClose,
          item.id = t.id ∧ item.domain = extractDomain t.url := by
  intro t ht
  exact dedupeFold_cover pp (canonicalGroups tabs) ⟨[], [], []⟩ t
    ((flatTabs_canonicalGroups tabs).mem_iff.mpr ht)

/-! ### Generic map lemmas -/

/-- A successful lookup exhibits a map entry. -/
theorem mapGet_mem {α β : Type} [DecidableEq α] :
    ∀ (m : List (α × β)) (k : α) (v : β), mapGet m k = some v → (k, v) ∈ m := by
  intro m k v
  induction m with
  | nil => intro h; simp [mapGet] at h
  | cons kv rest ih =>
    intro h
    rw [show mapGet (kv :: rest) k = if kv.1 = k then some kv.2 else mapGet rest k from rfl]
      at h
    by_cases hk : kv.1 = k
    · rw [if_pos hk] at h
      injection h with h2
      exact List.mem_cons.mpr (Or.inl (by rw [← hk, ← h2]))
    · rw [if_neg hk] at h
      exact List.mem_cons_of_mem _ (ih h)

/-- A present key admits a lookup value. -/
theorem mapGet_isSome_exists {α β : Type} [DecidableEq α] {m : List (α × β)} {k : α}
    (h : (mapGet m k).isSome = true) : ∃ v, mapGet m k = some v ∧ (k, v) ∈ m := by
  obtain ⟨v, hv⟩ := Option.isSome_iff_exists.mp h
  exact ⟨v, hv, mapGet_mem m k v hv⟩

/-- An entry key makes the lookup succeed. -/
theorem mapGet_isSome_of_mem {α β : Type} [DecidableEq α] :
    ∀ (m : List (α × β)) (e : α × β), e ∈ m → (mapGet m e.1).isSome = true := by
  intro m e
  induction m with
  | nil => intro h; simp at h
  | cons kv rest ih =>
    intro h
    rw [show mapGet (kv :: rest) e.1 = if kv.1 = e.1 then some kv.2 else mapGet rest e.1
      from rfl]
    by_cases hk : kv.1 = e.1
    · rw [if_pos hk]; rfl
    · rw [if_neg hk]
      rcases List.mem_cons.mp h with rfl | h'
      · exact absurd rfl hk
      · exact ih h'

/-- Characterization of a lookup after folding `mapSet` updates over a list:
either no list element touched the key and the base value persists, or some
element did and the result stores one of the written values. -/
theorem foldl_mapSet_get {σ α β : Type} [DecidableEq α] (key : σ → α) (val : σ → β) :
    ∀ (L : List σ) (m0 : List (α × β)) (k : α),
      (mapGet (L.foldl (fun m x => mapSet m (key x) (val x)) m0) k = mapGet m0 k ∧
        ∀ x ∈ L, key x ≠ k) ∨
      (∃ x ∈ L, key x = k ∧
        mapGet (L.foldl (fun m x => mapSet m (key x) (val x)) m0) k = some (val x)) := by
  intro L
  induction L with
  | nil => intro m0 k; exact Or.inl ⟨rfl, by simp⟩
  | cons a rest ih =>
    intro m0 k
    rw [List.foldl_cons]
    rcases ih (mapSet m0 (key a) (val a)) k with ⟨heq, hnone⟩ | ⟨x, hx, hk, hget⟩
    · by_cases hak : key a = k
      · refine Or.inr ⟨a, List.mem_cons_self _ _, hak, ?_⟩
        rw [heq, ← hak, mapGet_mapSet_self]
      · refine Or.inl ⟨by rw [heq, mapGet_mapSet_ne (fun hc => hak hc.symm)], ?_⟩
        intro x hx
        rcases List.mem_cons.mp hx with rfl | hx'
        · exact hak
        · exact hnone x hx'
    · exact Or.inr ⟨x, List.mem_cons_of_mem _ hx, hk, hget⟩

/-- Every entry of a fold of `mapSet` updates is a base entry or a written
pair. -/
theorem foldl_mapSet_entry_mem {σ α β : Type} [DecidableEq α] (key : σ → α) (val : σ → β) :
    ∀ (L : List σ) (m0 : List (α × β)) (e : α × β),
      e ∈ L.foldl (fun m x => mapSet m (key x) (val x)) m0 →
      e ∈ m0 ∨ ∃ x ∈ L, e = (key x, val x) := by
  intro L
  induction L with
  | nil => intro m0 e h; exact Or.inl h
  | cons a rest ih =>
    intro m0 e h
    rw [List.foldl_cons] at h
    rcases ih _ e h with h' | ⟨x, hx, hex⟩
    · rcases mapSet_mem _ _ _ _ h' with h2 | h2
      · exact Or.inl h2
      · exact Or.inr ⟨a, List.mem_cons_self _ _, h2⟩
    · exact Or.inr ⟨x, List.mem_cons_of_mem _ hx, hex⟩

/-- Folding `mapSet` updates keeps every already-present key present. -/
theorem foldl_mapSet_isSome_of_base {σ α β : Type} [DecidableEq α] (key : σ → α)
    (val : σ → β) (L : List σ) (m0 : List (α × β)) (k : α)
    (h : (mapGet m0 k).isSome = true) :
    (mapGet (L.foldl (fun m x => mapSet m (key x) (val x)) m0) k).isSome = true := by
  rcases foldl_mapSet_get key val L m0 k with ⟨heq, _⟩ | ⟨x, _, _, hget⟩
  · rw [heq]; exact h
  · rw [hget]; rfl

/-- Folding `mapSet` updates makes every written key present. -/
theorem foldl_mapSet_isSome_of_mem {σ α β : Type} [DecidableEq α] (key : σ → α)
    (val : σ → β) (L : List σ) (m0 : List (α × β)) (x : σ) (hx : x ∈ L) :
    (mapGet (L.foldl (fun m x => mapSet m (key x) (val x)) m0) (key x)).isSome = true := by
  rcases foldl_mapSet_get key val L m0 (key x) with ⟨_, hnone⟩ | ⟨y, _, _, hget⟩
  · exact absurd rfl (hnone x hx)
  · rw [hget]; rfl

/-- Every value pushed into a `mapPush` map comes from the old map or is the
pushed value. -/
theorem mapPush_val_mem {α β : Type} [DecidableEq α] :
    ∀ (m : List (α × List β)) (k : α) (v : β) (e : α × List β) (x : β),
      e ∈ mapPush m k v → x ∈ e.2 → (∃ e' ∈ m, x ∈ e'.2) ∨ x = v := by
  intro m k v
  induction m with
  | nil =>
    intro e x he hx
    rw [show mapPush ([] : List (α × List β)) k v = [(k, [v])] from rfl] at he
    rcases List.mem_singleton.mp he with rfl
    exact Or.inr (List.mem_singleton.mp hx)
  | cons kv rest ih =>
    intro e x he hx
    rw [show mapPush (kv :: rest) k v =
        if kv.1 = k then (kv.1, kv.2 ++ [v]) :: rest else kv :: mapPush rest k v from rfl]
      at he
    by_cases hk : kv.1 = k
    · rw [if_pos hk] at he
      rcases List.mem_cons.mp he with rfl | h'
      · rcases List.mem_append.mp hx with h2 | h2
        · exact Or.inl ⟨kv, List.mem_cons_self _ _, h2⟩
        · exact Or.inr (List.mem_singleton.mp h2)
      · exact Or.inl ⟨e, List.mem_cons_of_mem _ h', hx⟩
    · rw [if_neg hk] at he
      rcases List.mem_cons.mp he with rfl | h'
      · exact Or.inl ⟨e, List.mem_cons_self _ _, hx⟩
      · rcases ih e x h' hx with ⟨e', he', hx'⟩ | h2
        · exact Or.inl ⟨e', List.mem_cons_of_mem _ he', hx'⟩
        · exact Or.inr h2

/-- Ids recorded in the category statistics map are assignment ids. -/
theorem categoryStatsOf_ids (assignments : List (Nat × Assignment)) :
    ∀ e ∈ categoryStatsOf assignments, ∀ id ∈ e.2,
      ∃ kv ∈ assignments, kv.2.id = id := by
  suffices h : ∀ (L : List (Nat × Assignment)) (acc : List (String × List Nat)),
      (∀ x ∈ L, x ∈ assignments) →
      (∀ e ∈ acc, ∀ id ∈ e.2, ∃ kv ∈ assignments, kv.2.id = id) →
      ∀ e ∈ L.foldl (fun stats kv => mapPush stats kv.2.category kv.2.id) acc,
        ∀ id ∈ e.2, ∃ kv ∈ assignments, kv.2.id = id by
    intro e he id hid
    exact h assignments [] (fun x hx => hx) (by intro e he; simp at he) e he id hid
  intro L
  induction L with
  | nil => intro acc _ hacc e he id hid; exact hacc e he id hid
  | cons kv rest ih =>
    intro acc hsub hacc e he id hid
    rw [List.foldl_cons] at he
    refine ih _ (fun x hx => hsub x (List.mem_cons_of_mem _ hx)) ?_ e he id hid
    intro e' he' id' hid'
    rcases mapPush_val_mem _ _ _ e' id' he' hid' with ⟨e2, he2, hid2⟩ | h2
    · exact hacc e2 he2 id' hid2
    · exact ⟨kv, hsub kv (List.mem_cons_self _ _), h2.symm⟩

/-! ### Domain floor lemmas -/

/-- The floor pass only ever appends to the kept list. -/
theorem floorFold_kept_src :
    ∀ (items : List CloseItem) (st : FloorState) (i : CloseItem),
      i ∈ (items.foldl floorStep st).kept → i ∈ st.kept ∨ i ∈ items := by
  intro items
  induction items with
  | nil => intro st i h; exact Or.inl h
  | cons a rest ih =>
    intro st i h
    rw [List.foldl_cons] at h
    rcases ih _ i h with h' | h'
    · unfold floorStep at h'
      revert h'
      match a.domain with
      | none =>
        intro h'
        rcases List.mem_append.mp h' with h2 | h2
        · exact Or.inl h2
        · exact Or.inr (List.mem_cons.mpr (Or.inl (List.mem_singleton.mp h2)))
      | some d =>
        dsimp only
        split
        · intro h'
          rcases List.mem_append.mp h' with h2 | h2
          · exact Or.inl h2
          · exact Or.inr (List.mem_cons.mpr (Or.inl (List.mem_singleton.mp h2)))
        · split
          · intro h'; exact Or.inl h'
          · intro h'
            rcases List.mem_append.mp h' with h2 | h2
            · exact Or.inl h2
            · exact Or.inr (List.mem_cons.mpr (Or.inl (List.mem_singleton.mp h2)))
    · exact Or.inr (List.mem_cons_of_mem _ h')

/-- The floor pass only ever appends to the promoted list. -/
theorem floorFold_promoted_mono :
    ∀ (items : List CloseItem) (st : FloorState) (x : Nat),
      x ∈ st.promoted → x ∈ (items.foldl floorStep st).promoted := by
  intro items
  induction items with
  | nil => intro st x h; exact h
  | cons a rest ih =>
    intro st x h
    rw [List.foldl_cons]
    refine ih _ x ?_
    unfold floorStep
    match a.domain with
    | none => exact h
    | some d =>
      dsimp only
      split
      · exact h
      · split
        · exact List.mem_append.mpr (Or.inl h)
        · exact h

/-- Per-domain characterization of the floor pass: for a fixed non-empty
domain, the kept list retains exactly the first `count` close candidates with
that domain, and every later candidate with that domain is promoted. -/
theorem floorFold_per_domain (d : String) (hd : d ≠ "") :
    ∀ (items : List CloseItem) (st : FloorState),
      ((items.foldl floorStep st).kept.filter (fun i => i.domain = some d) =
        st.kept.filter (fun i => i.domain = some d) ++
          (items.filter (fun i => i.domain = some d)).take
            ((mapGet st.counts d).getD 0)) ∧
      (∀ item ∈ (items.filter (fun i => i.domain = some d)).drop
          ((mapGet st.counts d).getD 0),
        item.id ∈ (items.foldl floorStep st).promoted) := by
  intro items
  induction items with
  | nil =>
    intro st
    refine ⟨by simp, ?_⟩
    intro item h
    simp at h
  | cons a rest ih =>
    intro st
    rw [List.foldl_cons, List.filter_cons]
    by_cases had : a.domain = some d
    · rw [if_pos (by simp [had])]
      have hstep : floorStep st a =
          (if (mapGet st.counts d).getD 0 = 0 then
            { st with promoted := st.promoted ++ [a.id] }
          else
            { st with counts := mapSet st.counts d ((mapGet st.counts d).getD 0 - 1),
                      kept := st.kept ++ [a] }) := by
        unfold floorStep
        rw [had]
        dsimp only
        rw [if_neg hd]
      by_cases hc0 : (mapGet st.counts d).getD 0 = 0
      · rw [hstep, if_pos hc0]
        obtain ⟨ihk, ihp⟩ := ih { st with promoted := st.promoted ++ [a.id] }
        constructor
        · rw [ihk]
          dsimp only
          rw [hc0, List.take_zero, List.take_zero, List.append_nil]
        · intro item h
          rw [hc0, List.drop_zero] at h
          rcases List.mem_cons.mp h with rfl | h'
          · exact floorFold_promoted_mono rest _ _ (List.mem_append.mpr (Or.inr
              (List.mem_singleton.mpr rfl)))
          · have := ihp item
            dsimp only at this
            rw [hc0, List.drop_zero] at this
            exact this h'
      · obtain ⟨n, hn⟩ := Nat.exists_eq_succ_of_ne_zero hc0
        rw [hstep, if_neg hc0]
        obtain ⟨ihk, ihp⟩ := ih
          { st with counts := mapSet st.counts d ((mapGet st.counts d).getD 0 - 1),
                    kept := st.kept ++ [a] }
        have hcnt : (mapGet (mapSet st.counts d ((mapGet st.counts d).getD 0 - 1)) d).getD 0
            = n := by
          rw [mapGet_mapSet_self]
          simp [hn]
        constructor
        · rw [ihk]
          dsimp only
          rw [hcnt, List.filter_append,
            show List.filter (fun i => decide (i.domain = some d)) [a] = [a] from by
              simp [had],
            hn, List.take_succ_cons]
          simp
        · intro item h
          rw [hn, List.drop_succ_cons] at h
          have := ihp item
          dsimp only at this
          rw [hcnt] at this
          exact this h
    · rw [if_neg (by simp [had])]
      have hstep : ((floorStep st a).kept.filter (fun i => i.domain = some d) =
            st.kept.filter (fun i => i.domain = some d)) ∧
          (mapGet (floorStep st a).counts d).getD 0 = (mapGet st.counts d).getD 0 ∧
          ∀ x ∈ st.promoted, x ∈ (floorStep st a).promoted := by
        unfold floorStep
        match hadom : a.domain with
        | none =>
          refine ⟨?_, rfl, fun x hx => hx⟩
          rw [List.filter_append]
          rw [show List.filter (fun i => decide (i.domain = some d)) [a] = [] from by
            simp [hadom]]
          simp
        | some d' =>
          dsimp only
          split
          · refine ⟨?_, rfl, fun x hx => hx⟩
            rw [List.filter_append]
            rw [show List.filter (fun i => decide (i.domain = some d)) [a] = [] from by
              simp [hadom]; intro hc; rw [hc] at hadom; exact had hadom]
            simp
          · split
            · exact ⟨rfl, rfl, fun x hx => List.mem_append.mpr (Or.inl hx)⟩
            · refine ⟨?_, ?_, fun x hx => hx⟩
              · rw [List.filter_append]
                rw [show List.filter (fun i => decide (i.domain = some d)) [a] = [] from by
                  simp [hadom]; intro hc; rw [hc] at hadom; exact had hadom]
                simp
              · have hdd' : d ≠ d' := by
                  intro hc
                  rw [hc] at had
                  exact had hadom
                dsimp only
                rw [mapGet_mapSet_ne hdd']
      obtain ⟨hk, hcnt, _⟩ := hstep
      obtain ⟨ihk, ihp⟩ := ih (floorStep st a)
      exact ⟨by rw [ihk, hk, hcnt], by rw [← hcnt]; exact ihp⟩

/-- Keys of the initial survivor-count map come from keeper tabs with that
extracted domain. -/
theorem initialSurvivorCounts_src (tabs : List TabSnapshot) (keepers : List Nat) (d : String)
    (h : (mapGet (initialSurvivorCounts tabs keepers) d).isSome = true) :
    ∃ t ∈ tabs, keepers.contains t.id = true ∧ extractDomain t.url = some d := by
  suffices hgen : ∀ (L : List TabSnapshot) (m : List (String × Nat)),
      (mapGet (L.foldl
        (fun m t =>
          if keepers.contains t.id then
            match extractDomain t.url with
            | some domain =>
              if domain = "" then m
              else mapSet m domain ((mapGet m domain).getD 0 + 1)
            | none => m
          else m) m) d).isSome = true →
      (mapGet m d).isSome = true ∨
        ∃ t ∈ L, keepers.contains t.id = true ∧ extractDomain t.url = some d by
    rcases hgen tabs [] h with h' | h'
    · simp [mapGet] at h'
    · exact h'
  intro L
  induction L with
  | nil => intro m h'; exact Or.inl h'
  | cons t rest ih =>
    intro m h'
    rw [List.foldl_cons] at h'
    rcases ih _ h' with h2 | ⟨t', ht', hk', hd'⟩
    · by_cases hk : keepers.contains t.id = true
      · rw [if_pos hk] at h2
        revert h2
        match hdom : extractDomain t.url with
        | none => intro h2; exact Or.inl h2
        | some domain =>
          dsimp only
          split
          · intro h2; exact Or.inl h2
          · intro h2
            by_cases hdd : d = domain
            · exact Or.inr ⟨t, List.mem_cons_self _ _, hk, by rw [hdom, hdd]⟩
            · rw [mapGet_mapSet_ne hdd] at h2
              exact Or.inl h2
      · rw [if_neg hk] at h2
        exact Or.inl h2
    · exact Or.inr ⟨t', List.mem_cons_of_mem _ ht', hk', hd'⟩

/-- Joining at least two strings with a dot yields a non-empty string. -/
theorem strJoin_two_ne_empty :
    ∀ (l : List String), 2 ≤ l.length → strJoin "." l ≠ "" := by
  intro l hl
  match l, hl with
  | a :: b :: rest, _ =>
    rw [show strJoin "." (a :: b :: rest) = a ++ "." ++ strJoin "." (b :: rest) from rfl]
    intro hc
    have : (a ++ "." ++ strJoin "." (b :: rest)).data = "".data := by rw [hc]
    rw [String.data_append, String.data_append] at this
    simp at this

/-- `getEffectiveDomain` never returns the empty string. -/
theorem getEffectiveDomain_ne_empty (host : String) (d : String)
    (h : getEffectiveDomain host = some d) : d ≠ "" := by
  unfold getEffectiveDomain at h
  by_cases hh : host = ""
  · rw [if_pos hh] at h; exact absurd h (by simp)
  · rw [if_neg hh] at h
    revert h
    dsimp only
    split
    · intro h
      injection h with h2
      rw [← h2]; exact hh
    · next hlen =>
      split
      · intro h
        injection h with h2
        rw [← h2]
        apply strJoin_two_ne_empty
        rw [List.length_drop]
        omega
      · split
        · intro h
          injection h with h2
          rw [← h2]
          apply strJoin_two_ne_empty
          rw [List.length_drop]
          omega
        · intro h
          injection h with h2
          rw [← h2]
          apply strJoin_two_ne_empty
          rw [List.length_drop]
          omega

/-- `extractDomain` never returns the empty string. -/
theorem extractDomain_ne_empty (u : String) (d : String)
    (h : extractDomain u = some d) : d ≠ "" := by
  unfold extractDomain at h
  revert h
  match safeUrl u with
  | none => intro h; exact absurd h (by simp)
  | some url =>
    intro h
    exact getEffectiveDomain_ne_empty _ _ h

/-- Every item of the final close list of `computeDedupePlan` stems from a
non-exempt input tab. -/
theorem computeDedupePlan_close_src (tabs : List TabSnapshot) (prefs : DedupePreferences) :
    ∀ item ∈ (computeDedupePlan tabs prefs).tabsToClose,
      ∃ t ∈ tabs, item.id = t.id ∧ item.domain = extractDomain t.url ∧
        (prefs.preservePinned && t.pinned) = false := by
  intro item h
  have hphase : ∀ i ∈ (dedupeGroupPhase prefs.preservePinned (canonicalGroups tabs)).tabsToClose,
      ∃ t ∈ tabs, i.id = t.id ∧ i.domain = extractDomain t.url ∧
        (prefs.preservePinned && t.pinned) = false :=
    dedupeGroupPhase_close_src prefs.preservePinned tabs
  by_cases hk : prefs.keepAtLeastOnePerDomain = true
  · have hto : (computeDedupePlan tabs prefs).tabsToClose =
        (applyDomainFloor
          (initialSurvivorCounts tabs
            (dedupeGroupPhase prefs.preservePinned (canonicalGroups tabs)).keepers)
          (dedupeGroupPhase prefs.preservePinned (canonicalGroups tabs)).tabsToClose).kept := by
      simp [computeDedupePlan, hk]
    rw [hto] at h
    rcases floorFold_kept_src _ _ item h with h' | h'
    · simp at h'
    · exact hphase item h'
  · have hto : (computeDedupePlan tabs prefs).tabsToClose =
        (dedupeGroupPhase prefs.preservePinned (canonicalGroups tabs)).tabsToClose := by
      simp [computeDedupePlan, hk]
    rw [hto] at h
    exact hphase item h

/-- Two tabs whose URLs canonicalize to the same key. -/
def c8Tabs : List TabSnapshot :=
  [sampleTab 1 "https://example.com/page" 0, sampleTab 2 "https://www.example.com/page/" 1]

/-- Preferences for the `c8Tabs` run. -/
def c8Prefs : DedupePreferences := ⟨true, true⟩

/-- The canonical key shared by the two tabs of `c8Tabs`. -/
def c8Key : String := "https://example.com/page"

/-- The duplicate group of `c8Tabs`. -/
def c8Group : List TabSnapshot := c8Tabs

/-- Witness for C8 at the concrete duplicate pair. -/
theorem computeDedupePlan_keeper_spec_witness :
    ∃ ds ∈ (computeDedupePlan c8Tabs c8Prefs).duplicateSets,
      specKeeperHighestScoreFirst c8Prefs.preservePinned c8Group = some ds.keeper ∧
      (ds.keeper :: ds.closing).Perm c8Group ∧
      ds.canonical = (if strStartsWith c8Key "id-" then none else some c8Key) :=
  computeDedupePlan_keeper_spec c8Tabs c8Prefs c8Key c8Group (by decide) (by decide)

/-- Core of the domain-floor argument, for any dedupe state satisfying the
coverage, source and disjointness facts of the group phase. -/
theorem domain_floor_core (tabs : List TabSnapshot) (st : DedupeState)
    (hnd : (tabs.map TabSnapshot.id).Nodup)
    (hdisj : ∀ k ∈ st.keepers, ∀ item ∈ st.tabsToClose, item.id ≠ k)
    (hcover : ∀ u ∈ tabs, u.id ∈ st.keepers ∨
      ∃ item ∈ st.tabsToClose, item.id = u.id ∧ item.domain = extractDomain u.url)
    (hsrc : ∀ item ∈ st.tabsToClose, ∃ u ∈ tabs, item.id = u.id ∧
      item.domain = extractDomain u.url)
    (t : TabSnapshot) (ht : t ∈ tabs) (d : String) (hd : extractDomain t.url = some d) :
    ∃ s ∈ tabs.filter (fun u =>
        (((applyDomainFloor (initialSurvivorCounts tabs st.keepers)
            st.tabsToClose).promoted.foldl setAdd st.keepers).contains u.id &&
          !((applyDomainFloor (initialSurvivorCounts tabs st.keepers)
            st.tabsToClose).kept.any (fun item => item.id = u.id)))),
      extractDomain s.url = some d := by
  have hdne : d ≠ "" := extractDomain_ne_empty t.url d hd
  have hinj := List.inj_on_of_nodup_map hnd
  have hfs : applyDomainFloor (initialSurvivorCounts tabs st.keepers) st.tabsToClose =
      st.tabsToClose.foldl floorStep ⟨initialSurvivorCounts tabs st.keepers, [], []⟩ := rfl
  have hkeptsub : ∀ i ∈ (applyDomainFloor (initialSurvivorCounts tabs st.keepers)
      st.tabsToClose).kept, i ∈ st.tabsToClose := by
    intro i hi
    rw [hfs] at hi
    rcases floorFold_kept_src _ _ i hi with h | h
    · simp at h
    · exact h
  by_cases hA : ∃ u ∈ tabs, u.id ∈ st.keepers ∧ extractDomain u.url = some d
  · obtain ⟨u, hu, huk, hud⟩ := hA
    refine ⟨u, List.mem_filter.mpr ⟨hu, ?_⟩, hud⟩
    simp only [Bool.and_eq_true, Bool.not_eq_true', List.any_eq_false, decide_eq_true_eq]
    constructor
    · exact List.elem_eq_true_of_mem ((foldl_setAdd_mem _ _ _).mpr (Or.inl huk))
    · intro item hitem
      exact hdisj u.id huk item (hkeptsub item hitem)
  · have htk : t.id ∉ st.keepers := fun hc => hA ⟨t, ht, hc, hd⟩
    rcases hcover t ht with hc | ⟨item0, hitem0, hi1, hi2⟩
    · exact absurd hc htk
    have hi2d : item0.domain = some d := by rw [hi2, hd]
    have hcnone : mapGet (initialSurvivorCounts tabs st.keepers) d = none := by
      by_contra hcon
      have hsome : (mapGet (initialSurvivorCounts tabs st.keepers) d).isSome = true := by
        cases hmg : mapGet (initialSurvivorCounts tabs st.keepers) d
        · exact absurd hmg hcon
        · rfl
      obtain ⟨u, hu, huk, hud⟩ := initialSurvivorCounts_src tabs st.keepers d hsome
      exact hA ⟨u, hu, List.mem_of_elem_eq_true huk, hud⟩
    have hc0 : (mapGet (initialSurvivorCounts tabs st.keepers) d).getD 0 = 0 := by
      rw [hcnone]; rfl
    obtain ⟨hkeq, hprom⟩ := floorFold_per_domain d hdne st.tabsToClose
      ⟨initialSurvivorCounts tabs st.keepers, [], []⟩
    have hkeq' : (applyDomainFloor (initialSurvivorCounts tabs st.keepers)
        st.tabsToClose).kept.filter (fun i => i.domain = some d) = [] := by
      rw [hfs, hkeq]
      dsimp only
      rw [hc0, List.take_zero, List.append_nil, List.filter_nil]
    have hpromoted : t.id ∈ (applyDomainFloor (initialSurvivorCounts tabs st.keepers)
        st.tabsToClose).promoted := by
      have harg : item0 ∈ List.drop
          ((mapGet (⟨initialSurvivorCounts tabs st.keepers, [], []⟩ : FloorState).counts
            d).getD 0)
          (st.tabsToClose.filter (fun i => i.domain = some d)) := by
        dsimp only
        rw [hc0, List.drop_zero]
        exact List.mem_filter.mpr ⟨hitem0, by simp [hi2d]⟩
      rw [hfs, ← hi1]
      exact hprom item0 harg
    refine ⟨t, List.mem_filter.mpr ⟨ht, ?_⟩, hd⟩
    simp only [Bool.and_eq_true, Bool.not_eq_true', List.any_eq_false, decide_eq_true_eq]
    constructor
    · exact List.elem_eq_true_of_mem ((foldl_setAdd_mem _ _ _).mpr (Or.inr hpromoted))
    · intro item hitem
      intro hceq
      have hitem' : item ∈ st.tabsToClose := hkeptsub item hitem
      obtain ⟨u, hu, hidu, hdomu⟩ := hsrc item hitem'
      have hut : u = t := hinj hu ht (by rw [← hidu, hceq])
      have hitemd : item.domain = some d := by rw [hdomu, hut, hd]
      have hnil := List.filter_eq_nil_iff.mp hkeq' item hitem
      simp [hitemd] at hnil

/-- C6: when `keepAtLeastOnePerDomain` is set, every domain present among the
input tabs keeps at least one survivor tab with that domain. -/
theorem computeDedupePlan_domain_floor (tabs : List TabSnapshot)
    (prefs : DedupePreferences) (hk : prefs.keepAtLeastOnePerDomain = true)
    (hnd : (tabs.map TabSnapshot.id).Nodup) (t : TabSnapshot) (ht : t ∈ tabs)
    (d : String) (hd : extractDomain t.url = some d) :
    ∃ s ∈ (computeDedupePlan tabs prefs).survivors, extractDomain s.url = some d := by
  have hsurv : (computeDedupePlan tabs prefs).survivors =
      tabs.filter (fun u =>
        (((applyDomainFloor (initialSurvivorCounts tabs
            (dedupeGroupPhase prefs.preservePinned (canonicalGroups tabs)).keepers)
            (dedupeGroupPhase prefs.preservePinned
              (canonicalGroups tabs)).tabsToClose).promoted.foldl
          setAdd (dedupeGroupPhase prefs.preservePinned
            (canonicalGroups tabs)).keepers).contains u.id &&
          !((applyDomainFloor (initialSurvivorCounts tabs
            (dedupeGroupPhase prefs.preservePinned (canonicalGroups tabs)).keepers)
            (dedupeGroupPhase prefs.preservePinned
              (canonicalGroups tabs)).tabsToClose).kept.any
            (fun item => item.id = u.id)))) := by
    unfold computeDedupePlan
    rw [hk]
    rfl
  rw [hsurv]
  exact domain_floor_core tabs
    (dedupeGroupPhase prefs.preservePinned (canonicalGroups tabs)) hnd
    (dedupeGroupPhase_disjoint prefs.preservePinned tabs hnd)
    (dedupeGroupPhase_cover prefs.preservePinned tabs)
    (fun item hitem => by
      obtain ⟨u, hu, h1, h2, _⟩ :=
        dedupeGroupPhase_close_src prefs.preservePinned tabs item hitem
      exact ⟨u, hu, h1, h2⟩)
    t ht d hd

/-- Two duplicate pairs: the youtube.com tab of each pair wins on position,
leaving two close candidates whose domain youtu.be has no surviving tab. -/
def c7Tabs : List TabSnapshot :=
  [sampleTab 1 "https://www.youtube.com/watch?v=abc12345" 0,
   sampleTab 2 "https://www.youtube.com/watch?v=def67890" 1,
   sampleTab 3 "https://youtu.be/abc12345" 2,
   sampleTab 4 "https://youtu.be/def67890" 3]

/-- Preferences for the `c7Tabs` run. -/
def c7Prefs : DedupePreferences := ⟨true, true⟩

/-- C7 counterexample: the group phase queues two close candidates with the
same domain youtu.be and zero surviving tabs of that domain, and the floor
pass promotes both of them — the final close list is empty, so the second
same-domain candidate does not stay in `tabsToClose` as the claim states. -/
theorem domain_floor_promotes_both :
    ((dedupeGroupPhase c7Prefs.preservePinned (canonicalGroups c7Tabs)).tabsToClose.filter
      (fun i => i.domain = some "youtu.be")).length = 2 ∧
    (computeDedupePlan c7Tabs c7Prefs).tabsToClose = [] := by decide

/-- C7 amended: per domain, the final close list keeps exactly the first
close candidates up to the domain's initial survivor count, and every later
candidate of that domain is promoted — promotion does not consume a
once-per-domain skip. -/
theorem domain_floor_take_amended (tabs : List TabSnapshot) (prefs : DedupePreferences)
    (hk : prefs.keepAtLeastOnePerDomain = true) (d : String) (hd : d ≠ "") :
    ((computeDedupePlan tabs prefs).tabsToClose.filter (fun i => i.domain = some d) =
      ((dedupeGroupPhase prefs.preservePinned (canonicalGroups tabs)).tabsToClose.filter
        (fun i => i.domain = some d)).take
        ((mapGet (initialSurvivorCounts tabs
          (dedupeGroupPhase prefs.preservePinned (canonicalGroups tabs)).keepers)
          d).getD 0)) ∧
    (∀ item ∈ ((dedupeGroupPhase prefs.preservePinned
          (canonicalGroups tabs)).tabsToClose.filter
        (fun i => i.domain = some d)).drop
        ((mapGet (initialSurvivorCounts tabs
          (dedupeGroupPhase prefs.preservePinned (canonicalGroups tabs)).keepers)
          d).getD 0),
      item.id ∈ (applyDomainFloor (initialSurvivorCounts tabs
        (dedupeGroupPhase prefs.preservePinned (canonicalGroups tabs)).keepers)
        (dedupeGroupPhase prefs.preservePinned
          (canonicalGroups tabs)).tabsToClose).promoted) := by
  have hto : (computeDedupePlan tabs prefs).tabsToClose =
      (applyDomainFloor
        (initialSurvivorCounts tabs
          (dedupeGroupPhase prefs.preservePinned (canonicalGroups tabs)).keepers)
        (dedupeGroupPhase prefs.preservePinned (canonicalGroups tabs)).tabsToClose).kept := by
    simp [computeDedupePlan, hk]
  obtain ⟨hkeq, hprom⟩ := floorFold_per_domain d hd
    (dedupeGroupPhase prefs.preservePinned (canonicalGroups tabs)).tabsToClose
    (⟨initialSurvivorCounts tabs
      (dedupeGroupPhase prefs.preservePinned (canonicalGroups tabs)).keepers, [], []⟩ :
      FloorState)
  constructor
  · rw [hto]
    rw [show applyDomainFloor
        (initialSurvivorCounts tabs
          (dedupeGroupPhase prefs.preservePinned (canonicalGroups tabs)).keepers)
        (dedupeGroupPhase prefs.preservePinned (canonicalGroups tabs)).tabsToClose =
      (dedupeGroupPhase prefs.preservePinned (canonicalGroups tabs)).tabsToClose.foldl
        floorStep
        ⟨initialSurvivorCounts tabs
          (dedupeGroupPhase prefs.preservePinned (canonicalGroups tabs)).keepers, [], []⟩
      from rfl]
    rw [hkeq]
    dsimp only
    rw [List.filter_nil, List.nil_append]
  · intro item hitem
    have := hprom item
    dsimp only at this
    exact this hitem

/-- Witness for the amended C7 theorem at the `c7Tabs` run and the domain
youtu.be (count zero: the take is empty and both candidates are promoted). -/
theorem domain_floor_take_amended_witness :
    ((computeDedupePlan c7Tabs c7Prefs).tabsToClose.filter
        (fun i => i.domain = some "youtu.be") =
      ((dedupeGroupPhase c7Prefs.preservePinned (canonicalGroups c7Tabs)).tabsToClose.filter
        (fun i => i.domain = some "youtu.be")).take
        ((mapGet (initialSurvivorCounts c7Tabs
          (dedupeGroupPhase c7Prefs.preservePinned (canonicalGroups c7Tabs)).keepers)
          "youtu.be").getD 0)) ∧
    (∀ item ∈ ((dedupeGroupPhase c7Prefs.preservePinned
          (canonicalGroups c7Tabs)).tabsToClose.filter
        (fun i => i.domain = some "youtu.be")).drop
        ((mapGet (initialSurvivorCounts c7Tabs
          (dedupeGroupPhase c7Prefs.preservePinned (canonicalGroups c7Tabs)).keepers)
          "youtu.be").getD 0),
      item.id ∈ (applyDomainFloor (initialSurvivorCounts c7Tabs
        (dedupeGroupPhase c7Prefs.preservePinned (canonicalGroups c7Tabs)).keepers)
        (dedupeGroupPhase c7Prefs.preservePinned
          (canonicalGroups c7Tabs)).tabsToClose).promoted) :=
  domain_floor_take_amended c7Tabs c7Prefs (by decide) "youtu.be" (by decide)

/-- Relation tracking that one assignments map arises from another by a
sequence of `mergeAssignmentsForTabs` applications; all later phases only
transform the assignments this way. -/
inductive MergedFrom : List (Nat × Assignment) → List (Nat × Assignment) → Prop
  | refl (m : List (Nat × Assignment)) : MergedFrom m m
  | step (m m' : List (Nat × Assignment)) (ids : List Nat)
      (fromName toName reason : String) :
      MergedFrom m m' →
      MergedFrom m (mergeAssignmentsForTabs m' ids fromName toName reason)

/-- The inner fold of `mergeAssignmentsForTabs` preserves any property of the
entry key and stored id. -/
theorem mergeFold_presQ (Q : Nat → Nat → Prop) (toName reason : String) :
    ∀ (ids : List Nat) (m : List (Nat × Assignment)),
      (∀ e ∈ m, Q e.1 e.2.id) →
      ∀ e ∈ ids.foldl
        (fun m tabId =>
          match mapGet m tabId with
          | some assignment =>
            if assignment.category = toName then m
            else
              mapSet m tabId
                { assignment with
                  mergeHistory := assignment.mergeHistory ++
                    [(assignment.category, toName, reason)]
                  category := toName }
          | none => m) m,
        Q e.1 e.2.id := by
  intro ids
  induction ids with
  | nil => intro m hm e he; exact hm e he
  | cons a rest ih =>
    intro m hm e he
    rw [List.foldl_cons] at he
    refine ih _ ?_ e he
    intro e' he'
    revert he'
    cases hga : mapGet m a with
    | none => intro he'; exact hm e' he'
    | some asg =>
      dsimp only
      split
      · intro he'; exact hm e' he'
      · intro he'
        rcases mapSet_mem _ _ _ _ he' with h | h
        · exact hm e' h
        · rw [h]
          exact hm (a, asg) (mapGet_mem m a asg hga)

/-- The inner fold of `mergeAssignmentsForTabs` neither adds nor removes
keys. -/
theorem mergeFold_isSome (toName reason : String) :
    ∀ (ids : List Nat) (m : List (Nat × Assignment)) (k : Nat),
      (mapGet (ids.foldl
        (fun m tabId =>
          match mapGet m tabId with
          | some assignment =>
            if assignment.category = toName then m
            else
              mapSet m tabId
                { assignment with
                  mergeHistory := assignment.mergeHistory ++
                    [(assignment.category, toName, reason)]
                  category := toName }
          | none => m) m) k).isSome = true ↔ (mapGet m k).isSome = true := by
  intro ids
  induction ids with
  | nil => intro m k; exact Iff.rfl
  | cons a rest ih =>
    intro m k
    rw [List.foldl_cons, ih]
    cases hga : mapGet m a with
    | none => exact Iff.rfl
    | some asg =>
      dsimp only
      split
      · exact Iff.rfl
      · constructor
        · intro h
          rcases (mapSet_key_mem m a _ k).mp h with h' | h'
          · exact h'
          · rw [h', hga]; rfl
        · intro h
          exact (mapSet_key_mem m a _ k).mpr (Or.inl h)

/-- `mergeAssignmentsForTabs` preserves any property of entry key and stored
id. -/
theorem mergeAssignments_presQ (Q : Nat → Nat → Prop) (m : List (Nat × Assignment))
    (ids : List Nat) (fromName toName reason : String)
    (hm : ∀ e ∈ m, Q e.1 e.2.id) :
    ∀ e ∈ mergeAssignmentsForTabs m ids fromName toName reason, Q e.1 e.2.id := by
  unfold mergeAssignmentsForTabs
  split
  · exact hm
  · exact mergeFold_presQ Q toName reason ids m hm

/-- `mergeAssignmentsForTabs` neither adds nor removes keys. -/
theorem mergeAssignments_isSome (m : List (Nat × Assignment)) (ids : List Nat)
    (fromName toName reason : String) (k : Nat) :
    (mapGet (mergeAssignmentsForTabs m ids fromName toName reason) k).isSome = true ↔
      (mapGet m k).isSome = true := by
  unfold mergeAssignmentsForTabs
  split
  · exact Iff.rfl
  · exact mergeFold_isSome toName reason ids m k

/-- Transitivity of `MergedFrom`. -/
theorem MergedFrom.trans {a b c : List (Nat × Assignment)}
    (h1 : MergedFrom a b) (h2 : MergedFrom b c) : MergedFrom a c := by
  induction h2 with
  | refl => exact h1
  | step m' ids f t r h ih => exact MergedFrom.step _ _ ids f t r ih

/-- Merged maps keep any key/id property of the original entries. -/
theorem MergedFrom.presQ (Q : Nat → Nat → Prop) {m m' : List (Nat × Assignment)}
    (h : MergedFrom m m') (hm : ∀ e ∈ m, Q e.1 e.2.id) : ∀ e ∈ m', Q e.1 e.2.id := by
  induction h with
  | refl => exact hm
  | step m2 ids f t r h ih => exact mergeAssignments_presQ Q m2 ids f t r ih

/-- Merged maps have exactly the keys of the original. -/
theorem MergedFrom.isSome {m m' : List (Nat × Assignment)} (h : MergedFrom m m') (k : Nat) :
    (mapGet m' k).isSome = true ↔ (mapGet m k).isSome = true := by
  induction h with
  | refl => exact Iff.rfl
  | step m2 ids f t r h ih => rw [mergeAssignments_isSome]; exact ih

/-- A fold of overflow merges is a merge sequence. -/
theorem mergedFrom_foldl_overflow :
    ∀ (L : List (String × List Nat)) (m0 m : List (Nat × Assignment)),
      MergedFrom m m0 →
      MergedFrom m (L.foldl
        (fun m e => mergeAssignmentsForTabs m e.2 e.1 "Other" "overflow") m0) := by
  intro L
  induction L with
  | nil => intro m0 m h; exact h
  | cons a rest ih =>
    intro m0 m h
    rw [List.foldl_cons]
    exact ih _ m (MergedFrom.step _ _ _ _ _ _ h)

/-- One pass of the category limiter only merges assignments. -/
theorem limitStep_merged (assignments : List (Nat × Assignment)) (safeMax : Nat) :
    MergedFrom assignments (limitStep assignments safeMax).1 := by
  unfold limitStep
  dsimp only
  repeat' split
  all_goals try dsimp only
  all_goals
    first
      | exact MergedFrom.refl _
      | exact mergedFrom_foldl_overflow _ _ _ (MergedFrom.refl _)
      | exact MergedFrom.step _ _ _ _ _ _ (MergedFrom.refl _)

/-- The category limiter only merges assignments. -/
theorem limitCategoryAssignments_merged :
    ∀ (fuel : Nat) (m : List (Nat × Assignment)) (maxGroups : Nat),
      MergedFrom m (limitCategoryAssignments fuel m maxGroups) := by
  intro fuel
  induction fuel with
  | zero => intro m mg; exact MergedFrom.refl _
  | succ fuel ih =>
    intro m mg
    rw [limitCategoryAssignments]
    split
    · exact (limitStep_merged m _).trans (ih _ mg)
    · exact limitStep_merged m _

/-- Members of `mapIdxFrom` come from applying the function to a member. -/
theorem mapIdxFrom_mem {α β : Type} (f : Nat → α → β) :
    ∀ (n : Nat) (l : List α) (b : β), b ∈ mapIdxFrom f n l → ∃ i x, x ∈ l ∧ b = f i x := by
  intro n l
  induction l generalizing n with
  | nil => intro b h; simp [mapIdxFrom] at h
  | cons a t ih =>
    intro b h
    rw [show mapIdxFrom f n (a :: t) = f n a :: mapIdxFrom f (n + 1) t from rfl] at h
    rcases List.mem_cons.mp h with rfl | h'
    · exact ⟨n, a, List.mem_cons_self _ _, rfl⟩
    · obtain ⟨i, x, hx, hb⟩ := ih (n + 1) b h'
      exact ⟨i, x, List.mem_cons_of_mem _ hx, hb⟩

/-- Deduplication keeps only original members. -/
theorem dedupList_subset {α : Type} [DecidableEq α] (l : List α) :
    ∀ x ∈ dedupList l, x ∈ l := by
  intro x hx
  rcases (foldl_setAdd_mem l [] x).mp hx with h | h
  · simp at h
  · exact h

/-- Sorting tab ids by position preserves membership. -/
theorem sortTabIdsByIndex_mem (tabIds : List Nat) (assignments : List (Nat × Assignment))
    (x : Nat) : x ∈ sortTabIdsByIndex tabIds assignments ↔ x ∈ tabIds :=
  List.mem_insertionSort _

/-- The merge step of the cap loop keeps every record id satisfying a
property when the candidate ids do. -/
theorem capMergeStep_ids (P : Nat → Prop) (index : Nat) (uniq : List Nat)
    (hq : ∀ id ∈ uniq, P id) (target : Nat) (w : List GroupRecord)
    (hw : ∀ r ∈ w, ∀ id ∈ r.tabIds, P id) :
    ∀ r ∈ (w.map (fun r => if r.serial = target then
        { r with tabIds := r.tabIds ++ uniq } else r)).eraseIdx index,
      ∀ id ∈ r.tabIds, P id := by
  intro r hr id hid
  have hr3 := (List.eraseIdx_sublist _ index).subset hr
  obtain ⟨r0, hr0, hrr⟩ := List.mem_map.mp hr3
  by_cases hser : r0.serial = target
  · rw [← hrr, if_pos hser] at hid
    rcases List.mem_append.mp hid with h1 | h1
    · exact hw r0 hr0 id h1
    · exact hq id h1
  · rw [← hrr, if_neg hser] at hid
    exact hw r0 hr0 id hid

/-- Appending a record with no ids preserves any property of all record
ids. -/
theorem capAugWorking_ids (P : Nat → Prop) (w : List GroupRecord)
    (h : ∀ r ∈ w, ∀ id ∈ r.tabIds, P id) (nr : GroupRecord)
    (hnr : nr.tabIds = []) :
    ∀ r ∈ w ++ [nr], ∀ id ∈ r.tabIds, P id := by
  intro r hr id hid
  rcases List.mem_append.mp hr with h1 | h1
  · exact h r h1 id hid
  · rcases List.mem_singleton.mp h1 with rfl
    rw [hnr] at hid
    simp at hid

/-- The state returned by `capChooseTarget` only ever extends the working
list with an empty record. -/
theorem capChooseTarget_working (st : CapState) (candidate : GroupRecord) :
    ∀ r ∈ (capChooseTarget st candidate).1.working, r ∈ st.working ∨ r.tabIds = [] := by
  unfold capChooseTarget
  repeat' split
  all_goals intro r hr
  · exact Or.inl hr
  · exact Or.inl hr
  · rcases List.mem_append.mp hr with h1 | h1
    · exact Or.inl h1
    · rcases List.mem_singleton.mp h1 with rfl
      exact Or.inr rfl

/-- `capChooseTarget` never touches the assignments. -/
theorem capChooseTarget_assignments (st : CapState) (candidate : GroupRecord) :
    (capChooseTarget st candidate).1.assignments = st.assignments := by
  unfold capChooseTarget
  repeat' split
  all_goals rfl

/-- One cap iteration only moves ids between records. -/
theorem capStepOnce_ids (P : Nat → Prop) (st : CapState) (safeMax : Nat)
    (h : ∀ r ∈ st.working, ∀ id ∈ r.tabIds, P id) :
    ∀ r ∈ (capStepOnce st safeMax).2.working, ∀ id ∈ r.tabIds, P id := by
  have hct : ∀ (cand : GroupRecord), ∀ r ∈ (capChooseTarget st cand).1.working,
      ∀ id ∈ r.tabIds, P id := by
    intro cand r hr id hid
    rcases capChooseTarget_working st cand r hr with h1 | h1
    · exact h r h1 id hid
    · rw [h1] at hid; simp at hid
  unfold capStepOnce
  split
  · exact h
  · split
    · exact h
    · next index heq =>
      split
      · exact h
      · next candidate hget =>
        have hcand : ∀ id ∈ candidate.tabIds, P id :=
          h candidate (List.get?_mem hget)
        have huniq : ∀ id ∈ dedupList candidate.tabIds, P id :=
          fun id hid => hcand id (dedupList_subset _ id hid)
        dsimp only
        repeat' split
        all_goals
          first
            | exact hct candidate
            | exact capMergeStep_ids P index _ huniq _ _ (hct candidate)

/-- One cap iteration only merges assignments. -/
theorem capStepOnce_merged (st : CapState) (safeMax : Nat) :
    MergedFrom st.assignments (capStepOnce st safeMax).2.assignments := by
  unfold capStepOnce
  split
  · exact MergedFrom.refl _
  · split
    · exact MergedFrom.refl _
    · next index heq =>
      split
      · exact MergedFrom.refl _
      · next candidate hget =>
        dsimp only
        repeat' split
        all_goals rw [show ∀ c, (capChooseTarget st c).1.assignments = st.assignments
          from capChooseTarget_assignments st]
        all_goals
          first
            | exact MergedFrom.refl _
            | exact MergedFrom.step _ _ _ _ _ _ (MergedFrom.refl _)

/-- The cap loop only moves ids between records: any property of all working
record ids is preserved. -/
theorem capStepLoop_ids (P : Nat → Prop) :
    ∀ (fuel : Nat) (st : CapState) (safeMax : Nat),
      (∀ r ∈ st.working, ∀ id ∈ r.tabIds, P id) →
      ∀ r ∈ (capStepLoop fuel st safeMax).working, ∀ id ∈ r.tabIds, P id := by
  intro fuel
  induction fuel with
  | zero => intro st safeMax h; exact h
  | succ fuel ih =>
    intro st safeMax h
    rw [capStepLoop]
    split
    · exact ih _ safeMax (capStepOnce_ids P st safeMax h)
    · exact capStepOnce_ids P st safeMax h

/-- The cap loop only merges assignments. -/
theorem capStepLoop_merged :
    ∀ (fuel : Nat) (st : CapState) (safeMax : Nat),
      MergedFrom st.assignments (capStepLoop fuel st safeMax).assignments := by
  intro fuel
  induction fuel with
  | zero => intro st safeMax; exact MergedFrom.refl _
  | succ fuel ih =>
    intro st safeMax
    rw [capStepLoop]
    split
    · exact (capStepOnce_merged st safeMax).trans (ih _ safeMax)
    · exact capStepOnce_merged st safeMax

/-- `capTotalGroups` only moves ids between records. -/
theorem capTotalGroups_ids (P : Nat → Prop) (records : List GroupRecord)
    (assignments : List (Nat × Assignment)) (maxGroups : Nat)
    (h : ∀ r ∈ records, ∀ id ∈ r.tabIds, P id) :
    ∀ r ∈ (capTotalGroups records assignments maxGroups).1, ∀ id ∈ r.tabIds, P id := by
  have hworking : ∀ r ∈ (mapIdxFrom
      (fun i r => { r with serial := i, tabIds := dedupList r.tabIds }) 0 records).filter
        (fun r => 0 < r.tabIds.length), ∀ id ∈ r.tabIds, P id := by
    intro r hr id hid
    have hr' := List.mem_of_mem_filter hr
    obtain ⟨i, x, hx, hb⟩ := mapIdxFrom_mem _ 0 records r hr'
    rw [hb] at hid
    exact h x hx id (dedupList_subset _ id hid)
  unfold capTotalGroups
  dsimp only
  split
  · exact hworking
  · intro r hr id hid
    have hr' := List.mem_of_mem_filter hr
    exact capStepLoop_ids P _ _ _ hworking r hr' id hid

/-- `capTotalGroups` only merges assignments. -/
theorem capTotalGroups_merged (records : List GroupRecord)
    (assignments : List (Nat × Assignment)) (maxGroups : Nat) :
    MergedFrom assignments (capTotalGroups records assignments maxGroups).2 := by
  unfold capTotalGroups
  dsimp only
  split
  · exact MergedFrom.refl _
  · exact capStepLoop_merged _ ⟨_, assignments, _, _⟩ _

/-- Entries of the rule-matching fold carry their key as stored id, keyed by
some input info's id. -/
theorem classifyRuleFold_entries (tabInfos : List TabInfo) :
    ∀ (L : List TabInfo) (acc : List (Nat × Assignment) × List TabInfo),
      (∀ x ∈ L, x ∈ tabInfos) →
      (∀ e ∈ acc.1, e.2.id = e.1 ∧ ∃ info ∈ tabInfos, info.id = e.1) →
      ∀ e ∈ (L.foldl classifyRuleStep acc).1,
        e.2.id = e.1 ∧ ∃ info ∈ tabInfos, info.id = e.1 := by
  intro L
  induction L with
  | nil => intro acc _ hacc e he; exact hacc e he
  | cons info rest ih =>
    intro acc hsub hacc e he
    rw [List.foldl_cons] at he
    refine ih _ (fun x hx => hsub x (List.mem_cons_of_mem _ hx)) ?_ e he
    intro e' he'
    revert he'
    unfold classifyRuleStep
    cases hm : matchCategoryRule info with
    | none => intro he'; exact hacc e' he'
    | some rm =>
      dsimp only
      intro he'
      rcases mapSet_mem _ _ _ _ he' with h | h
      · exact hacc e' h
      · rw [h]
        exact ⟨rfl, ⟨info, hsub info (List.mem_cons_self _ _), rfl⟩⟩

/-- The rule-matching fold queues only input infos. -/
theorem classifyRuleFold_snd (tabInfos : List TabInfo) :
    ∀ (L : List TabInfo) (acc : List (Nat × Assignment) × List TabInfo),
      (∀ x ∈ L, x ∈ tabInfos) →
      (∀ i ∈ acc.2, i ∈ tabInfos) →
      ∀ i ∈ (L.foldl classifyRuleStep acc).2, i ∈ tabInfos := by
  intro L
  induction L with
  | nil => intro acc _ hacc i hi; exact hacc i hi
  | cons info rest ih =>
    intro acc hsub hacc i hi
    rw [List.foldl_cons] at hi
    refine ih _ (fun x hx => hsub x (List.mem_cons_of_mem _ hx)) ?_ i hi
    intro i' hi'
    revert hi'
    unfold classifyRuleStep
    cases hm : matchCategoryRule info with
    | some rm => intro hi'; exact hacc i' hi'
    | none =>
      intro hi'
      rcases List.mem_append.mp hi' with h | h
      · exact hacc i' h
      · rcases List.mem_singleton.mp h with rfl
        exact hsub i' (List.mem_cons_self _ _)

/-- Keys present before the rule fold stay present. -/
theorem classifyRuleFold_isSome :
    ∀ (L : List TabInfo) (acc : List (Nat × Assignment) × List TabInfo) (k : Nat),
      (mapGet acc.1 k).isSome = true →
      (mapGet (L.foldl classifyRuleStep acc).1 k).isSome = true := by
  intro L
  induction L with
  | nil => intro acc k h; exact h
  | cons info rest ih =>
    intro acc k h
    rw [List.foldl_cons]
    refine ih _ k ?_
    unfold classifyRuleStep
    cases hm : matchCategoryRule info with
    | none => exact h
    | some rm =>
      dsimp only
      exact (mapSet_key_mem _ _ _ _).mpr (Or.inl h)

/-- Queued infos persist through the rule fold. -/
theorem classifyRuleFold_snd_mono :
    ∀ (L : List TabInfo) (acc : List (Nat × Assignment) × List TabInfo) (i : TabInfo),
      i ∈ acc.2 → i ∈ (L.foldl classifyRuleStep acc).2 := by
  intro L
  induction L with
  | nil => intro acc i h; exact h
  | cons info rest ih =>
    intro acc i h
    rw [List.foldl_cons]
    refine ih _ i ?_
    unfold classifyRuleStep
    cases hm : matchCategoryRule info with
    | some rm => exact h
    | none => exact List.mem_append.mpr (Or.inl h)

/-- Every processed info is either assigned or queued by the rule fold. -/
theorem classifyRuleFold_cover :
    ∀ (L : List TabInfo) (acc : List (Nat × Assignment) × List TabInfo),
      ∀ info ∈ L,
        (mapGet (L.foldl classifyRuleStep acc).1 info.id).isSome = true ∨
          info ∈ (L.foldl classifyRuleStep acc).2 := by
  intro L
  induction L with
  | nil => intro acc info h; simp at h
  | cons i0 rest ih =>
    intro acc info hinfo
    rw [List.foldl_cons]
    rcases List.mem_cons.mp hinfo with rfl | h'
    · by_cases hm : ∃ rm, matchCategoryRule info = some rm
      · obtain ⟨rm, hrm⟩ := hm
        refine Or.inl (classifyRuleFold_isSome rest _ info.id ?_)
        unfold classifyRuleStep
        rw [hrm]
        dsimp only
        rw [mapGet_mapSet_self]
        rfl
      · refine Or.inr (classifyRuleFold_snd_mono rest _ info ?_)
        unfold classifyRuleStep
        cases hrm : matchCategoryRule info with
        | some rm => exact absurd ⟨rm, hrm⟩ hm
        | none => exact List.mem_append.mpr (Or.inr (List.mem_singleton.mpr rfl))
    · exact ih _ info h'

/-- Entries of the keyword fold carry their key as stored id, keyed by some
input info's id. -/
theorem classifyKeywordFold_entries (tabInfos : List TabInfo) :
    ∀ (L : List TabInfo) (m : List (Nat × Assignment)),
      (∀ x ∈ L, x ∈ tabInfos) →
      (∀ e ∈ m, e.2.id = e.1 ∧ ∃ info ∈ tabInfos, info.id = e.1) →
      ∀ e ∈ L.foldl classifyKeywordStep m,
        e.2.id = e.1 ∧ ∃ info ∈ tabInfos, info.id = e.1 := by
  intro L
  induction L with
  | nil => intro m _ hm e he; exact hm e he
  | cons info rest ih =>
    intro m hsub hm e he
    rw [List.foldl_cons] at he
    refine ih _ (fun x hx => hsub x (List.mem_cons_of_mem _ hx)) ?_ e he
    intro e' he'
    rcases mapSet_mem _ _ _ _ he' with h | h
    · exact hm e' h
    · rw [h]
      exact ⟨rfl, ⟨info, hsub info (List.mem_cons_self _ _), rfl⟩⟩

/-- Keys present before the keyword fold stay present. -/
theorem classifyKeywordFold_isSome :
    ∀ (L : List TabInfo) (m : List (Nat × Assignment)) (k : Nat),
      (mapGet m k).isSome = true →
      (mapGet (L.foldl classifyKeywordStep m) k).isSome = true := by
  intro L
  induction L with
  | nil => intro m k h; exact h
  | cons info rest ih =>
    intro m k h
    rw [List.foldl_cons]
    exact ih _ k ((mapSet_key_mem _ _ _ _).mpr (Or.inl h))

/-- Every info processed by the keyword fold ends up assigned. -/
theorem classifyKeywordFold_cover :
    ∀ (L : List TabInfo) (m : List (Nat × Assignment)),
      ∀ info ∈ L, (mapGet (L.foldl classifyKeywordStep m) info.id).isSome = true := by
  intro L
  induction L with
  | nil => intro m info h; simp at h
  | cons i0 rest ih =>
    intro m info hinfo
    rw [List.foldl_cons]
    rcases List.mem_cons.mp hinfo with rfl | h'
    · refine classifyKeywordFold_isSome rest _ info.id ?_
      unfold classifyKeywordStep
      dsimp only
      rw [mapGet_mapSet_self]
      rfl
    · exact ih _ info h'

/-- Entries of the categorizer's assignments map carry their key as stored id,
keyed by an input info's id. -/
theorem categorizeTabInfos_entries (tabInfos : List TabInfo) (maxGroups : Nat) :
    ∀ e ∈ (categorizeTabInfos tabInfos maxGroups).assignments,
      e.2.id = e.1 ∧ ∃ info ∈ tabInfos, info.id = e.1 := by
  intro e he
  have h2 : MergedFrom
      ((tabInfos.foldl classifyRuleStep ([], [])).2.foldl classifyKeywordStep
        (tabInfos.foldl classifyRuleStep ([], [])).1)
      (categorizeTabInfos tabInfos maxGroups).assignments := by
    unfold categorizeTabInfos
    exact limitCategoryAssignments_merged 32 _ _
  refine MergedFrom.presQ (fun k i => i = k ∧ ∃ info ∈ tabInfos, info.id = k) h2 ?_ e he
  intro e' he'
  refine classifyKeywordFold_entries tabInfos _ _ ?_ ?_ e' he'
  · exact classifyRuleFold_snd tabInfos tabInfos ([], []) (fun x hx => hx)
      (by intro i hi; simp at hi)
  · exact classifyRuleFold_entries tabInfos tabInfos ([], []) (fun x hx => hx)
      (by intro e0 h0; simp at h0)

/-- Every input info has a key in the categorizer's assignments map. -/
theorem categorizeTabInfos_covers (tabInfos : List TabInfo) (maxGroups : Nat) :
    ∀ info ∈ tabInfos,
      (mapGet (categorizeTabInfos tabInfos maxGroups).assignments info.id).isSome = true := by
  intro info hinfo
  have h2 : MergedFrom
      ((tabInfos.foldl classifyRuleStep ([], [])).2.foldl classifyKeywordStep
        (tabInfos.foldl classifyRuleStep ([], [])).1)
      (categorizeTabInfos tabInfos maxGroups).assignments := by
    unfold categorizeTabInfos
    exact limitCategoryAssignments_merged 32 _ _
  rw [MergedFrom.isSome h2 info.id]
  rcases classifyRuleFold_cover tabInfos ([], []) info hinfo with h | h
  · exact classifyKeywordFold_isSome _ _ _ h
  · exact classifyKeywordFold_cover _ _ info h

/-- Entries of the user-phase assignments map carry their key as stored id,
keyed by an eligible (non-pinned-skipped) tab's id. -/
theorem userFold_assign_entries (pp : Bool) (rules : List CompiledRule) (mtg : Nat)
    (allTabs : List TabSnapshot) :
    ∀ (L : List TabSnapshot) (st : UserPhaseState),
      (∀ x ∈ L, x ∈ allTabs) →
      (∀ e ∈ st.assignments, e.2.id = e.1 ∧
        ∃ t ∈ allTabs, t.id = e.1 ∧ (pp && t.pinned) = false) →
      ∀ e ∈ (L.foldl (userPhaseStep pp rules mtg) st).assignments,
        e.2.id = e.1 ∧ ∃ t ∈ allTabs, t.id = e.1 ∧ (pp && t.pinned) = false := by
  intro L
  induction L with
  | nil => intro st _ hst e he; exact hst e he
  | cons tab rest ih =>
    intro st hsub hst e he
    rw [List.foldl_cons] at he
    refine ih _ (fun x hx => hsub x (List.mem_cons_of_mem _ hx)) ?_ e he
    intro e' he'
    revert he'
    unfold userPhaseStep
    by_cases hp : (pp && tab.pinned) = true
    · rw [if_pos hp]
      intro he'; exact hst e' he'
    · rw [if_neg hp]
      have hp' : (pp && tab.pinned) = false := by
        revert hp; cases (pp && tab.pinned) <;> simp
      dsimp only
      cases hm : matchCompiledRule rules (prepareTabForClassification tab) with
      | none => intro he'; exact hst e' he'
      | some m =>
        dsimp only
        intro he'
        rcases mapSet_mem _ _ _ _ he' with h | h
        · exact hst e' h
        · rw [h]
          exact ⟨rfl, ⟨tab, hsub tab (List.mem_cons_self _ _), rfl, hp'⟩⟩

/-- Every id stored in a user-phase group comes from an eligible tab. -/
theorem userFold_group_ids (pp : Bool) (rules : List CompiledRule) (mtg : Nat)
    (allTabs : List TabSnapshot) :
    ∀ (L : List TabSnapshot) (st : UserPhaseState),
      (∀ x ∈ L, x ∈ allTabs) →
      (∀ g ∈ st.userGroups, ∀ id ∈ g.2,
        ∃ t ∈ allTabs, t.id = id ∧ (pp && t.pinned) = false) →
      ∀ g ∈ (L.foldl (userPhaseStep pp rules mtg) st).userGroups, ∀ id ∈ g.2,
        ∃ t ∈ allTabs, t.id = id ∧ (pp && t.pinned) = false := by
  intro L
  induction L with
  | nil => intro st _ hst g hg; exact hst g hg
  | cons tab rest ih =>
    intro st hsub hst g hg
    rw [List.foldl_cons] at hg
    refine ih _ (fun x hx => hsub x (List.mem_cons_of_mem _ hx)) ?_ g hg
    intro g' hg' id hid
    revert hg'
    unfold userPhaseStep
    by_cases hp : (pp && tab.pinned) = true
    · rw [if_pos hp]
      intro hg'; exact hst g' hg' id hid
    · rw [if_neg hp]
      have hp' : (pp && tab.pinned) = false := by
        revert hp; cases (pp && tab.pinned) <;> simp
      dsimp only
      cases hm : matchCompiledRule rules (prepareTabForClassification tab) with
      | none => intro hg'; exact hst g' hg' id hid
      | some m =>
        dsimp only
        intro hg'
        rcases mapPush_val_mem st.userGroups
          ((resolveGroupName st.userGroups st.counters m.name mtg).1) tab.id g' id hg' hid
          with ⟨e2, he2, hid2⟩ | h2
        · exact hst e2 he2 id hid2
        · exact ⟨tab, hsub tab (List.mem_cons_self _ _), h2.symm, hp'⟩

/-- Every pinned-diagnostics entry stores the pinned diagnostic and is keyed
by a pinned-skipped tab's id. -/
theorem userFold_pinned (pp : Bool) (rules : List CompiledRule) (mtg : Nat)
    (allTabs : List TabSnapshot) :
    ∀ (L : List TabSnapshot) (st : UserPhaseState),
      (∀ x ∈ L, x ∈ allTabs) →
      (∀ e ∈ st.pinnedDiagnostics, e.2 = ⟨none, "pinned", none, none, [], []⟩ ∧
        ∃ t ∈ allTabs, t.id = e.1 ∧ (pp && t.pinned) = true) →
      ∀ e ∈ (L.foldl (userPhaseStep pp rules mtg) st).pinnedDiagnostics,
        e.2 = ⟨none, "pinned", none, none, [], []⟩ ∧
        ∃ t ∈ allTabs, t.id = e.1 ∧ (pp && t.pinned) = true := by
  intro L
  induction L with
  | nil => intro st _ hst e he; exact hst e he
  | cons tab rest ih =>
    intro st hsub hst e he
    rw [List.foldl_cons] at he
    refine ih _ (fun x hx => hsub x (List.mem_cons_of_mem _ hx)) ?_ e he
    intro e' he'
    revert he'
    unfold userPhaseStep
    by_cases hp : (pp && tab.pinned) = true
    · rw [if_pos hp]
      dsimp only
      intro he'
      rcases mapSet_mem _ _ _ _ he' with h | h
      · exact hst e' h
      · rw [h]
        exact ⟨rfl, ⟨tab, hsub tab (List.mem_cons_self _ _), rfl, hp⟩⟩
    · rw [if_neg hp]
      dsimp only
      cases hm : matchCompiledRule rules (prepareTabForClassification tab) with
      | none => intro he'; exact hst e' he'
      | some m => intro he'; exact hst e' he'

/-- Every queued info of the user phase is the classification info of an
eligible tab. -/
theorem userFold_unmatched (pp : Bool) (rules : List CompiledRule) (mtg : Nat)
    (allTabs : List TabSnapshot) :
    ∀ (L : List TabSnapshot) (st : UserPhaseState),
      (∀ x ∈ L, x ∈ allTabs) →
      (∀ i ∈ st.unmatchedInfos, ∃ t ∈ allTabs, i = prepareTabForClassification t ∧
        (pp && t.pinned) = false) →
      ∀ i ∈ (L.foldl (userPhaseStep pp rules mtg) st).unmatchedInfos,
        ∃ t ∈ allTabs, i = prepareTabForClassification t ∧ (pp && t.pinned) = false := by
  intro L
  induction L with
  | nil => intro st _ hst i hi; exact hst i hi
  | cons tab rest ih =>
    intro st hsub hst i hi
    rw [List.foldl_cons] at hi
    refine ih _ (fun x hx => hsub x (List.mem_cons_of_mem _ hx)) ?_ i hi
    intro i' hi'
    revert hi'
    unfold userPhaseStep
    by_cases hp : (pp && tab.pinned) = true
    · rw [if_pos hp]
      intro hi'; exact hst i' hi'
    · rw [if_neg hp]
      have hp' : (pp && tab.pinned) = false := by
        revert hp; cases (pp && tab.pinned) <;> simp
      dsimp only
      cases hm : matchCompiledRule rules (prepareTabForClassification tab) with
      | some m => intro hi'; exact hst i' hi'
      | none =>
        intro hi'
        rcases List.mem_append.mp hi' with h | h
        · exact hst i' h
        · rcases List.mem_singleton.mp h with rfl
          exact ⟨tab, hsub tab (List.mem_cons_self _ _), rfl, hp'⟩

/-- The user phase only extends its assignments, pinned diagnostics and
unmatched queue. -/
theorem userFold_mono (pp : Bool) (rules : List CompiledRule) (mtg : Nat) :
    ∀ (L : List TabSnapshot) (st : UserPhaseState),
      (∀ k, (mapGet st.assignments k).isSome = true →
        (mapGet (L.foldl (userPhaseStep pp rules mtg) st).assignments k).isSome = true) ∧
      (∀ k, (mapGet st.pinnedDiagnostics k).isSome = true →
        (mapGet (L.foldl (userPhaseStep pp rules mtg) st).pinnedDiagnostics k).isSome
          = true) ∧
      (∀ i ∈ st.unmatchedInfos,
        i ∈ (L.foldl (userPhaseStep pp rules mtg) st).unmatchedInfos) := by
  intro L
  induction L with
  | nil => intro st; exact ⟨fun k h => h, fun k h => h, fun i h => h⟩
  | cons tab rest ih =>
    intro st
    have hstep : (∀ k, (mapGet st.assignments k).isSome = true →
        (mapGet (userPhaseStep pp rules mtg st tab).assignments k).isSome = true) ∧
        (∀ k, (mapGet st.pinnedDiagnostics k).isSome = true →
          (mapGet (userPhaseStep pp rules mtg st tab).pinnedDiagnostics k).isSome = true) ∧
        (∀ i ∈ st.unmatchedInfos,
          i ∈ (userPhaseStep pp rules mtg st tab).unmatchedInfos) := by
      unfold userPhaseStep
      by_cases hp : (pp && tab.pinned) = true
      · rw [if_pos hp]
        exact ⟨fun k h => h, fun k h => (mapSet_key_mem _ _ _ _).mpr (Or.inl h),
          fun i h => h⟩
      · rw [if_neg hp]
        dsimp only
        cases hm : matchCompiledRule rules (prepareTabForClassification tab) with
        | none =>
          exact ⟨fun k h => h, fun k h => h, fun i h => List.mem_append.mpr (Or.inl h)⟩
        | some m =>
          exact ⟨fun k h => (mapSet_key_mem _ _ _ _).mpr (Or.inl h), fun k h => h,
            fun i h => h⟩
    obtain ⟨s1, s2, s3⟩ := hstep
    obtain ⟨i1, i2, i3⟩ := ih (userPhaseStep pp rules mtg st tab)
    refine ⟨fun k h => ?_, fun k h => ?_, fun i h => ?_⟩
    · rw [List.foldl_cons]; exact i1 k (s1 k h)
    · rw [List.foldl_cons]; exact i2 k (s2 k h)
    · rw [List.foldl_cons]; exact i3 i (s3 i h)

/-- Coverage of the user phase: a pinned-skipped tab gets a pinned
diagnostic; an eligible tab is assigned or queued. -/
theorem userFold_cover (pp : Bool) (rules : List CompiledRule) (mtg : Nat) :
    ∀ (L : List TabSnapshot) (st : UserPhaseState),
      ∀ tab ∈ L,
        ((pp && tab.pinned) = true →
          (mapGet (L.foldl (userPhaseStep pp rules mtg) st).pinnedDiagnostics
            tab.id).isSome = true) ∧
        ((pp && tab.pinned) = false →
          (mapGet (L.foldl (userPhaseStep pp rules mtg) st).assignments tab.id).isSome
              = true ∨
            ∃ i ∈ (L.foldl (userPhaseStep pp rules mtg) st).unmatchedInfos,
              i.id = tab.id) := by
  intro L
  induction L with
  | nil => intro st tab h; simp at h
  | cons t0 rest ih =>
    intro st tab htab
    rcases List.mem_cons.mp htab with rfl | h'
    · rw [List.foldl_cons]
      obtain ⟨m1, m2, m3⟩ := userFold_mono pp rules mtg rest (userPhaseStep pp rules mtg st tab)
      constructor
      · intro hp
        refine m2 tab.id ?_
        unfold userPhaseStep
        rw [if_pos hp]
        dsimp only
        rw [mapGet_mapSet_self]
        rfl
      · intro hp
        have hp1 : ¬ (pp && tab.pinned) = true := by rw [hp]; simp
        cases hm : matchCompiledRule rules (prepareTabForClassification tab) with
        | some m =>
          refine Or.inl (m1 tab.id ?_)
          unfold userPhaseStep
          rw [if_neg hp1]
          dsimp only
          rw [hm]
          dsimp only
          rw [mapGet_mapSet_self]
          rfl
        | none =>
          refine Or.inr ⟨prepareTabForClassification tab, ?_, rfl⟩
          refine m3 _ ?_
          unfold userPhaseStep
          rw [if_neg hp1]
          dsimp only
          rw [hm]
          dsimp only
          exact List.mem_append.mpr (Or.inr (List.mem_singleton.mpr rfl))
    · rw [List.foldl_cons]
      exact ih (userPhaseStep pp rules mtg st t0) tab h'

/-- A fold whose first component is always a `mapSet` of record name to
record ids preserves any property of all stored ids. -/
theorem foldl_body_fst_ids {γ : Type}
    (body : (List (String × List Nat) × γ) → GroupRecord → (List (String × List Nat) × γ))
    (hbody : ∀ acc r, (body acc r).1 = mapSet acc.1 r.name r.tabIds)
    (Pid : Nat → Prop) :
    ∀ (L : List GroupRecord) (acc : List (String × List Nat) × γ),
      (∀ e ∈ acc.1, ∀ id ∈ e.2, Pid id) →
      (∀ r ∈ L, ∀ id ∈ r.tabIds, Pid id) →
      ∀ e ∈ (L.foldl body acc).1, ∀ id ∈ e.2, Pid id := by
  intro L
  induction L with
  | nil => intro acc hacc _ e he; exact hacc e he
  | cons r rest ih =>
    intro acc hacc hL e he
    rw [List.foldl_cons] at he
    refine ih _ ?_ (fun r' hr' => hL r' (List.mem_cons_of_mem _ hr')) e he
    intro e' he' id hid
    rw [hbody] at he'
    rcases mapSet_mem _ _ _ _ he' with h | h
    · exact hacc e' h id hid
    · rw [h] at hid
      exact hL r (List.mem_cons_self _ _) id hid

/-- Every id in a category group record is an input info's id. -/
theorem categorizeTabInfos_group_ids (tabInfos : List TabInfo) (maxGroups : Nat) :
    ∀ r ∈ (categorizeTabInfos tabInfos maxGroups).groups, ∀ id ∈ r.tabIds,
      ∃ info ∈ tabInfos, info.id = id := by
  intro r hr id hid
  have hr' : r ∈ (categoryStatsOf (categorizeTabInfos tabInfos maxGroups).assignments).map
      (fun e =>
        (⟨0, e.1,
          sortTabIdsByIndex e.2 (categorizeTabInfos tabInfos maxGroups).assignments,
          mapGet CATEGORY_COLOR_MAP e.1, "category"⟩ : GroupRecord)) :=
    (List.mem_insertionSort _).mp hr
  obtain ⟨st0, hst0, hmap⟩ := List.mem_map.mp hr'
  rw [← hmap] at hid
  have hid' : id ∈ st0.2 := (sortTabIdsByIndex_mem _ _ _).mp hid
  obtain ⟨kv, hkv, hkid⟩ :=
    categoryStatsOf_ids (categorizeTabInfos tabInfos maxGroups).assignments st0 hst0 id hid'
  obtain ⟨hkeq, info, hinfo, hkey⟩ := categorizeTabInfos_entries tabInfos maxGroups kv hkv
  refine ⟨info, hinfo, ?_⟩
  rw [hkey, ← hkeq]
  exact hkid

/-- Every id in any output group of `groupByRules` is the id of an eligible
(non-pinned-skipped) input tab. -/
theorem groupByRules_group_ids_src (tabs : List TabSnapshot) (options : GroupOptions) :
    ∀ e ∈ (groupByRules tabs options).groups, ∀ id ∈ e.2,
      ∃ t ∈ tabs, t.id = id ∧ (options.preservePinned && t.pinned) = false := by
  have hsnapsub : ∀ x ∈ List.insertionSort
      (fun a b : TabSnapshot => a.index ≤ b.index) tabs, x ∈ tabs :=
    fun x hx => (List.mem_insertionSort _).mp hx
  have hst_groups : ∀ g ∈ (userPhaseOf tabs options).userGroups, ∀ id ∈ g.2,
      ∃ t ∈ tabs, t.id = id ∧ (options.preservePinned && t.pinned) = false := by
    intro g hg id0 hid0
    exact userFold_group_ids options.preservePinned (compileUserRules options.userRules)
      (match options.maxTabsPerGroup with
       | some v => if 2 ≤ v then v.toNat else 0
       | none => 0) tabs
      (List.insertionSort (fun a b : TabSnapshot => a.index ≤ b.index) tabs)
      ⟨[], [], [], [], [], []⟩ hsnapsub
      (fun g0 hg0 => absurd hg0 (List.not_mem_nil g0)) g hg id0 hid0
  have hst_unm : ∀ i ∈ (userPhaseOf tabs options).unmatchedInfos,
      ∃ t ∈ tabs, i = prepareTabForClassification t ∧
        (options.preservePinned && t.pinned) = false := by
    intro i hi
    exact userFold_unmatched options.preservePinned (compileUserRules options.userRules)
      (match options.maxTabsPerGroup with
       | some v => if 2 ≤ v then v.toNat else 0
       | none => 0) tabs
      (List.insertionSort (fun a b : TabSnapshot => a.index ≤ b.index) tabs)
      ⟨[], [], [], [], [], []⟩ hsnapsub
      (fun i0 hi0 => absurd hi0 (List.not_mem_nil i0)) i hi
  have hrec : ∀ r ∈ recordsOf (userPhaseOf tabs options), ∀ id ∈ r.tabIds,
      ∃ t ∈ tabs, t.id = id ∧ (options.preservePinned && t.pinned) = false := by
    intro r hr id0 hid0
    rcases List.mem_append.mp hr with h1 | h1
    · obtain ⟨kv, hkv, hmap⟩ := List.mem_map.mp h1
      rw [← hmap] at hid0
      have hin : id0 ∈ kv.2 := (sortTabIdsByIndex_mem _ _ _).mp hid0
      exact hst_groups kv (List.mem_of_mem_filter hkv) id0 hin
    · revert h1
      unfold categoryResultOf
      split
      · intro h1; exact absurd h1 (List.not_mem_nil r)
      · intro h1
        obtain ⟨info, hinfo, hiid⟩ := categorizeTabInfos_group_ids _ _ r h1 id0 hid0
        obtain ⟨t, ht, hti, htel⟩ := hst_unm info hinfo
        refine ⟨t, ht, ?_, htel⟩
        rw [← hiid, hti]
        rfl
  have hcap : ∀ r ∈ (cappedOf (userPhaseOf tabs options)).1, ∀ id ∈ r.tabIds,
      ∃ t ∈ tabs, t.id = id ∧ (options.preservePinned && t.pinned) = false :=
    capTotalGroups_ids _ (recordsOf (userPhaseOf tabs options))
      (mergedAssignmentsOf (userPhaseOf tabs options)) 5 hrec
  have hnorm : ∀ r ∈ normalizedRecordsOf (userPhaseOf tabs options), ∀ id ∈ r.tabIds,
      ∃ t ∈ tabs, t.id = id ∧ (options.preservePinned && t.pinned) = false := by
    intro r hr id0 hid0
    have hr1 := (List.mem_insertionSort recordRank).mp hr
    have hr2 := List.mem_of_mem_filter hr1
    obtain ⟨r0, hr0, hmap⟩ := List.mem_map.mp hr2
    rw [← hmap] at hid0
    have hin : id0 ∈ r0.tabIds := (sortTabIdsByIndex_mem _ _ _).mp hid0
    exact hcap r0 hr0 id0 hin
  exact foldl_body_fst_ids _ (fun acc r => rfl)
    (fun id => ∃ t ∈ tabs, t.id = id ∧ (options.preservePinned && t.pinned) = false)
    (normalizedRecordsOf (userPhaseOf tabs options)) ([], [])
    (fun e0 h0 => absurd h0 (List.not_mem_nil e0)) hnorm

/-- The final diagnostic of an assignment always names a group. -/
theorem buildFinalDiagnostic_group (a : Assignment) :
    (buildFinalDiagnostic a).group = some a.category := by
  unfold buildFinalDiagnostic buildCategoryDiagnostic
  split
  · rfl
  · rfl

/-- Diagnostics totality for `groupByRules`: under distinct tab ids, every
input tab id maps to a diagnostic; pinned-skipped tabs get exactly the pinned
diagnostic and all other tabs get a diagnostic naming a group. -/
theorem groupByRules_diag_spec (tabs : List TabSnapshot) (options : GroupOptions)
    (hnd : (tabs.map TabSnapshot.id).Nodup) (t : TabSnapshot) (ht : t ∈ tabs) :
    ∃ dg, mapGet (groupByRules tabs options).diagnostics t.id = some dg ∧
      ((options.preservePinned && t.pinned) = true →
        dg = ⟨none, "pinned", none, none, [], []⟩) ∧
      ((options.preservePinned && t.pinned) = false → dg.group ≠ none) := by
  have hinj := List.inj_on_of_nodup_map hnd
  have hsnapsub : ∀ x ∈ List.insertionSort
      (fun a b : TabSnapshot => a.index ≤ b.index) tabs, x ∈ tabs :=
    fun x hx => (List.mem_insertionSort _).mp hx
  have htsnap : t ∈ List.insertionSort (fun a b : TabSnapshot => a.index ≤ b.index) tabs :=
    (List.mem_insertionSort _).mpr ht
  have hassignQ : ∀ e ∈ (userPhaseOf tabs options).assignments, e.2.id = e.1 ∧
      ∃ t' ∈ tabs, t'.id = e.1 ∧ (options.preservePinned && t'.pinned) = false := by
    intro e he
    exact userFold_assign_entries options.preservePinned
      (compileUserRules options.userRules)
      (match options.maxTabsPerGroup with
       | some v => if 2 ≤ v then v.toNat else 0
       | none => 0) tabs
      (List.insertionSort (fun a b : TabSnapshot => a.index ≤ b.index) tabs)
      ⟨[], [], [], [], [], []⟩ hsnapsub
      (fun e0 h0 => absurd h0 (List.not_mem_nil e0)) e he
  have hpinnedQ : ∀ e ∈ (userPhaseOf tabs options).pinnedDiagnostics,
      e.2 = ⟨none, "pinned", none, none, [], []⟩ ∧
      ∃ t' ∈ tabs, t'.id = e.1 ∧ (options.preservePinned && t'.pinned) = true := by
    intro e he
    exact userFold_pinned options.preservePinned (compileUserRules options.userRules)
      (match options.maxTabsPerGroup with
       | some v => if 2 ≤ v then v.toNat else 0
       | none => 0) tabs
      (List.insertionSort (fun a b : TabSnapshot => a.index ≤ b.index) tabs)
      ⟨[], [], [], [], [], []⟩ hsnapsub
      (fun e0 h0 => absurd h0 (List.not_mem_nil e0)) e he
  have hst_unm : ∀ i ∈ (userPhaseOf tabs options).unmatchedInfos,
      ∃ t' ∈ tabs, i = prepareTabForClassification t' ∧
        (options.preservePinned && t'.pinned) = false := by
    intro i hi
    exact userFold_unmatched options.preservePinned (compileUserRules options.userRules)
      (match options.maxTabsPerGroup with
       | some v => if 2 ≤ v then v.toNat else 0
       | none => 0) tabs
      (List.insertionSort (fun a b : TabSnapshot => a.index ≤ b.index) tabs)
      ⟨[], [], [], [], [], []⟩ hsnapsub
      (fun i0 hi0 => absurd hi0 (List.not_mem_nil i0)) i hi
  have hcover := userFold_cover options.preservePinned (compileUserRules options.userRules)
    (match options.maxTabsPerGroup with
     | some v => if 2 ≤ v then v.toNat else 0
     | none => 0)
    (List.insertionSort (fun a b : TabSnapshot => a.index ≤ b.index) tabs)
    ⟨[], [], [], [], [], []⟩ t htsnap
  have hcatQ : ∀ e ∈ (categoryResultOf (userPhaseOf tabs options)).assignments,
      e.2.id = e.1 ∧ ∃ t' ∈ tabs, t'.id = e.1 ∧
        (options.preservePinned && t'.pinned) = false := by
    intro e he
    revert he
    unfold categoryResultOf
    split
    · intro he; exact absurd he (List.not_mem_nil e)
    · intro he
      obtain ⟨hkeq, info, hinfo, hkey⟩ := categorizeTabInfos_entries _ _ e he
      obtain ⟨t', ht', hti, htel⟩ := hst_unm info hinfo
      refine ⟨hkeq, t', ht', ?_, htel⟩
      rw [← hkey, hti]
      rfl
  have hmergedQ : ∀ e ∈ mergedAssignmentsOf (userPhaseOf tabs options),
      e.2.id = e.1 ∧ ∃ t' ∈ tabs, t'.id = e.1 ∧
        (options.preservePinned && t'.pinned) = false := by
    intro e he
    rcases foldl_mapSet_entry_mem Prod.fst Prod.snd
      (categoryResultOf (userPhaseOf tabs options)).assignments
      (userPhaseOf tabs options).assignments e he with h | ⟨kv, hkv, hekv⟩
    · exact hassignQ e h
    · rw [hekv]
      exact hcatQ kv hkv
  have hcapMerged : MergedFrom (mergedAssignmentsOf (userPhaseOf tabs options))
      (cappedOf (userPhaseOf tabs options)).2 :=
    capTotalGroups_merged (recordsOf (userPhaseOf tabs options))
      (mergedAssignmentsOf (userPhaseOf tabs options)) 5
  have hfinalQ : ∀ e ∈ (cappedOf (userPhaseOf tabs options)).2,
      e.2.id = e.1 ∧ ∃ t' ∈ tabs, t'.id = e.1 ∧
        (options.preservePinned && t'.pinned) = false := by
    intro e he
    exact MergedFrom.presQ
      (fun k i => i = k ∧ ∃ t' ∈ tabs, t'.id = k ∧
        (options.preservePinned && t'.pinned) = false)
      hcapMerged hmergedQ e he
  by_cases hp : (options.preservePinned && t.pinned) = true
  · -- pinned-skipped tab
    have hpd : (mapGet ((userPhaseOf tabs options).pinnedDiagnostics) t.id).isSome = true :=
      hcover.1 hp
    obtain ⟨v, hv, hvm⟩ := mapGet_isSome_exists hpd
    have hvval : v = ⟨none, "pinned", none, none, [], []⟩ := (hpinnedQ (t.id, v) hvm).1
    have hnokey : ∀ kv ∈ (cappedOf (userPhaseOf tabs options)).2, kv.1 ≠ t.id := by
      intro kv hkv hc
      obtain ⟨_, t', ht', htid, htel⟩ := hfinalQ kv hkv
      have : t' = t := hinj ht' ht (by rw [htid, hc])
      rw [this, hp] at htel
      exact Bool.noConfusion htel
    rcases foldl_mapSet_get Prod.fst (fun kv => buildFinalDiagnostic kv.2)
      (cappedOf (userPhaseOf tabs options)).2
      ((userPhaseOf tabs options).pinnedDiagnostics) t.id with ⟨heq, _⟩ | ⟨x, hx, hxk, _⟩
    · refine ⟨v, ?_, fun _ => hvval, fun hfalse => ?_⟩
      · rw [show mapGet (groupByRules tabs options).diagnostics t.id =
            mapGet ((cappedOf (userPhaseOf tabs options)).2.foldl
              (fun m kv => mapSet m kv.1 (buildFinalDiagnostic kv.2))
              ((userPhaseOf tabs options).pinnedDiagnostics)) t.id from rfl, heq]
        exact hv
      · rw [hp] at hfalse
        exact Bool.noConfusion hfalse
    · exact absurd hxk (hnokey x hx)
  · -- eligible tab
    have hp' : (options.preservePinned && t.pinned) = false := by
      revert hp; cases (options.preservePinned && t.pinned) <;> simp
    have hsome : (mapGet ((cappedOf (userPhaseOf tabs options)).2) t.id).isSome = true := by
      rw [MergedFrom.isSome hcapMerged t.id]
      rcases hcover.2 hp' with hA | ⟨i, hi, hiid⟩
      · exact foldl_mapSet_isSome_of_base Prod.fst Prod.snd _ _ t.id hA
      · have hne : ¬ (userPhaseOf tabs options).unmatchedInfos.isEmpty = true := by
          have hi2 : i ∈ (userPhaseOf tabs options).unmatchedInfos := hi
          cases hE : (userPhaseOf tabs options).unmatchedInfos with
          | nil => rw [hE] at hi2; exact absurd hi2 (List.not_mem_nil i)
          | cons a l => simp [List.isEmpty]
        have hcatSome : (mapGet
            ((categoryResultOf (userPhaseOf tabs options)).assignments) t.id).isSome
            = true := by
          have h0 : (mapGet ((categorizeTabInfos
              ((userPhaseOf tabs options).unmatchedInfos)
              (max 1 (5 - (userPhaseOf tabs options).userGroups.length))).assignments)
              t.id).isSome = true := by
            rw [← hiid]
            exact categorizeTabInfos_covers _ _ i hi
          rw [show (categoryResultOf (userPhaseOf tabs options)).assignments =
              (categorizeTabInfos ((userPhaseOf tabs options).unmatchedInfos)
                (max 1 (5 - (userPhaseOf tabs options).userGroups.length))).assignments
              from by unfold categoryResultOf; rw [if_neg hne]]
          exact h0
        obtain ⟨v, hv, hvm⟩ := mapGet_isSome_exists hcatSome
        have := foldl_mapSet_isSome_of_mem Prod.fst Prod.snd
          ((categoryResultOf (userPhaseOf tabs options)).assignments)
          ((userPhaseOf tabs options).assignments) (t.id, v) hvm
        exact this
    obtain ⟨v, hv, hvm⟩ := mapGet_isSome_exists hsome
    rcases foldl_mapSet_get Prod.fst (fun kv => buildFinalDiagnostic kv.2)
      (cappedOf (userPhaseOf tabs options)).2
      ((userPhaseOf tabs options).pinnedDiagnostics) t.id with ⟨_, hnone⟩ | ⟨x, hx, hxk, hget⟩
    · exact absurd rfl (hnone (t.id, v) hvm)
    · refine ⟨buildFinalDiagnostic x.2, ?_, fun htrue => ?_, fun _ => ?_⟩
      · rw [show mapGet (groupByRules tabs options).diagnostics t.id =
            mapGet ((cappedOf (userPhaseOf tabs options)).2.foldl
              (fun m kv => mapSet m kv.1 (buildFinalDiagnostic kv.2))
              ((userPhaseOf tabs options).pinnedDiagnostics)) t.id from rfl, hget]
      · rw [hp'] at htrue
        exact Bool.noConfusion htrue
      · rw [buildFinalDiagnostic_group]
        exact Option.some_ne_none _

/-- A pinned tab for the pin-safety scenario. -/
def c3Pinned : TabSnapshot := { sampleTab 1 "https://pin.test/a" 0 with pinned := true }

/-- A pinned tab plus a duplicate pair. -/
def c3Tabs : List TabSnapshot :=
  [c3Pinned, sampleTab 2 "https://site.test/b" 1, sampleTab 3 "https://site.test/b" 2]

/-- Preferences for the `c3Tabs` run. -/
def c3Prefs : DedupePreferences := ⟨true, true⟩

/-- Options for the `c3Tabs` run. -/
def c3Opts : GroupOptions := ⟨[], none, true⟩

/-- C3: with `preservePinned` set in both phases and distinct tab ids, a
pinned tab's id never appears in `computeDedupePlan`'s close list nor in any
output group of `groupByRules`. -/
theorem preservePinned_pin_safety (tabs : List TabSnapshot) (prefs : DedupePreferences)
    (options : GroupOptions) (hp : prefs.preservePinned = true)
    (ho : options.preservePinned = true) (hnd : (tabs.map TabSnapshot.id).Nodup)
    (t : TabSnapshot) (ht : t ∈ tabs) (hpin : t.pinned = true) :
    (∀ item ∈ (computeDedupePlan tabs prefs).tabsToClose, item.id ≠ t.id) ∧
    (∀ e ∈ (groupByRules tabs options).groups, t.id ∉ e.2) := by
  have hinj := List.inj_on_of_nodup_map hnd
  constructor
  · intro item hitem hc
    obtain ⟨t', ht', hid, _, hel⟩ := computeDedupePlan_close_src tabs prefs item hitem
    have heq : t' = t := hinj ht' ht (by rw [← hid, hc])
    rw [heq, hp, hpin] at hel
    simp at hel
  · intro e he hc
    obtain ⟨t', ht', hid, hel⟩ := groupByRules_group_ids_src tabs options e he t.id hc
    have heq : t' = t := hinj ht' ht hid
    rw [heq, ho, hpin] at hel
    simp at hel

/-- Witness for C3 at the concrete pinned tab. -/
theorem preservePinned_pin_safety_witness :
    (∀ item ∈ (computeDedupePlan c3Tabs c3Prefs).tabsToClose, item.id ≠ c3Pinned.id) ∧
    (∀ e ∈ (groupByRules c3Tabs c3Opts).groups, c3Pinned.id ∉ e.2) :=
  preservePinned_pin_safety c3Tabs c3Prefs c3Opts (by decide) (by decide) (by decide)
    c3Pinned (by decide) (by decide)

/-- An eligible tab for the diagnostics-totality scenario. -/
def c10Tab : TabSnapshot := sampleTab 2 "https://github.com/foo/bar" 1

/-- A pinned tab and an eligible tab. -/
def c10Tabs : List TabSnapshot :=
  [{ sampleTab 1 "https://pin.test/a" 0 with pinned := true }, c10Tab]

/-- Options for the `c10Tabs` run. -/
def c10Opts : GroupOptions := ⟨[], none, true⟩

/-- C10: after `groupByRules` on tabs with distinct ids, `explainClassification`
returns a diagnostic for every input tab id; pinned-skipped tabs get exactly
the pinned diagnostic and every other tab's diagnostic names its final
group. -/
theorem explainClassification_total (tabs : List TabSnapshot) (options : GroupOptions)
    (hnd : (tabs.map TabSnapshot.id).Nodup) (t : TabSnapshot) (ht : t ∈ tabs) :
    ∃ dg, explainClassification (groupByRules tabs options) t.id = some dg ∧
      ((options.preservePinned && t.pinned) = true →
        dg = ⟨none, "pinned", none, none, [], []⟩) ∧
      ((options.preservePinned && t.pinned) = false → dg.group ≠ none) :=
  groupByRules_diag_spec tabs options hnd t ht

/-- Witness for C10 at the concrete two-tab run. -/
theorem explainClassification_total_witness :
    ∃ dg, explainClassification (groupByRules c10Tabs c10Opts) c10Tab.id = some dg ∧
      ((c10Opts.preservePinned && c10Tab.pinned) = true →
        dg = ⟨none, "pinned", none, none, [], []⟩) ∧
      ((c10Opts.preservePinned && c10Tab.pinned) = false → dg.group ≠ none) :=
  explainClassification_total c10Tabs c10Opts (by decide) c10Tab (by decide)

/-- A duplicate pair sharing one domain. -/
def c6Tabs : List TabSnapshot :=
  [sampleTab 1 "https://dup.example/page" 0, sampleTab 2 "https://dup.example/page" 1]

/-- Preferences for the `c6Tabs` run. -/
def c6Prefs : DedupePreferences := ⟨true, true⟩

/-- Witness for C6 at a concrete duplicate pair sharing one domain. -/
theorem computeDedupePlan_domain_floor_witness :
    ∃ s ∈ (computeDedupePlan c6Tabs c6Prefs).survivors,
      extractDomain s.url = some "dup.example" :=
  computeDedupePlan_domain_floor c6Tabs c6Prefs (by decide) (by decide)
    (sampleTab 1 "https://dup.example/page" 0) (by decide) "dup.example" (by decide)

end TabOrg
